import Mathlib

/-!
Verification development for the yasm-derived assembler's expression
subsystem (src/libyasmx/expr.cpp), the NASM parser's symbol and align
handling (src/modules/parsers/nasm/NasmParser_parse.cpp), the Bytes
buffer (src/libyasmx/Bytes.h) and the NASM preprocessor expression
evaluator (src/modules/parsers/nasm/nasm-eval.cpp).

The C++ sources are shallowly embedded: expression trees become a nested
inductive type, in-place mutation becomes functions returning the new
value, and the arbitrary-precision IntNum becomes Lean's Int.  The
headers expr.h, intnum.h/cpp and floatnum.h/cpp are not part of the
visible sources; the small amount of information needed from them (the
operator classification and the integer/float calculation semantics) is
modelled from the specification and marked as such.
-/

namespace yasm

/-- Modelled from the spec: the operator set of the glossary (expr.h is not
in the visible sources).  COND is handled specially by the parser and never
reaches the expression code modelled here, so it is omitted. -/
inductive Op : Type where
  | IDENT | ADD | SUB | MUL | DIV | SIGNDIV | MOD | SIGNMOD
  | NEG | NOT | OR | AND | XOR | XNOR | NOR | SHL | SHR
  | LOR | LAND | LNOT | LXOR | LXNOR | LNOR
  | LT | GT | LE | GE | NE | EQ
  | SEG | WRT | SEGOFF
  deriving DecidableEq, Repr

namespace Op

/-- Modelled from the spec: in expr.cpp the test (m_op > Op::NONNUM) singles
out the non-numeric operators; per the spec these are the segment operators
SEG, WRT and SEGOFF, which follow the NONNUM marker in the enumeration. -/
def isNonNum : Op → Bool
  | SEG | WRT | SEGOFF => true
  | _ => false

/-- Modelled from the spec: the associative operators are ADD, MUL, AND, OR,
XOR, LAND and LOR (spec section 3, expression invariants). -/
def isAssociative : Op → Bool
  | ADD | MUL | AND | OR | XOR | LAND | LOR => true
  | _ => false

/-- Modelled from the spec: unary operators carry exactly one term; these
are NEG, NOT, LNOT, SEG, and the identity wrapper IDENT. -/
def isUnary : Op → Bool
  | IDENT | NEG | NOT | LNOT | SEG => true
  | _ => false

end Op

/-- Modelled from the spec: FloatNum is an arbitrary-precision binary float
(floatnum is not in the visible sources).  The expression claims use only
its negation, which is exact, so the value is carried abstractly as a
signed number and calc(NEG) negates it. -/
structure FloatNum : Type where
  val : Int
  deriving DecidableEq, Repr

/-- Modelled from the spec: FloatNum::calc(Op::NEG) negates the float. -/
def FloatNum.calcNeg (f : FloatNum) : FloatNum := ⟨-f.val⟩

/-- IntNum transparently holds an arbitrary-precision integer, so it is
embedded as Int. -/
abbrev IntNum := Int

namespace IntNum

/-- Modelled from the spec (section 4.1): in-place IntNum::calc(op, rhs) for
the binary operators.  Boolean operators yield 0 or 1; shifts are modelled
arithmetically; division or modulo by zero signals an error and leaves the
value unchanged, which is modelled by returning the left operand.  The
non-arithmetic operators (IDENT, SEG, WRT, SEGOFF) and the unary operators
leave the value unchanged when used as a binary fold.  (Named calcOp because
calc is a Lean keyword.) -/
def calcOp (op : Op) (a b : Int) : Int :=
  match op with
  | .ADD => a + b
  | .SUB => a - b
  | .MUL => a * b
  | .DIV => if b = 0 then a else a.tdiv b
  | .SIGNDIV => if b = 0 then a else a.tdiv b
  | .MOD => if b = 0 then a else a.tmod b
  | .SIGNMOD => if b = 0 then a else a.tmod b
  | .NOT => a
  | .OR => Int.lor a b
  | .AND => Int.land a b
  | .XOR => Int.xor a b
  | .XNOR => Int.lnot (Int.xor a b)
  | .NOR => Int.lnot (Int.lor a b)
  | .SHL => a * (2 ^ b.toNat)
  | .SHR => a / (2 ^ b.toNat)
  | .LOR => if a ≠ 0 ∨ b ≠ 0 then 1 else 0
  | .LAND => if a ≠ 0 ∧ b ≠ 0 then 1 else 0
  | .LNOT => a
  | .LXOR => if (a ≠ 0) ≠ (b ≠ 0) then 1 else 0
  | .LXNOR => if (a ≠ 0) = (b ≠ 0) then 1 else 0
  | .LNOR => if a = 0 ∧ b = 0 then 1 else 0
  | .LT => if a < b then 1 else 0
  | .GT => if a > b then 1 else 0
  | .LE => if a ≤ b then 1 else 0
  | .GE => if a ≥ b then 1 else 0
  | .NE => if a ≠ b then 1 else 0
  | .EQ => if a = b then 1 else 0
  | .NEG => a
  | .IDENT | .SEG | .WRT | .SEGOFF => a

/-- Modelled from the spec: IntNum::calc with a unary operator (NOT, NEG,
LNOT are the ones used by simplify_identity and xform_neg). -/
def calcUnary (op : Op) (a : Int) : Int :=
  match op with
  | .NEG => -a
  | .NOT => Int.lnot a
  | .LNOT => if a = 0 then 1 else 0
  | _ => a

/-- IntNum::is_zero. -/
def is_zero (a : Int) : Bool := a = 0

/-- IntNum::is_pos1. -/
def is_pos1 (a : Int) : Bool := a = 1

/-- IntNum::is_neg1. -/
def is_neg1 (a : Int) : Bool := a = -1

end IntNum

mutual

/-- Expr from expr.h/expr.cpp: an operator together with an ordered list of
terms. -/
inductive Expr : Type where
  | mk (op : Op) (terms : List ExprTerm)

/-- ExprTerm from expr.h: the tagged variant over register, integer,
substitution hole, float, symbol, location and sub-expression, with NONE as
the tombstone used during in-place mutation.  Registers, symbols and
locations are opaque identities and are embedded as natural numbers. -/
inductive ExprTerm : Type where
  | NONE : ExprTerm
  | REG : Nat → ExprTerm
  | INT : Int → ExprTerm
  | SUBST : Nat → ExprTerm
  | FLOAT : FloatNum → ExprTerm
  | SYM : Nat → ExprTerm
  | LOC : Nat → ExprTerm
  | EXPR : Expr → ExprTerm

end

/-- Expr::m_op. -/
def Expr.op : Expr → Op
  | .mk o _ => o

/-- Expr::m_terms. -/
def Expr.terms : Expr → List ExprTerm
  | .mk _ ts => ts

@[simp] theorem Expr.op_mk (o : Op) (ts : List ExprTerm) : (Expr.mk o ts).op = o := rfl

@[simp] theorem Expr.terms_mk (o : Op) (ts : List ExprTerm) :
    (Expr.mk o ts).terms = ts := rfl

theorem Expr.eta (e : Expr) : Expr.mk e.op e.terms = e := by cases e; rfl

theorem Expr.ext_iff {e f : Expr} : e = f ↔ e.op = f.op ∧ e.terms = f.terms := by
  cases e
  cases f
  simp only [Expr.op, Expr.terms, Expr.mk.injEq]

/-- ExprTerm::get_expr: the sub-expression of an EXPR term, null otherwise. -/
def ExprTerm.get_expr : ExprTerm → Option Expr
  | .EXPR e => some e
  | _ => none

/-- ExprTerm::get_int (as the value carried, when the term is an INT). -/
def ExprTerm.get_int : ExprTerm → Option Int
  | .INT n => some n
  | _ => none

/-- ExprTerm::get_subst. -/
def ExprTerm.get_subst : ExprTerm → Option Nat
  | .SUBST i => some i
  | _ => none

/-- ExprTerm::is_type(INT). -/
def ExprTerm.isInt : ExprTerm → Bool
  | .INT _ => true
  | _ => false

/-- ExprTerm::is_empty (type NONE). -/
def ExprTerm.is_empty : ExprTerm → Bool
  | .NONE => true
  | _ => false

/-- ExprTerm::is_type(EXPR). -/
def ExprTerm.isExpr : ExprTerm → Bool
  | .EXPR _ => true
  | _ => false

/-- Discriminator matching ExprTerm::is_type for each leaf/term kind, used
to embed contains(kind): kinds are numbered as in the C++ enum. -/
inductive TermKind : Type where
  | NONE | REG | INT | SUBST | FLOAT | SYM | LOC | EXPR
  deriving DecidableEq, Repr

/-- ExprTerm::is_type(type) for a TermKind. -/
def ExprTerm.is_type : ExprTerm → TermKind → Bool
  | .NONE, .NONE => true
  | .REG _, .REG => true
  | .INT _, .INT => true
  | .SUBST _, .SUBST => true
  | .FLOAT _, .FLOAT => true
  | .SYM _, .SYM => true
  | .LOC _, .LOC => true
  | .EXPR _, .EXPR => true
  | _, _ => false

mutual

/-- Expr::contains(type), via Expr::traverse_leaves_in: a left-to-right leaf
traversal looking for a term of the given kind; EXPR terms are descended
into rather than tested. -/
def Expr.contains (e : Expr) (ty : TermKind) : Bool :=
  match e with
  | .mk _ ts => containsTerms ts ty

/-- Worker for Expr::contains over a term list. -/
def containsTerms (ts : List ExprTerm) (ty : TermKind) : Bool :=
  match ts with
  | [] => false
  | t :: rest =>
    match t with
    | .EXPR e => Expr.contains e ty || containsTerms rest ty
    | t => t.is_type ty || containsTerms rest ty

end

/-- Expr::xform_neg_term: negate a single ExprTerm by building a -1*term
subexpression (the new MUL expression holds IntNum(-1) then the term). -/
def xform_neg_term (t : ExprTerm) : ExprTerm :=
  .EXPR (.mk .MUL [.INT (-1), t])

mutual

/-- Expr::xform_neg_helper: negates the expression by multiplying by -1,
distributing over ADD, turning SUB into ADD with the left side negated,
collapsing a negated NEG into IDENT, computing the negation of a lone
integer or float leaf, and otherwise wrapping the expression into -1*e.
The term lists of ADD nodes are handled by xformNegDistribute.  The
empty-list arms for SUB and IDENT are unreachable for well-formed
expressions (SUB carries two terms, IDENT one). -/
def Expr.xform_neg_helper (e : Expr) : Expr :=
  match e with
  | .mk .ADD ts => .mk .ADD (xformNegDistribute ts)
  | .mk .SUB [] => .mk .ADD []
  | .mk .SUB (t :: rest) =>
    match t with
    | .EXPR sube => .mk .ADD (.EXPR sube.xform_neg_helper :: rest)
    | t => .mk .ADD (xform_neg_term t :: rest)
  | .mk .NEG ts => .mk .IDENT ts
  | .mk .IDENT [] => .mk .IDENT []
  | .mk .IDENT (first :: rest) =>
    match first with
    | .FLOAT f => .mk .IDENT (.FLOAT f.calcNeg :: rest)
    | .INT n => .mk .IDENT (.INT (IntNum.calcUnary .NEG n) :: rest)
    | .EXPR e1 =>
      if e1.contains .FLOAT then .mk .IDENT (.EXPR e1.xform_neg_helper :: rest)
      else .mk .MUL ((ExprTerm.EXPR e1 :: rest) ++ [.INT (-1)])
    | first => .mk .MUL ((first :: rest) ++ [.INT (-1)])
  | .mk op ts => .mk .MUL [.INT (-1), .EXPR (.mk op ts)]

/-- Worker for the ADD case of xform_neg_helper: distribute the negation
over every term, recursing into sub-expressions and wrapping every other
term into -1*term. -/
def xformNegDistribute (ts : List ExprTerm) : List ExprTerm :=
  match ts with
  | [] => []
  | .EXPR sube :: rest => .EXPR sube.xform_neg_helper :: xformNegDistribute rest
  | t :: rest => xform_neg_term t :: xformNegDistribute rest

end

/-- Expr::xform_neg: transforms negatives at this node into forms easier to
combine: a NEG node becomes an IDENT run through the helper, and SUB(a,b)
becomes ADD(a, negate(b)).  The arms for a SUB with fewer than two terms are
unreachable for well-formed expressions; they change the operator to ADD
(as the code does before touching the right side) and leave the terms. -/
def Expr.xform_neg (e : Expr) : Expr :=
  match e with
  | .mk .NEG ts => Expr.xform_neg_helper (.mk .IDENT ts)
  | .mk .SUB (a :: rhs :: rest) =>
    match rhs with
    | .EXPR sube => .mk .ADD (a :: .EXPR sube.xform_neg_helper :: rest)
    | rhs => .mk .ADD (a :: xform_neg_term rhs :: rest)
  | .mk .SUB ts => .mk .ADD ts
  | e => e

/-- Contribution of one operator to countNS: 1 for NEG and SUB, else 0. -/
def Op.nsFlag : Op → Nat
  | .NEG => 1
  | .SUB => 1
  | _ => 0

mutual

/-- Number of NEG- and SUB-operator nodes in an expression; xform_neg
strictly decreases it at NEG/SUB roots, which drives the termination
measure of level_tree. -/
def Expr.countNS : Expr → Nat
  | .mk op ts => op.nsFlag + countNSTerms ts

/-- Worker for countNS over a term list. -/
def countNSTerms : List ExprTerm → Nat
  | [] => 0
  | .EXPR e :: rest => e.countNS + countNSTerms rest
  | _ :: rest => countNSTerms rest

end

mutual

/-- Number of nodes and leaves of an expression (secondary termination
measure of level_tree). -/
def Expr.esize : Expr → Nat
  | .mk _ ts => 1 + esizeTerms ts

/-- Worker for esize over a term list. -/
def esizeTerms : List ExprTerm → Nat
  | [] => 0
  | .EXPR e :: rest => e.esize + esizeTerms rest
  | _ :: rest => 1 + esizeTerms rest

end

/-- The function is_constant from expr.cpp: identities that make the entire
result constant, such as 0*x and -1|x. -/
def is_constant (op : Op) (intn : Int) : Bool :=
  let iszero := IntNum.is_zero intn
  (iszero && op = .MUL) ||
  (iszero && op = .AND) ||
  (iszero && op = .LAND) ||
  (IntNum.is_neg1 intn && op = .OR)

/-- The function can_destroy_int_left from expr.cpp: left identities such
as 0+x and 1*x. -/
def can_destroy_int_left (op : Op) (intn : Int) : Bool :=
  let iszero := IntNum.is_zero intn
  (IntNum.is_pos1 intn && op = .MUL) ||
  (iszero && op = .ADD) ||
  (IntNum.is_neg1 intn && op = .AND) ||
  (!iszero && op = .LAND) ||
  (iszero && op = .OR) ||
  (iszero && op = .LOR)

/-- The function can_destroy_int_right from expr.cpp: right identities such
as x+0 and x*1. -/
def can_destroy_int_right (op : Op) (intn : Int) : Bool :=
  let iszero := IntNum.is_zero intn
  let ispos1 := IntNum.is_pos1 intn
  (ispos1 && op = .MUL) ||
  (ispos1 && op = .DIV) ||
  (iszero && op = .ADD) ||
  (iszero && op = .SUB) ||
  (IntNum.is_neg1 intn && op = .AND) ||
  (!iszero && op = .LAND) ||
  (iszero && op = .OR) ||
  (iszero && op = .LOR) ||
  (iszero && op = .SHL) ||
  (iszero && op = .SHR)

/-- The IDENT-descend of the first loop of Expr::level_op: while the term
is a sub-expression with operator IDENT, replace it by that expression's
last term.  An IDENT node with no terms is left unchanged (unreachable for
well-formed expressions, where IDENT carries exactly one term). -/
def hoistIdent (t : ExprTerm) : ExprTerm :=
  match t with
  | .EXPR (.mk .IDENT ts) =>
    match h : ts.getLast? with
    | some l => hoistIdent l
    | none => .EXPR (.mk .IDENT ts)
  | t => t
termination_by sizeOf t
decreasing_by
  have hmem : l ∈ ts := List.mem_of_mem_getLast? h
  have := List.sizeOf_lt_of_mem hmem
  simp only [ExprTerm.EXPR.sizeOf_spec, Expr.mk.sizeOf_spec]
  omega

/-- Tail of the constant-folding pass of the first loop of Expr::level_op:
after the first integer term has been found with value acc, every further
integer term is folded into acc via IntNum::calc(op) and its slot destroyed
to a NONE tombstone.  Returns the folded value and the rewritten tail. -/
def foldFrom (op : Op) (acc : Int) : List ExprTerm → Int × List ExprTerm
  | [] => (acc, [])
  | .INT n :: rest =>
    let p := foldFrom op (IntNum.calcOp op acc n) rest
    (p.1, .NONE :: p.2)
  | t :: rest =>
    let p := foldFrom op acc rest
    (p.1, t :: p.2)

/-- Constant-folding pass of the first loop of Expr::level_op: locate the
first integer term, fold all later integer terms into it, and report its
position (the int_term index of the code, none when there is no integer
term). -/
def foldPass (op : Op) : List ExprTerm → List ExprTerm × Option Nat
  | [] => ([], none)
  | .INT n :: rest =>
    let p := foldFrom op n rest
    (.INT p.1 :: p.2, some 0)
  | t :: rest =>
    let p := foldPass op rest
    (t :: p.1, p.2.map (· + 1))

/-- The erase step of Expr::level_op: remove every NONE tombstone after
position p (std::remove_if from begin+int_term+1). -/
def eraseEmptiesAfter (p : Nat) (ts : List ExprTerm) : List ExprTerm :=
  ts.take (p + 1) ++ (ts.drop (p + 1)).filter (fun t => !t.is_empty)

/-- Erase the first INT term of the list (std::find_if for is_type(INT)
followed by erase, as done by Expr::simplify_identity). -/
def eraseFirstInt : List ExprTerm → List ExprTerm
  | [] => []
  | .INT _ :: rest => rest
  | t :: rest => t :: eraseFirstInt rest

/-- The first INT term of the list, if any (std::find_if for
is_type(INT)). -/
def firstIntTerm : List ExprTerm → Option ExprTerm
  | [] => none
  | .INT n :: _ => some (.INT n)
  | _ :: rest => firstIntTerm rest

/-- Expr::simplify_identity, operating on a node (op, ts) whose designated
integer term sits at index idx (the caller, level_op, guarantees that
position idx holds the only integer term).  Checks the identities that
delete the integer (can_destroy_int_left/right, suppressed for 1*REG when
simplify_reg_mul is false), the identities that delete everything but the
integer (is_constant), computes NOT/NEG/LNOT on a lone integer, and turns
the node into an IDENT when one term remains.  If index idx does not hold
an integer the node is returned unchanged (unreachable from level_op). -/
def Expr.simplify_identity (simplify_reg_mul : Bool) (op : Op)
    (ts : List ExprTerm) (idx : Nat) : Op × List ExprTerm :=
  match (ts.get? idx).bind ExprTerm.get_int with
  | none => (op, ts)
  | some v =>
    let is_first := idx = 0
    let st1 :=
      if 1 < ts.length then
        if (simplify_reg_mul || !(op = .MUL) || !(IntNum.is_pos1 v) ||
            !((Expr.mk op ts).contains .REG)) &&
           ((is_first && can_destroy_int_left op v) ||
            (!is_first && can_destroy_int_right op v)) then
          (eraseFirstInt ts, (none : Option Int))
        else if is_constant op v then
          match firstIntTerm ts with
          | some t => ([t], t.get_int)
          | none => (ts, some v)
        else (ts, some v)
      else (ts, some v)
    let ts2 :=
      match st1.2 with
      | some w =>
        if st1.1.length = 1 ∧ is_first ∧ (op = .NOT ∨ op = .NEG ∨ op = .LNOT) then
          [ExprTerm.INT (IntNum.calcUnary op w)]
        else st1.1
      | none => st1.1
    if ts2.length = 1 then (Op.IDENT, ts2) else (op, ts2)

/-- The integer value at position j of the output list of the leveling
phase (the slot is guaranteed to hold an INT term when used). -/
def getIntAt (ts : List ExprTerm) (j : Nat) : Int :=
  match (ts.get? j).bind ExprTerm.get_int with
  | some v => v
  | none => 0

/-- Moving up the terms of a same-operator child during the leveling phase
of Expr::level_op.  The child's terms are taken from the back (the caller
passes them reversed); with fold_const, an integer child term is folded
into the integer already at index j of the output (IntNum::calc(op)), or
becomes that integer if there is none yet.  State is the output list under
construction (in reverse build order) and the index of its integer term. -/
def moveUpTerms (fc : Bool) (op : Op) :
    List ExprTerm → List ExprTerm × Option Nat → List ExprTerm × Option Nat
  | [], st => st
  | c :: rest, (out, j?) =>
    match fc, c with
    | true, .INT k =>
      match j? with
      | some j => moveUpTerms fc op rest (out.set j (.INT (IntNum.calcOp op (getIntAt out j) k)), some j)
      | none => moveUpTerms fc op rest (out ++ [.INT k], some out.length)
    | _, c => moveUpTerms fc op rest (out ++ [c], j?)

/-- The leveling phase of Expr::level_op: iterate the node's terms in
reverse order (the caller passes them reversed); a child expression with
the same operator has its terms moved up via moveUpTerms, any other term is
kept, recording the first integer kept (int_term is only re-pointed when it
is still unset, which is what leaves a second integer term unfolded when an
integer of the node precedes a same-operator child contributing one). -/
def levelPhase (fc : Bool) (op : Op) :
    List ExprTerm → List ExprTerm × Option Nat → List ExprTerm × Option Nat
  | [], st => st
  | t :: rest, (out, j?) =>
    match t with
    | .EXPR c =>
      if c.op = op then
        levelPhase fc op rest (moveUpTerms fc op c.terms.reverse (out, j?))
      else
        levelPhase fc op rest
          (out ++ [t], if j?.isNone ∧ t.isInt then some out.length else j?)
    | t =>
      levelPhase fc op rest
        (out ++ [t], if j?.isNone ∧ t.isInt then some out.length else j?)

/-- The IDENT splice of Expr::level_op: when the operator has become IDENT
and the front term is a sub-expression, bring that expression's operator
and terms up to this level (the remaining terms, nonexistent in well-formed
expressions, are dropped as the clear-and-swap of the code drops them). -/
def bringUpIdent : Op × List ExprTerm → Op × List ExprTerm
  | (.IDENT, .EXPR c :: _) => (c.op, c.terms)
  | st => st

/-- The do_level test of Expr::level_op applied to one term: true for a
sub-expression carrying the same operator as the node. -/
def sameOpExpr (op : Op) (t : ExprTerm) : Bool :=
  match t with
  | .EXPR c => c.op = op
  | _ => false

/-- Expr::level_op: one level of leveling.  Brings IDENT values up into the
current level, folds integer constants when fold_const, erases the folded
tombstones, simplifies identities, splices out a single IDENT-wrapped
sub-expression, and, for associative operators when a same-operator child
was seen, moves the children's terms up into this level (in reverse order,
folding integers as described at levelPhase), then simplifies identities
again and splices a resulting IDENT wrapper. -/
def Expr.level_op (fold_const simplify_ident simplify_reg_mul : Bool)
    (e : Expr) : Expr :=
  match e with
  | .mk op ts =>
    let fc := if op.isNonNum then false else fold_const
    let ts1 := ts.map hoistIdent
    let do_level := ts1.any (sameOpExpr op)
    let st2 := if fc then foldPass op ts1 else (ts1, none)
    let st3 :=
      match st2.2 with
      | some p =>
        let tsE := eraseEmptiesAfter p st2.1
        if simplify_ident then
          Expr.simplify_identity simplify_reg_mul op tsE p
        else if tsE.length = 1 then (Op.IDENT, tsE) else (op, tsE)
      | none => (op, st2.1)
    let st4 := bringUpIdent st3
    if !do_level || !(st4.1).isAssociative then .mk st4.1 st4.2
    else
      let lp := levelPhase fc st4.1 (st4.2).reverse ([], none)
      let ts5 := (lp.1).reverse
      let st6 :=
        match lp.2 with
        | some j =>
          if simplify_ident then
            Expr.simplify_identity simplify_reg_mul st4.1 ts5 (ts5.length - 1 - j)
          else if ts5.length = 1 then (Op.IDENT, ts5) else (st4.1, ts5)
        | none => if ts5.length = 1 then (Op.IDENT, ts5) else (st4.1, ts5)
      let st7 := bringUpIdent st6
      .mk st7.1 st7.2

/-- The SEG(SEG:OFF) pre-pass of Expr::level_tree: when the node is a SEG
whose front term is a SEGOFF sub-expression, both become IDENT and the
offset (last) term of the SEGOFF is destroyed, leaving just the segment. -/
def segPrepass (e : Expr) : Expr :=
  match e with
  | .mk .SEG (.EXPR (.mk .SEGOFF cts) :: rest) =>
    .mk .IDENT (.EXPR (.mk .IDENT cts.dropLast) :: rest)
  | e => e

/-- Bound used by the termination measure of level_tree: countNSTerms of a
cons splits off the head's contribution. -/
def countNSTerms_cons (t : ExprTerm) (l : List ExprTerm) :
    countNSTerms (t :: l) = countNSTerms [t] + countNSTerms l := by
  cases t <;> simp [countNSTerms]

/-- Bound used by the termination measure of level_tree: esizeTerms of a
cons splits off the head's contribution. -/
def esizeTerms_cons (t : ExprTerm) (l : List ExprTerm) :
    esizeTerms (t :: l) = esizeTerms [t] + esizeTerms l := by
  cases t <;> simp [esizeTerms]

/-- Bound used by the termination measure of level_tree: countNSTerms is
additive over append. -/
def countNSTerms_append (ts us : List ExprTerm) :
    countNSTerms (ts ++ us) = countNSTerms ts + countNSTerms us := by
  induction ts with
  | nil => simp [countNSTerms]
  | cons t rest ih =>
    rw [List.cons_append, countNSTerms_cons, countNSTerms_cons t rest]
    omega

mutual

/-- Bound used by the termination measure of level_tree: xform_neg_helper
never increases the number of NEG/SUB nodes. -/
def countNS_helper_le : (e : Expr) →
    (Expr.xform_neg_helper e).countNS ≤ e.countNS
  | .mk .ADD ts => by
    have h := countNS_distribute_le ts
    simpa [Expr.xform_neg_helper, Expr.countNS, Op.nsFlag] using h
  | .mk .SUB [] => by simp [Expr.xform_neg_helper, Expr.countNS, Op.nsFlag]
  | .mk .SUB (.EXPR sube :: rest) => by
    have h := countNS_helper_le sube
    simp only [Expr.xform_neg_helper, Expr.countNS, Op.nsFlag]
    rw [countNSTerms_cons, countNSTerms_cons (ExprTerm.EXPR sube)]
    simp only [countNSTerms]
    omega
  | .mk .SUB (.NONE :: rest) => by
    simp only [Expr.xform_neg_helper, Expr.countNS, Op.nsFlag, xform_neg_term]
    rw [countNSTerms_cons, countNSTerms_cons ExprTerm.NONE]
    simp [countNSTerms, Expr.countNS, Op.nsFlag]
  | .mk .SUB (.REG r :: rest) => by
    simp only [Expr.xform_neg_helper, Expr.countNS, Op.nsFlag, xform_neg_term]
    rw [countNSTerms_cons, countNSTerms_cons (ExprTerm.REG r)]
    simp [countNSTerms, Expr.countNS, Op.nsFlag]
  | .mk .SUB (.INT n :: rest) => by
    simp only [Expr.xform_neg_helper, Expr.countNS, Op.nsFlag, xform_neg_term]
    rw [countNSTerms_cons, countNSTerms_cons (ExprTerm.INT n)]
    simp [countNSTerms, Expr.countNS, Op.nsFlag]
  | .mk .SUB (.SUBST i :: rest) => by
    simp only [Expr.xform_neg_helper, Expr.countNS, Op.nsFlag, xform_neg_term]
    rw [countNSTerms_cons, countNSTerms_cons (ExprTerm.SUBST i)]
    simp [countNSTerms, Expr.countNS, Op.nsFlag]
  | .mk .SUB (.FLOAT f :: rest) => by
    simp only [Expr.xform_neg_helper, Expr.countNS, Op.nsFlag, xform_neg_term]
    rw [countNSTerms_cons, countNSTerms_cons (ExprTerm.FLOAT f)]
    simp [countNSTerms, Expr.countNS, Op.nsFlag]
  | .mk .SUB (.SYM s :: rest) => by
    simp only [Expr.xform_neg_helper, Expr.countNS, Op.nsFlag, xform_neg_term]
    rw [countNSTerms_cons, countNSTerms_cons (ExprTerm.SYM s)]
    simp [countNSTerms, Expr.countNS, Op.nsFlag]
  | .mk .SUB (.LOC l :: rest) => by
    simp only [Expr.xform_neg_helper, Expr.countNS, Op.nsFlag, xform_neg_term]
    rw [countNSTerms_cons, countNSTerms_cons (ExprTerm.LOC l)]
    simp [countNSTerms, Expr.countNS, Op.nsFlag]
  | .mk .NEG ts => by simp [Expr.xform_neg_helper, Expr.countNS, Op.nsFlag]
  | .mk .IDENT [] => by simp [Expr.xform_neg_helper]
  | .mk .IDENT (.FLOAT f :: rest) => by
    simp [Expr.xform_neg_helper, Expr.countNS, Op.nsFlag]
    rw [countNSTerms_cons, countNSTerms_cons (ExprTerm.FLOAT f)]
    simp [countNSTerms]
  | .mk .IDENT (.INT n :: rest) => by
    simp [Expr.xform_neg_helper, Expr.countNS, Op.nsFlag]
    rw [countNSTerms_cons, countNSTerms_cons (ExprTerm.INT n)]
    simp [countNSTerms]
  | .mk .IDENT (.EXPR e1 :: rest) => by
    have h := countNS_helper_le e1
    by_cases hf : e1.contains .FLOAT = true
    · simp only [Expr.xform_neg_helper, hf, if_pos, Expr.countNS, Op.nsFlag]
      rw [countNSTerms_cons, countNSTerms_cons (ExprTerm.EXPR e1)]
      simp only [countNSTerms]
      omega
    · simp only [Expr.xform_neg_helper, hf]
      simp only [Bool.false_eq_true, if_false, Expr.countNS]
      rw [countNSTerms_append]
      rw [countNSTerms_cons, countNSTerms_cons (ExprTerm.EXPR e1)]
      simp [countNSTerms, Op.nsFlag]
  | .mk .IDENT (.NONE :: rest) => by
    simp only [Expr.xform_neg_helper, Expr.countNS, Op.nsFlag]
    rw [countNSTerms_append]
    simp [countNSTerms]
  | .mk .IDENT (.REG r :: rest) => by
    simp only [Expr.xform_neg_helper, Expr.countNS, Op.nsFlag]
    rw [countNSTerms_append]
    simp [countNSTerms]
  | .mk .IDENT (.SUBST i :: rest) => by
    simp only [Expr.xform_neg_helper, Expr.countNS, Op.nsFlag]
    rw [countNSTerms_append]
    simp [countNSTerms]
  | .mk .IDENT (.SYM s :: rest) => by
    simp only [Expr.xform_neg_helper, Expr.countNS, Op.nsFlag]
    rw [countNSTerms_append]
    simp [countNSTerms]
  | .mk .IDENT (.LOC l :: rest) => by
    simp only [Expr.xform_neg_helper, Expr.countNS, Op.nsFlag]
    rw [countNSTerms_append]
    simp [countNSTerms]
  | .mk .MUL ts => by simp [Expr.xform_neg_helper, Expr.countNS, Op.nsFlag, countNSTerms]
  | .mk .DIV ts => by simp [Expr.xform_neg_helper, Expr.countNS, Op.nsFlag, countNSTerms]
  | .mk .SIGNDIV ts => by simp [Expr.xform_neg_helper, Expr.countNS, Op.nsFlag, countNSTerms]
  | .mk .MOD ts => by simp [Expr.xform_neg_helper, Expr.countNS, Op.nsFlag, countNSTerms]
  | .mk .SIGNMOD ts => by simp [Expr.xform_neg_helper, Expr.countNS, Op.nsFlag, countNSTerms]
  | .mk .NOT ts => by simp [Expr.xform_neg_helper, Expr.countNS, Op.nsFlag, countNSTerms]
  | .mk .OR ts => by simp [Expr.xform_neg_helper, Expr.countNS, Op.nsFlag, countNSTerms]
  | .mk .AND ts => by simp [Expr.xform_neg_helper, Expr.countNS, Op.nsFlag, countNSTerms]
  | .mk .XOR ts => by simp [Expr.xform_neg_helper, Expr.countNS, Op.nsFlag, countNSTerms]
  | .mk .XNOR ts => by simp [Expr.xform_neg_helper, Expr.countNS, Op.nsFlag, countNSTerms]
  | .mk .NOR ts => by simp [Expr.xform_neg_helper, Expr.countNS, Op.nsFlag, countNSTerms]
  | .mk .SHL ts => by simp [Expr.xform_neg_helper, Expr.countNS, Op.nsFlag, countNSTerms]
  | .mk .SHR ts => by simp [Expr.xform_neg_helper, Expr.countNS, Op.nsFlag, countNSTerms]
  | .mk .LOR ts => by simp [Expr.xform_neg_helper, Expr.countNS, Op.nsFlag, countNSTerms]
  | .mk .LAND ts => by simp [Expr.xform_neg_helper, Expr.countNS, Op.nsFlag, countNSTerms]
  | .mk .LNOT ts => by simp [Expr.xform_neg_helper, Expr.countNS, Op.nsFlag, countNSTerms]
  | .mk .LXOR ts => by simp [Expr.xform_neg_helper, Expr.countNS, Op.nsFlag, countNSTerms]
  | .mk .LXNOR ts => by simp [Expr.xform_neg_helper, Expr.countNS, Op.nsFlag, countNSTerms]
  | .mk .LNOR ts => by simp [Expr.xform_neg_helper, Expr.countNS, Op.nsFlag, countNSTerms]
  | .mk .LT ts => by simp [Expr.xform_neg_helper, Expr.countNS, Op.nsFlag, countNSTerms]
  | .mk .GT ts => by simp [Expr.xform_neg_helper, Expr.countNS, Op.nsFlag, countNSTerms]
  | .mk .LE ts => by simp [Expr.xform_neg_helper, Expr.countNS, Op.nsFlag, countNSTerms]
  | .mk .GE ts => by simp [Expr.xform_neg_helper, Expr.countNS, Op.nsFlag, countNSTerms]
  | .mk .NE ts => by simp [Expr.xform_neg_helper, Expr.countNS, Op.nsFlag, countNSTerms]
  | .mk .EQ ts => by simp [Expr.xform_neg_helper, Expr.countNS, Op.nsFlag, countNSTerms]
  | .mk .SEG ts => by simp [Expr.xform_neg_helper, Expr.countNS, Op.nsFlag, countNSTerms]
  | .mk .WRT ts => by simp [Expr.xform_neg_helper, Expr.countNS, Op.nsFlag, countNSTerms]
  | .mk .SEGOFF ts => by simp [Expr.xform_neg_helper, Expr.countNS, Op.nsFlag, countNSTerms]

/-- Bound used by the termination measure of level_tree: the distribution
worker never increases the number of NEG/SUB nodes. -/
def countNS_distribute_le : (ts : List ExprTerm) →
    countNSTerms (xformNegDistribute ts) ≤ countNSTerms ts
  | [] => by simp [xformNegDistribute]
  | .EXPR sube :: rest => by
    have h1 := countNS_helper_le sube
    have h2 := countNS_distribute_le rest
    simp only [xformNegDistribute, countNSTerms]
    omega
  | .NONE :: rest => by
    have h2 := countNS_distribute_le rest
    simp only [xformNegDistribute, xform_neg_term, countNSTerms, Expr.countNS, Op.nsFlag]
    simpa [countNSTerms] using h2
  | .REG r :: rest => by
    have h2 := countNS_distribute_le rest
    simp only [xformNegDistribute, xform_neg_term, countNSTerms, Expr.countNS, Op.nsFlag]
    simpa [countNSTerms] using h2
  | .INT n :: rest => by
    have h2 := countNS_distribute_le rest
    simp only [xformNegDistribute, xform_neg_term, countNSTerms, Expr.countNS, Op.nsFlag]
    simpa [countNSTerms] using h2
  | .SUBST i :: rest => by
    have h2 := countNS_distribute_le rest
    simp only [xformNegDistribute, xform_neg_term, countNSTerms, Expr.countNS, Op.nsFlag]
    simpa [countNSTerms] using h2
  | .FLOAT f :: rest => by
    have h2 := countNS_distribute_le rest
    simp only [xformNegDistribute, xform_neg_term, countNSTerms, Expr.countNS, Op.nsFlag]
    simpa [countNSTerms] using h2
  | .SYM s :: rest => by
    have h2 := countNS_distribute_le rest
    simp only [xformNegDistribute, xform_neg_term, countNSTerms, Expr.countNS, Op.nsFlag]
    simpa [countNSTerms] using h2
  | .LOC l :: rest => by
    have h2 := countNS_distribute_le rest
    simp only [xformNegDistribute, xform_neg_term, countNSTerms, Expr.countNS, Op.nsFlag]
    simpa [countNSTerms] using h2

end

/-- Bound used by the termination measure of level_tree: a sub-expression
term contributes its whole count. -/
def countNSTerms_mem {c : Expr} : (ts : List ExprTerm) →
    ExprTerm.EXPR c ∈ ts → c.countNS ≤ countNSTerms ts := by
  intro ts h
  induction ts with
  | nil => simp at h
  | cons t rest ih =>
    rcases List.mem_cons.mp h with h1 | h2
    · rw [← h1, countNSTerms_cons]
      simp [countNSTerms]
    · rw [countNSTerms_cons]
      have := ih h2
      omega

/-- Bound used by the termination measure of level_tree: a sub-expression
term contributes its whole size. -/
def esizeTerms_mem {c : Expr} : (ts : List ExprTerm) →
    ExprTerm.EXPR c ∈ ts → c.esize ≤ esizeTerms ts := by
  intro ts h
  induction ts with
  | nil => simp at h
  | cons t rest ih =>
    rcases List.mem_cons.mp h with h1 | h2
    · rw [← h1, esizeTerms_cons]
      simp [esizeTerms]
    · rw [esizeTerms_cons]
      have := ih h2
      omega

/-- Bound used by the termination measure of level_tree: countNSTerms of a
node's term list is at most the node's count. -/
def countNSTerms_terms_le (x : Expr) : countNSTerms x.terms ≤ x.countNS := by
  obtain ⟨o, l⟩ := x
  simp [Expr.countNS, Expr.terms]

/-- Equation for xform_neg at an operator other than NEG and SUB: the node
is unchanged. -/
def xform_neg_ne (op : Op) (ts : List ExprTerm) (h1 : op ≠ .NEG)
    (h2 : op ≠ .SUB) : Expr.xform_neg (.mk op ts) = .mk op ts := by
  cases op <;> first
  | rfl
  | exact absurd rfl h1
  | exact absurd rfl h2

/-- Bound used by the termination measure of level_tree: xform_neg never
increases the number of NEG/SUB nodes, and strictly decreases it at a NEG
or SUB root. -/
def countNS_xform_neg_lt (e : Expr) (hns : e.op = .NEG ∨ e.op = .SUB) :
    (Expr.xform_neg e).countNS < e.countNS := by
  obtain ⟨op, ts⟩ := e
  rcases hns with h | h
  · cases h
    have h3 := countNS_helper_le (.mk .IDENT ts)
    have h4 : Expr.xform_neg (.mk Op.NEG ts) =
        Expr.xform_neg_helper (.mk .IDENT ts) := rfl
    rw [h4]
    have h5 : (Expr.mk Op.IDENT ts).countNS = countNSTerms ts := by
      simp [Expr.countNS, Op.nsFlag]
    have h6 : (Expr.mk Op.NEG ts).countNS = 1 + countNSTerms ts := by
      simp [Expr.countNS, Op.nsFlag]
    omega
  · cases h
    match ts with
    | [] =>
      simp [Expr.xform_neg, Expr.countNS, Op.nsFlag]
    | [a] =>
      have h4 : Expr.xform_neg (.mk Op.SUB [a]) = .mk Op.ADD [a] := by
        cases a <;> rfl
      rw [h4]
      simp [Expr.countNS, Op.nsFlag]
    | a :: rhs :: rest =>
      cases rhs with
      | EXPR sube =>
        have h4 : Expr.xform_neg (.mk Op.SUB (a :: .EXPR sube :: rest)) =
            .mk Op.ADD (a :: .EXPR sube.xform_neg_helper :: rest) := rfl
        rw [h4]
        have h5 := countNS_helper_le sube
        simp only [Expr.countNS, Op.nsFlag]
        rw [countNSTerms_cons, countNSTerms_cons (ExprTerm.EXPR sube.xform_neg_helper),
            countNSTerms_cons a (ExprTerm.EXPR sube :: rest),
            countNSTerms_cons (ExprTerm.EXPR sube)]
        simp only [countNSTerms]
        omega
      | NONE =>
        simp only [Expr.xform_neg, xform_neg_term, Expr.countNS, Op.nsFlag]
        rw [countNSTerms_cons, countNSTerms_cons
            (ExprTerm.EXPR (.mk .MUL [.INT (-1), .NONE])),
            countNSTerms_cons a (ExprTerm.NONE :: rest),
            countNSTerms_cons ExprTerm.NONE]
        simp [countNSTerms, Expr.countNS, Op.nsFlag]
      | REG r =>
        simp only [Expr.xform_neg, xform_neg_term, Expr.countNS, Op.nsFlag]
        rw [countNSTerms_cons, countNSTerms_cons
            (ExprTerm.EXPR (.mk .MUL [.INT (-1), .REG r])),
            countNSTerms_cons a (ExprTerm.REG r :: rest),
            countNSTerms_cons (ExprTerm.REG r)]
        simp [countNSTerms, Expr.countNS, Op.nsFlag]
      | INT n =>
        simp only [Expr.xform_neg, xform_neg_term, Expr.countNS, Op.nsFlag]
        rw [countNSTerms_cons, countNSTerms_cons
            (ExprTerm.EXPR (.mk .MUL [.INT (-1), .INT n])),
            countNSTerms_cons a (ExprTerm.INT n :: rest),
            countNSTerms_cons (ExprTerm.INT n)]
        simp [countNSTerms, Expr.countNS, Op.nsFlag]
      | SUBST i =>
        simp only [Expr.xform_neg, xform_neg_term, Expr.countNS, Op.nsFlag]
        rw [countNSTerms_cons, countNSTerms_cons
            (ExprTerm.EXPR (.mk .MUL [.INT (-1), .SUBST i])),
            countNSTerms_cons a (ExprTerm.SUBST i :: rest),
            countNSTerms_cons (ExprTerm.SUBST i)]
        simp [countNSTerms, Expr.countNS, Op.nsFlag]
      | FLOAT f =>
        simp only [Expr.xform_neg, xform_neg_term, Expr.countNS, Op.nsFlag]
        rw [countNSTerms_cons, countNSTerms_cons
            (ExprTerm.EXPR (.mk .MUL [.INT (-1), .FLOAT f])),
            countNSTerms_cons a (ExprTerm.FLOAT f :: rest),
            countNSTerms_cons (ExprTerm.FLOAT f)]
        simp [countNSTerms, Expr.countNS, Op.nsFlag]
      | SYM s =>
        simp only [Expr.xform_neg, xform_neg_term, Expr.countNS, Op.nsFlag]
        rw [countNSTerms_cons, countNSTerms_cons
            (ExprTerm.EXPR (.mk .MUL [.INT (-1), .SYM s])),
            countNSTerms_cons a (ExprTerm.SYM s :: rest),
            countNSTerms_cons (ExprTerm.SYM s)]
        simp [countNSTerms, Expr.countNS, Op.nsFlag]
      | LOC l =>
        simp only [Expr.xform_neg, xform_neg_term, Expr.countNS, Op.nsFlag]
        rw [countNSTerms_cons, countNSTerms_cons
            (ExprTerm.EXPR (.mk .MUL [.INT (-1), .LOC l])),
            countNSTerms_cons a (ExprTerm.LOC l :: rest),
            countNSTerms_cons (ExprTerm.LOC l)]
        simp [countNSTerms, Expr.countNS, Op.nsFlag]

/-- The termination argument of level_tree: any sub-expression child of
xform_neg(e) is smaller than e in the lexicographic (countNS, esize)
measure. -/
def level_tree_dec {c e : Expr}
    (h : ExprTerm.EXPR c ∈ (Expr.xform_neg e).terms) :
    c.countNS < e.countNS ∨ (c.countNS = e.countNS ∧ c.esize < e.esize) := by
  obtain ⟨op, ts⟩ := e
  by_cases hns : op = Op.NEG ∨ op = Op.SUB
  · left
    have h1 := countNSTerms_mem _ h
    have h2 := countNSTerms_terms_le (Expr.xform_neg (.mk op ts))
    have h3 := countNS_xform_neg_lt (.mk op ts) (by simpa using hns)
    omega
  · push_neg at hns
    rw [xform_neg_ne op ts hns.1 hns.2] at h
    simp only [Expr.terms] at h
    have h1 := countNSTerms_mem _ h
    have h2 := esizeTerms_mem _ h
    have h3 : (Expr.mk op ts).countNS = op.nsFlag + countNSTerms ts := by
      simp [Expr.countNS]
    have h4 : (Expr.mk op ts).esize = 1 + esizeTerms ts := by
      simp [Expr.esize]
    rcases Nat.lt_or_ge c.countNS (op.nsFlag + countNSTerms ts) with h5 | h5
    · left
      omega
    · right
      constructor
      · omega
      · omega

/-- The sub-expression held by an EXPR term; a dummy for other terms (only
used under an isExpr guard). -/
def ExprTerm.the_expr : ExprTerm → Expr
  | .EXPR c => c
  | _ => .mk .IDENT []

/-- The per-term recursion step of Expr::level_tree: a sub-expression term
is recursively leveled by F, every other term is untouched. -/
def levelChildWith (F : Expr → Expr) (t : ExprTerm) : ExprTerm :=
  if t.isExpr then ExprTerm.EXPR (F t.the_expr) else t

/-- Expr::level_tree with no extra transform callback (the xform_extra of
the claims is absent): transform negatives at this node, recursively level
every sub-expression term, collapse SEG of SEG:OFF, then level this
node. -/
def Expr.level_tree (fc si srm : Bool) (e : Expr) : Expr :=
  Expr.level_op fc si srm (segPrepass (.mk (e.xform_neg).op
    ((e.xform_neg).terms.attach.map (fun x =>
      if hx : x.val.isExpr = true
      then ExprTerm.EXPR (Expr.level_tree fc si srm x.val.the_expr)
      else x.val))))
termination_by (e.countNS, e.esize)
decreasing_by
  have hmem : ExprTerm.EXPR x.val.the_expr ∈ (e.xform_neg).terms := by
    obtain ⟨t, ht⟩ := x
    cases t <;> simp_all [ExprTerm.isExpr, ExprTerm.the_expr]
  rcases level_tree_dec hmem with h | ⟨h1, h2⟩
  · exact Prod.Lex.left _ _ h
  · rw [h1]
    exact Prod.Lex.right _ h2

/-- Expr::extract_segoff: when the expression has the exact shape
SEGOFF(a,b) (operator SEGOFF with exactly two terms), the left (segment)
term is extracted out into its own expression (an IDENT wrapper is built
when it is not already an expression) and returned, while the original
expression becomes an IDENT holding the remaining right (offset) term; any
other shape yields null with the expression unchanged.  The returned pair
is (returned auto_ptr, new value of *this). -/
def Expr.extract_segoff (e : Expr) : Option Expr × Expr :=
  match e with
  | .mk .SEGOFF [left, right] =>
    let retval : Expr :=
      match left with
      | .EXPR le => le
      | left => .mk .IDENT [left]
    (some retval, .mk .IDENT [right])
  | e => (none, e)

/-- Expr::extract_wrt: when the expression has the exact shape WRT(a,b),
the right term is extracted out into its own expression (IDENT-wrapped when
it is not an expression) and returned, while the original expression
becomes an IDENT holding the remaining left term; any other shape yields
null with the expression unchanged. -/
def Expr.extract_wrt (e : Expr) : Option Expr × Expr :=
  match e with
  | .mk .WRT [left, right] =>
    let retval : Expr :=
      match right with
      | .EXPR re => re
      | right => .mk .IDENT [right]
    (some retval, .mk .IDENT [left])
  | e => (none, e)

/-- Expr::substitute_cb over the direct terms of one node: every SUBST(i)
term is replaced by a clone of subst_terms[i]; an index at or past the end
returns true immediately (error), leaving that term and the rest
untouched.  Returns the error flag and the rewritten term list. -/
def substCb (σ : List ExprTerm) : List ExprTerm → Bool × List ExprTerm
  | [] => (false, [])
  | t :: rest =>
    match t.get_subst with
    | some i =>
      if h : i < σ.length then
        let p := substCb σ rest
        (p.1, σ.get ⟨i, h⟩ :: p.2)
      else (true, t :: rest)
    | none =>
      let p := substCb σ rest
      (p.1, t :: p.2)

mutual

/-- Expr::substitute: a post-order traversal (traverse_post) running
substitute_cb at every node; a true (error) return from any node aborts the
traversal immediately. -/
def Expr.substitute (σ : List ExprTerm) : Expr → Bool × Expr
  | .mk op ts =>
    let p := substPostTerms σ ts
    if p.1 then (true, .mk op p.2)
    else
      let q := substCb σ p.2
      (q.1, .mk op q.2)

/-- Worker for Expr::substitute over the terms of a node: recurse into each
sub-expression term in order, aborting on the first error. -/
def substPostTerms (σ : List ExprTerm) : List ExprTerm → Bool × List ExprTerm
  | [] => (false, [])
  | .EXPR c :: rest =>
    let p := Expr.substitute σ c
    if p.1 then (true, .EXPR p.2 :: rest)
    else
      let q := substPostTerms σ rest
      (q.1, .EXPR p.2 :: q.2)
  | t :: rest =>
    let q := substPostTerms σ rest
    (q.1, t :: q.2)

end

mutual

/-- Reference function for C6, following the claim's words: replace every
SUBST(i) leaf of the tree by terms[i] in a single pass (out-of-range
indices, excluded by the goodness hypothesis, leave the leaf in place). -/
def specSubst (σ : List ExprTerm) : Expr → Expr
  | .mk op ts => .mk op (specSubstTerms σ ts)

/-- Worker for specSubst over a term list. -/
def specSubstTerms (σ : List ExprTerm) : List ExprTerm → List ExprTerm
  | [] => []
  | .EXPR c :: rest => .EXPR (specSubst σ c) :: specSubstTerms σ rest
  | .SUBST i :: rest =>
    (if h : i < σ.length then σ.get ⟨i, h⟩ else .SUBST i) :: specSubstTerms σ rest
  | t :: rest => t :: specSubstTerms σ rest

end

mutual

/-- Decides whether some SUBST leaf of the tree carries an index at or past
n (the substitution term count); such a leaf makes substitute signal an
error. -/
def hasBadSubst (n : Nat) : Expr → Bool
  | .mk _ ts => hasBadSubstTerms n ts

/-- Worker for hasBadSubst over a term list. -/
def hasBadSubstTerms (n : Nat) : List ExprTerm → Bool
  | [] => false
  | .EXPR c :: rest => hasBadSubst n c || hasBadSubstTerms n rest
  | .SUBST i :: rest => decide (n ≤ i) || hasBadSubstTerms n rest
  | _ :: rest => hasBadSubstTerms n rest

end

/-- Direct-term substitution: the effect of one substitute_cb run on a term
list in the error-free case (SUBST(i) replaced by terms[i], everything else
kept). -/
def directSubst (σ : List ExprTerm) : List ExprTerm → List ExprTerm
  | [] => []
  | .SUBST i :: rest =>
    (if h : i < σ.length then σ.get ⟨i, h⟩ else .SUBST i) :: directSubst σ rest
  | t :: rest => t :: directSubst σ rest

/-- Whether some direct SUBST term of the list carries an index at or past
n (makes substitute_cb error). -/
def hasBadDirect (n : Nat) : List ExprTerm → Bool
  | [] => false
  | .SUBST i :: rest => decide (n ≤ i) || hasBadDirect n rest
  | _ :: rest => hasBadDirect n rest

/-- Whether some EXPR child of the list contains a bad SUBST leaf. -/
def hasBadChild (n : Nat) : List ExprTerm → Bool
  | [] => false
  | .EXPR c :: rest => hasBadSubst n c || hasBadChild n rest
  | _ :: rest => hasBadChild n rest

/-- Child substitution: the effect of the recursion of traverse_post on a
term list before this node's own substitute_cb runs (every sub-expression
fully substituted, direct terms untouched). -/
def substChildren (σ : List ExprTerm) : List ExprTerm → List ExprTerm
  | [] => []
  | .EXPR c :: rest => .EXPR (specSubst σ c) :: substChildren σ rest
  | t :: rest => t :: substChildren σ rest

/-- Bytes from Bytes.h: a byte vector (byte values embedded as naturals)
together with the read position m_readpos. -/
structure Bytes : Type where
  data : List Nat
  readpos : Nat
  deriving DecidableEq, Repr

/-- Bytes::size (the underlying vector's size). -/
def Bytes.size (b : Bytes) : Nat := b.data.length

/-- The modulus of size_type (std::size_t on the LP64 platform): the
member m_readpos and the argument n are size_type values, so
m_readpos += n wraps modulo 2^64. -/
def sizeTypeMod : Nat := 2 ^ 64

/-- Bytes::read(n): remembers oldpos = m_readpos, advances m_readpos by n
first (size_type addition, wrapping modulo 2^64), then throws
std::out_of_range if the new read position passed the end; otherwise
returns (a pointer to) index oldpos, where vector::at itself throws when
oldpos is not strictly inside the buffer.  The result is
(some pointer-index | none for a throw, the mutated object): the read
position stays updated even on the throwing paths. -/
def Bytes.read (b : Bytes) (n : Nat) : Option Nat × Bytes :=
  let oldpos := b.readpos
  let b1 : Bytes := { b with readpos := (oldpos + n) % sizeTypeMod }
  if (oldpos + n) % sizeTypeMod > b.size then (none, b1)
  else if oldpos < b.size then (some oldpos, b1)
  else (none, b1)

/-- Result of NasmParser::ParseSymbol, by lookup channel: an ordinary
symbol-table lookup (m_object->getSymbol) or a special-symbol lookup
(m_object->FindSpecialSymbol). -/
inductive SymLookup : Type where
  | table (name : List Char)
  | special (name : List Char)
  deriving DecidableEq, Repr

/-- NasmParser::ParseSymbol over a name (as a character list), given the
current local-label base m_locallabel_base.  Skips one leading forced-
identifier dollar (without shortening the cached length, as the code
does), then distinguishes ..@-prefixed non-local labels, ..-prefixed
special symbols (looked up without the leading two dots), and .-prefixed
local labels resolved against the base (warning when the base is empty).
Returns (lookup channel and name, warned, local flag). -/
def parseSymbol (base : List Char) (name : List Char) :
    SymLookup × Bool × Bool :=
  let len := name.length
  let name1 := if name.head? = some '$' then name.tail else name
  if 1 < len ∧ name1.get? 0 = some '.' then
    if 2 < len ∧ name1.get? 1 = some '.' then
      if 3 < len ∧ name1.get? 2 = some '@' then
        (.table name1, false, false)
      else
        (.special (name1.drop 2), false, false)
    else
      (.table (base ++ name1), base.isEmpty, true)
  else
    (.table name1, false, false)

/-- NasmParser::DefineLabel's effect on m_locallabel_base: defining a
non-local label makes its name the base for subsequent local labels; a
local definition leaves the base unchanged. -/
def defineLabelBase (base : List Char) (symname : List Char)
    (isLocal : Bool) : List Char :=
  if isLocal then base else symname

/-- Result of NasmParser::DirAlign: inside an absolute section the align is
folded into the absolute position expression and no bytecode is appended;
otherwise an align bytecode is appended to the current section. -/
inductive AlignAction : Type where
  | absFold (newAbspos : Int)
  | appendAlign (boundary : Int)
  deriving DecidableEq, Repr

/-- NasmParser::DirAlign, at the level of integer values: when m_abspos is
set (absolute section), m_abspos += (m_absstart - m_abspos) & (boundary -
1) and nothing is appended; otherwise an align bytecode for the boundary is
appended (the bitwise AND of IntNum on arbitrary-precision integers is
two's-complement, Int.land). -/
def dirAlign (absActive : Bool) (absstart abspos boundary : Int) :
    AlignAction :=
  if absActive then
    .absFold (abspos + Int.land (absstart - abspos) (boundary - 1))
  else
    .appendAlign boundary

/-- Operand tokens of the NASM preprocessor expression evaluator expr6
covered by C10: a number, an identifier, $ (TOKEN_HERE) and $$
(TOKEN_BASE). -/
inductive NasmEvalTok : Type where
  | num (n : Int)
  | ident (sym : Nat)
  | here
  | base
  deriving DecidableEq, Repr

/-- The operand resolution of expr6 in nasm-eval.cpp (lines 427-460), with
the yasm object present: a number becomes an integer expression; an
identifier found in the object's symbol table becomes a symbol expression
(with a Use recorded); an identifier that is not in the table produces a
non-fatal undefined-symbol error and the integer 1; $ and $$ cannot be
referenced in the preprocessor, so they produce a non-fatal error and the
integer 1.  The first component is the parsed expression (some: expr6
returns true; it never fails for these tokens), the second records whether
a non-fatal error was reported. -/
def expr6_atom (symtab : List Nat) (t : NasmEvalTok) : Option Expr × Bool :=
  match t with
  | .num n => (some (.mk .IDENT [.INT n]), false)
  | .ident s =>
    if s ∈ symtab then (some (.mk .IDENT [.SYM s]), false)
    else (some (.mk .IDENT [.INT 1]), true)
  | .here => (some (.mk .IDENT [.INT 1]), true)
  | .base => (some (.mk .IDENT [.INT 1]), true)

/-- Number of INT terms in a term list. -/
def countInts (ts : List ExprTerm) : Nat := ts.countP ExprTerm.isInt

mutual

/-- Well-formedness of an expression, as enforced by the Expr constructors
and their use: at least one term; exactly one term if and only if the
operator is unary; more than two terms only under an associative operator;
and no NONE tombstones (these exist only transiently inside mutation). -/
def Expr.WFb : Expr → Bool
  | .mk op ts =>
    decide (1 ≤ ts.length) &&
    (decide (ts.length = 1) → op.isUnary) &&
    (op.isUnary → decide (ts.length = 1)) &&
    (decide (2 < ts.length) → op.isAssociative) &&
    WFbTerms ts

/-- Worker for Expr.WFb over a term list: no NONE terms, sub-expressions
well-formed. -/
def WFbTerms : List ExprTerm → Bool
  | [] => true
  | .NONE :: _ => false
  | .EXPR c :: rest => c.WFb && WFbTerms rest
  | _ :: rest => WFbTerms rest

end

/-- Per-node conjunction of C1 exactly as the claim states it: no
sub-expression term with the same associative operator as the node, no
IDENT-wrapper chain (no term is an IDENT-operator expression, and the term
of an IDENT node is not an expression), at most one integer term, and a
node with exactly one term has operator IDENT. -/
def c1StatedNode (op : Op) (ts : List ExprTerm) : Bool :=
  ts.all (fun t =>
    match t with
    | .EXPR c => !(op.isAssociative && c.op = op) && !(c.op = Op.IDENT)
    | _ => true) &&
  (decide (op = Op.IDENT) → !(ts.head?.elim false ExprTerm.isExpr)) &&
  decide (countInts ts ≤ 1) &&
  (decide (ts.length = 1) → decide (op = Op.IDENT))

mutual

/-- The invariant C1 claims, applied at every node of the tree. -/
def c1Stated : Expr → Bool
  | .mk op ts => c1StatedNode op ts && c1StatedTerms ts

/-- Worker for c1Stated over a term list. -/
def c1StatedTerms : List ExprTerm → Bool
  | [] => true
  | .EXPR c :: rest => c1Stated c && c1StatedTerms rest
  | _ :: rest => c1StatedTerms rest

end

/-- Per-node conjunction of the amended C1 invariant, as actually
established by level_tree with fold_const and simplify_ident: flattening
and the absence of IDENT wrappers as claimed; at most two integer terms
for a numeric operator, and at most one unless the operator is associative
(the second one arises when an integer term of the node precedes a
same-operator child whose integer is folded separately); a node with
exactly one term has operator IDENT, NOT, LNOT or SEG; and no NEG or SUB
operator survives negation normalization. -/
def c1AmendedNode (op : Op) (ts : List ExprTerm) : Bool :=
  ts.all (fun t =>
    match t with
    | .EXPR c => !(op.isAssociative && c.op = op) && !(c.op = Op.IDENT)
    | _ => true) &&
  (decide (op = Op.IDENT) → decide (ts.length = 1) &&
    !(ts.head?.elim false ExprTerm.isExpr)) &&
  (!op.isNonNum → decide (countInts ts ≤ 2) &&
    (!op.isAssociative → decide (countInts ts ≤ 1))) &&
  (decide (ts.length = 1) →
    (decide (op = Op.IDENT) || decide (op = Op.NOT) ||
     decide (op = Op.LNOT) || decide (op = Op.SEG))) &&
  !(decide (op = Op.NEG)) && !(decide (op = Op.SUB)) &&
  decide (1 ≤ ts.length) &&
  (decide (2 < ts.length) → op.isAssociative) &&
  !ts.any ExprTerm.is_empty

mutual

/-- The amended C1 invariant, applied at every node of the tree. -/
def c1Amended : Expr → Bool
  | .mk op ts => c1AmendedNode op ts && c1AmendedTerms ts

/-- Worker for c1Amended over a term list. -/
def c1AmendedTerms : List ExprTerm → Bool
  | [] => true
  | .EXPR c :: rest => c1Amended c && c1AmendedTerms rest
  | _ :: rest => c1AmendedTerms rest

end

/-- The negation-normalization component of Expr::level_tree in isolation:
xform_neg applied at this node, then recursively at every sub-expression of
the result, in the same pre-order in which level_tree applies it (used to
state C2's tree-wide properties). -/
def xformNegTree (e : Expr) : Expr :=
  .mk (e.xform_neg).op
    ((e.xform_neg).terms.attach.map (fun x =>
      if hx : x.val.isExpr = true
      then ExprTerm.EXPR (xformNegTree x.val.the_expr)
      else x.val))
termination_by (e.countNS, e.esize)
decreasing_by
  have hmem : ExprTerm.EXPR x.val.the_expr ∈ (e.xform_neg).terms := by
    obtain ⟨t, ht⟩ := x
    cases t <;> simp_all [ExprTerm.isExpr, ExprTerm.the_expr]
  rcases level_tree_dec hmem with h | ⟨h1, h2⟩
  · exact Prod.Lex.left _ _ h
  · rw [h1]
    exact Prod.Lex.right _ h2

/-- The identities C3 claims simplify_identity applies, read generously:
the listed constant identities (0*x, -1|x, 0&x, 0&&x) and deletion
identities (1*x, 0+x, -1&x, nonzero&&x, 0|x, 0||x in either operand order;
x/1, x<<0, x>>0 with the integer on the right), for a node whose unique
integer term has value v sitting first (is_first) or not. -/
def c3ClaimedApplies (op : Op) (v : Int) (is_first : Bool) : Bool :=
  (decide (v = 0) && decide (op = Op.MUL)) ||
  (decide (v = -1) && decide (op = Op.OR)) ||
  (decide (v = 0) && decide (op = Op.AND)) ||
  (decide (v = 0) && decide (op = Op.LAND)) ||
  (decide (v = 1) && decide (op = Op.MUL)) ||
  (decide (v = 0) && decide (op = Op.ADD)) ||
  (decide (v = -1) && decide (op = Op.AND)) ||
  (decide (¬v = 0) && decide (op = Op.LAND)) ||
  (decide (v = 0) && decide (op = Op.OR)) ||
  (decide (v = 0) && decide (op = Op.LOR)) ||
  (!is_first && decide (v = 1) && decide (op = Op.DIV)) ||
  (!is_first && decide (v = 0) && decide (op = Op.SHL)) ||
  (!is_first && decide (v = 0) && decide (op = Op.SHR))

/-- The suppression guard of simplify_identity (the condition under which
the int-deleting identities are even considered): simplification is
suppressed only when simplify_reg_mul is false, the node is a MUL, the
integer is 1, and the node contains a register. -/
def destroyGuard (srm : Bool) (op : Op) (v : Int) (ts : List ExprTerm) : Bool :=
  srm || !(op = Op.MUL) || !(IntNum.is_pos1 v) || !((Expr.mk op ts).contains .REG)

/-- The int-deleting condition of simplify_identity: the left identities
when the integer is the first term, the right identities otherwise. -/
def destroyCond (op : Op) (v : Int) (idx : Nat) : Bool :=
  (decide (idx = 0) && can_destroy_int_left op v) ||
  (!decide (idx = 0) && can_destroy_int_right op v)

/-- A fully-leveled term, as maintained through the stages of level_op in
the C1 invariant proof: not a NONE tombstone, and any sub-expression
satisfies the amended invariant and is not itself an IDENT wrapper. -/
def TermOKS (t : ExprTerm) : Prop :=
  t ≠ ExprTerm.NONE ∧
  ∀ c, t = ExprTerm.EXPR c → c1Amended c = true ∧ c.op ≠ Op.IDENT

/-- A term as it enters level_op from level_tree: either a non-tombstone
term whose sub-expression (if any) is a recursively leveled tree, or the
single-term IDENT wrapper built by the SEG(SEG:OFF) pre-pass around a
fully-leveled term. -/
def TermOKL (t : ExprTerm) : Prop :=
  (t ≠ ExprTerm.NONE ∧ ∀ c, t = ExprTerm.EXPR c → c1Amended c = true) ∨
  ∃ a, t = ExprTerm.EXPR (.mk Op.IDENT [a]) ∧ TermOKS a

/-- Invariant of the output state of the leveling phase of level_op: every
term built so far is fully leveled and no sub-expression among them carries
the operator being leveled, and the recorded integer index (when set)
points at an INT term of the output. -/
def LPInv (op : Op) (st : List ExprTerm × Option Nat) : Prop :=
  (∀ t ∈ st.1, TermOKS t ∧ ∀ c, t = ExprTerm.EXPR c → c.op ≠ op) ∧
  (∀ j, st.2 = some j → ∃ w, st.1.get? j = some (ExprTerm.INT w))

/-!
## Theorems

General equation lemmas first, then the claims in order.
-/

theorem Expr.level_tree_def (fc si srm : Bool) (e : Expr) :
    Expr.level_tree fc si srm e =
      Expr.level_op fc si srm (segPrepass (.mk (e.xform_neg).op
        ((e.xform_neg).terms.map (levelChildWith (Expr.level_tree fc si srm))))) := by
  rw [Expr.level_tree]
  have h1 : (fun (x : {t // t ∈ (e.xform_neg).terms}) =>
      if hx : x.val.isExpr = true
      then ExprTerm.EXPR (Expr.level_tree fc si srm x.val.the_expr)
      else x.val) = fun (x : {t // t ∈ (e.xform_neg).terms}) =>
      levelChildWith (Expr.level_tree fc si srm) x.val := by
    funext x
    simp [levelChildWith]
  rw [h1]
  rw [List.attach_map_val]

theorem xformNegTree_def (e : Expr) :
    xformNegTree e =
      .mk (e.xform_neg).op
        ((e.xform_neg).terms.map (levelChildWith xformNegTree)) := by
  rw [xformNegTree]
  have h1 : (fun (x : {t // t ∈ (e.xform_neg).terms}) =>
      if hx : x.val.isExpr = true
      then ExprTerm.EXPR (xformNegTree x.val.the_expr)
      else x.val) = fun (x : {t // t ∈ (e.xform_neg).terms}) =>
      levelChildWith xformNegTree x.val := by
    funext x
    simp [levelChildWith]
  rw [h1]
  rw [List.attach_map_val]

/-- C5 counterexample: the claim says extract_segoff transforms the
original expression into the left part and returns the right part; on
SEGOFF(sym0, sym1) the code instead transforms the original into the right
(offset) part, IDENT(sym1), and returns the left (segment) part,
IDENT(sym0). -/
theorem c5_counterexample :
    Expr.extract_segoff (.mk .SEGOFF [.SYM 0, .SYM 1]) =
      (some (.mk .IDENT [.SYM 0]), .mk .IDENT [.SYM 1]) ∧
    (Expr.extract_segoff (.mk .SEGOFF [.SYM 0, .SYM 1])).2 ≠
      .mk .IDENT [.SYM 0] := by
  refine ⟨rfl, ?_⟩
  simp [Expr.extract_segoff]

/-- C5 (amended): extract_segoff succeeds exactly on the shape SEGOFF with
two terms and extract_wrt exactly on WRT with two terms, any other shape
returning null with the expression unchanged; on success the expression is
split into its two terms, extract_segoff returning the left (segment) part
and transforming the original into the right (offset) part, and
extract_wrt transforming the original into the left part and returning
the right part; a part that is not itself a sub-expression is wrapped in a
fresh IDENT expression when returned or kept. -/
theorem c5_extract_split :
    (∀ (le : Expr) (right : ExprTerm),
      Expr.extract_segoff (.mk .SEGOFF [.EXPR le, right]) =
        (some le, .mk .IDENT [right])) ∧
    (∀ (left right : ExprTerm), left.isExpr = false →
      Expr.extract_segoff (.mk .SEGOFF [left, right]) =
        (some (.mk .IDENT [left]), .mk .IDENT [right])) ∧
    (∀ e : Expr, ¬(e.op = .SEGOFF ∧ e.terms.length = 2) →
      e.extract_segoff = (none, e)) ∧
    (∀ (left : ExprTerm) (re : Expr),
      Expr.extract_wrt (.mk .WRT [left, .EXPR re]) =
        (some re, .mk .IDENT [left])) ∧
    (∀ (left right : ExprTerm), right.isExpr = false →
      Expr.extract_wrt (.mk .WRT [left, right]) =
        (some (.mk .IDENT [right]), .mk .IDENT [left])) ∧
    (∀ e : Expr, ¬(e.op = .WRT ∧ e.terms.length = 2) →
      e.extract_wrt = (none, e)) := by
  refine ⟨fun le right => rfl, ?_, ?_, fun left re => ?_, ?_, ?_⟩
  · intro left right h
    cases left <;> first | rfl | simp [ExprTerm.isExpr] at h
  · intro e h
    obtain ⟨op, ts⟩ := e
    by_cases hop : op = Op.SEGOFF
    · subst hop
      rcases ts with _ | ⟨a, _ | ⟨b, _ | ⟨c, rest⟩⟩⟩
      · rfl
      · rfl
      · exact absurd ⟨rfl, rfl⟩ h
      · rfl
    · cases op <;> first | rfl | exact absurd rfl hop
  · cases left <;> rfl
  · intro left right h
    cases right <;> first | (cases left <;> rfl) | simp [ExprTerm.isExpr] at h
  · intro e h
    obtain ⟨op, ts⟩ := e
    by_cases hop : op = Op.WRT
    · subst hop
      rcases ts with _ | ⟨a, _ | ⟨b, _ | ⟨c, rest⟩⟩⟩
      · rfl
      · rfl
      · exact absurd ⟨rfl, rfl⟩ h
      · rfl
    · cases op <;> first | rfl | exact absurd rfl hop

/-- C5 witness: the amended theorem at concrete inputs. -/
theorem c5_extract_split_witness :
    Expr.extract_segoff (.mk .SEGOFF [.EXPR (.mk .ADD [.SYM 0, .SYM 1]), .SYM 2]) =
      (some (.mk .ADD [.SYM 0, .SYM 1]), .mk .IDENT [.SYM 2]) ∧
    Expr.extract_wrt (.mk .WRT [.SYM 0, .SYM 1]) =
      (some (.mk .IDENT [.SYM 1]), .mk .IDENT [.SYM 0]) ∧
    Expr.extract_segoff (.mk .ADD [.SYM 0, .SYM 1]) =
      (none, .mk .ADD [.SYM 0, .SYM 1]) :=
  ⟨c5_extract_split.1 _ _,
   c5_extract_split.2.2.2.2.1 (.SYM 0) (.SYM 1) rfl,
   c5_extract_split.2.2.1 _ (by simp)⟩

/-- C9 counterexample: the claim says read(n) succeeds if and only if the
pre-call read position plus n does not exceed the buffer size, and that a
successful read never yields bytes outside the buffer.  Both fail: on an
empty buffer, read(0) satisfies 0 + 0 ≤ size yet throws, because
vector::at rejects index 0 on an empty vector; and on a two-byte buffer
at position 1, a read of 2^64 - 1 bytes wraps m_readpos to 0, passes the
size check, and succeeds with 1 + (2^64 - 1) far beyond the size, the
returned pointer licensing a read past the end. -/
theorem c9_counterexample :
    ((Bytes.read ⟨[], 0⟩ 0).1 = none ∧
      (Bytes.mk [] 0).readpos + 0 ≤ (Bytes.mk [] 0).size) ∧
    ((Bytes.read ⟨[7, 8], 1⟩ (2 ^ 64 - 1)).1 = some 1 ∧
      (Bytes.mk [7, 8] 1).size < 1 + (2 ^ 64 - 1) ∧
      (Bytes.read ⟨[7, 8], 1⟩ (2 ^ 64 - 1)).2.readpos = 0) := by
  decide

/-- C9 (amended): read(n) sets the read position to (pre + n) mod 2^64 in
every case (size_type addition wraps) and never touches the contents; it
succeeds if and only if that wrapped new position does not exceed the size
and the pre-call position is strictly inside the buffer (the second
condition only excludes a zero-length read starting exactly at the end,
which vector::at rejects); a successful read returns the pre-call
position, which is inside the buffer, and when the addition does not wrap
the whole n-byte range is inside the buffer; and when the wrapped new
position passes the end the read throws with the position already updated
past the end. -/
theorem c9_read (b : Bytes) (n : Nat) :
    (b.read n).2.readpos = (b.readpos + n) % sizeTypeMod ∧
    (b.read n).2.data = b.data ∧
    ((b.read n).1.isSome ↔
      (b.readpos + n) % sizeTypeMod ≤ b.size ∧ b.readpos < b.size) ∧
    (∀ p, (b.read n).1 = some p → p = b.readpos ∧ p < b.size ∧
      (b.readpos + n < sizeTypeMod → p + n ≤ b.size)) ∧
    (b.size < (b.readpos + n) % sizeTypeMod →
      (b.read n).1 = none ∧ b.size < (b.read n).2.readpos) := by
  simp only [Bytes.read, sizeTypeMod]
  split_ifs with h1 h2 <;>
    simp_all <;> omega

/-- C9 witness: the amended theorem at a concrete buffer. -/
theorem c9_read_witness :
    ((Bytes.mk [7, 8, 9] 1).read 2).2.readpos = (1 + 2) % sizeTypeMod ∧
    ((Bytes.mk [7, 8, 9] 1).read 2).2.data = [7, 8, 9] ∧
    (((Bytes.mk [7, 8, 9] 1).read 2).1.isSome ↔
      (1 + 2) % sizeTypeMod ≤ (Bytes.mk [7, 8, 9] 1).size ∧
      1 < (Bytes.mk [7, 8, 9] 1).size) ∧
    (∀ p, ((Bytes.mk [7, 8, 9] 1).read 2).1 = some p →
      p = 1 ∧ p < (Bytes.mk [7, 8, 9] 1).size ∧
      (1 + 2 < sizeTypeMod → p + 2 ≤ (Bytes.mk [7, 8, 9] 1).size)) ∧
    ((Bytes.mk [7, 8, 9] 1).size < (1 + 2) % sizeTypeMod →
      ((Bytes.mk [7, 8, 9] 1).read 2).1 = none ∧
      (Bytes.mk [7, 8, 9] 1).size < ((Bytes.mk [7, 8, 9] 1).read 2).2.readpos) :=
  c9_read (Bytes.mk [7, 8, 9] 1) 2

/-- C10: in the NASM preprocessor expression evaluator, an identifier
operand that is not in the object's symbol table is reported as a
non-fatal undefined-symbol error and evaluation continues with the operand
replaced by the integer 1; references to the special locations (dollar and
double dollar) are likewise errored and replaced by 1; none of these
operands makes expr6 fail. -/
theorem c10_expr6_undefined (symtab : List Nat) (s : Nat) (h : s ∉ symtab) :
    expr6_atom symtab (.ident s) = (some (.mk .IDENT [.INT 1]), true) ∧
    expr6_atom symtab .here = (some (.mk .IDENT [.INT 1]), true) ∧
    expr6_atom symtab .base = (some (.mk .IDENT [.INT 1]), true) ∧
    (∀ t, (expr6_atom symtab t).1.isSome) := by
  refine ⟨by simp [expr6_atom, h], rfl, rfl, ?_⟩
  intro t
  cases t <;> simp [expr6_atom]
  split_ifs <;> simp

/-- C10 witness: the theorem at a concrete symbol table. -/
theorem c10_expr6_undefined_witness :
    expr6_atom [3] (.ident 5) = (some (.mk .IDENT [.INT 1]), true) ∧
    expr6_atom [3] .here = (some (.mk .IDENT [.INT 1]), true) ∧
    expr6_atom [3] .base = (some (.mk .IDENT [.INT 1]), true) ∧
    (∀ t, (expr6_atom [3] t).1.isSome) :=
  c10_expr6_undefined [3] 5 (by decide)

/-- C7 counterexample: the claim says any name beginning with two dots
(other than the ..@ forms) is a special symbol looked up with the leading
dots stripped; the two-character name consisting of just two dots begins
with two dots, yet the code's length test (len > 2) fails for it, so it is
resolved as a local label against the base instead of through
FindSpecialSymbol. -/
theorem c7_counterexample :
    parseSymbol [] ['.', '.'] = (.table ['.', '.'], true, true) ∧
    (parseSymbol [] ['.', '.']).1 ≠ .special [] := by
  exact ⟨by decide, by decide⟩

/-- C7 (amended): for a name not starting with the forced-identifier
dollar, the NASM parser resolves: a name of length at least four beginning
dot-dot-at as an ordinary non-local symbol looked up verbatim; any other
name of length at least three beginning with two dots as a special symbol
looked up via FindSpecialSymbol with the two leading dots stripped; any
other name of length at least two beginning with a dot as a local label
looked up as the most recent non-local label's name prepended to the name,
with a warning exactly when no non-local label precedes; and every other
name (including the bare dot and bare dot-dot names that the claim's
prefix-based reading would misclassify) verbatim as non-local.  Defining a
non-local label replaces the base used for subsequent local labels; a
local definition keeps it. -/
theorem c7_parse_symbol (base name : List Char)
    (hd : name.head? ≠ some '$') :
    (3 < name.length → name.get? 0 = some '.' → name.get? 1 = some '.' →
      name.get? 2 = some '@' →
      parseSymbol base name = (.table name, false, false)) ∧
    (2 < name.length → name.get? 0 = some '.' → name.get? 1 = some '.' →
      ¬(3 < name.length ∧ name.get? 2 = some '@') →
      parseSymbol base name = (.special (name.drop 2), false, false)) ∧
    (1 < name.length → name.get? 0 = some '.' →
      ¬(2 < name.length ∧ name.get? 1 = some '.') →
      parseSymbol base name = (.table (base ++ name), base.isEmpty, true)) ∧
    (¬(1 < name.length ∧ name.get? 0 = some '.') →
      parseSymbol base name = (.table name, false, false)) ∧
    defineLabelBase base name false = name ∧
    defineLabelBase base name true = base := by
  have hname1 : (if name.head? = some '$' then name.tail else name) = name := by
    simp [hd]
  refine ⟨?_, ?_, ?_, ?_, rfl, rfl⟩
  · intro h1 h2 h3 h4
    simp only [parseSymbol, hname1]
    rw [if_pos ⟨by omega, h2⟩, if_pos ⟨by omega, h3⟩, if_pos ⟨h1, h4⟩]
  · intro h1 h2 h3 h4
    simp only [parseSymbol, hname1]
    rw [if_pos ⟨by omega, h2⟩, if_pos ⟨h1, h3⟩, if_neg h4]
  · intro h1 h2 h3
    simp only [parseSymbol, hname1]
    rw [if_pos ⟨h1, h2⟩, if_neg h3]
  · intro h1
    simp only [parseSymbol, hname1]
    rw [if_neg h1]

/-- C7 witness: the amended theorem at concrete names. -/
theorem c7_parse_symbol_witness :
    parseSymbol ['f'] ['.', '.', '@', 'x'] =
      (.table ['.', '.', '@', 'x'], false, false) ∧
    parseSymbol ['f'] ['.', '.', 's'] = (.special ['s'], false, false) ∧
    parseSymbol ['f'] ['.', 'l'] = (.table ['f', '.', 'l'], false, true) ∧
    parseSymbol ['f'] ['n'] = (.table ['n'], false, false) := by
  refine ⟨?_, ?_, ?_, ?_⟩
  · exact (c7_parse_symbol ['f'] ['.', '.', '@', 'x'] (by decide)).1
      (by decide) (by decide) (by decide) (by decide)
  · exact (c7_parse_symbol ['f'] ['.', '.', 's'] (by decide)).2.1
      (by decide) (by decide) (by decide) (by decide)
  · exact (c7_parse_symbol ['f'] ['.', 'l'] (by decide)).2.2.1
      (by decide) (by decide) (by decide)
  · exact (c7_parse_symbol ['f'] ['n'] (by decide)).2.2.2.1 (by decide)

/-- Two's-complement bitwise AND with a power-of-two mask is the
nonnegative remainder: for every integer x and natural k,
x AND (2^k - 1) = x mod 2^k. -/
theorem int_land_two_pow_sub_one (x : Int) (k : Nat) :
    Int.land x (2 ^ k - 1) = x % (2 ^ k) := by
  have hpow : (1 : Nat) ≤ 2 ^ k := Nat.one_le_two_pow
  have hcast : ((2 : Int) ^ k) = ((2 ^ k : Nat) : Int) := by
    push_cast
    ring
  have hmask : ((2 : Int) ^ k - 1) = ((2 ^ k - 1 : Nat) : Int) := by
    omega
  have hnat : ∀ m : Nat, m &&& (2 ^ k - 1) = m % 2 ^ k := by
    intro m
    apply Nat.eq_of_testBit_eq
    intro i
    rw [Nat.testBit_and, Nat.testBit_two_pow_sub_one, Nat.testBit_mod_two_pow]
    rw [Bool.and_comm]
  cases x with
  | ofNat m =>
    rw [hmask]
    have h1 : Int.land (Int.ofNat m) ((2 ^ k - 1 : Nat) : Int) =
        ((m &&& (2 ^ k - 1) : Nat) : Int) := rfl
    rw [h1, hnat m, hcast]
    exact Int.ofNat_emod m (2 ^ k)
  | negSucc m =>
    rw [hmask]
    have h1 : Int.land (Int.negSucc m) ((2 ^ k - 1 : Nat) : Int) =
        ((Nat.ldiff (2 ^ k - 1) m : Nat) : Int) := rfl
    rw [h1]
    have hlt : m % 2 ^ k < 2 ^ k := Nat.mod_lt _ (by omega)
    have hldiff : Nat.ldiff (2 ^ k - 1) m = 2 ^ k - 1 - m % 2 ^ k := by
      have h3 : 2 ^ k - 1 - m % 2 ^ k = 2 ^ k - (m % 2 ^ k + 1) := by omega
      rw [h3]
      apply Nat.eq_of_testBit_eq
      intro i
      rw [Nat.testBit_ldiff, Nat.testBit_two_pow_sub_one,
        Nat.testBit_two_pow_sub_succ hlt, Nat.testBit_mod_two_pow]
      cases hik : decide (i < k) <;> simp
    rw [hldiff, hcast]
    have h5 : (m : Int) = ((2 ^ k : Nat) : Int) * ((m / 2 ^ k : Nat) : Int) +
        ((m % 2 ^ k : Nat) : Int) := by
      exact_mod_cast (Nat.div_add_mod m (2 ^ k)).symm
    have hc1 : ((2 ^ k - 1 - m % 2 ^ k : Nat) : Int) =
        ((2 ^ k : Nat) : Int) - 1 - ((m % 2 ^ k : Nat) : Int) := by
      omega
    have hrepr : (Int.negSucc m) =
        ((2 ^ k - 1 - m % 2 ^ k : Nat) : Int) +
          ((2 ^ k : Nat) : Int) * (-((m / 2 ^ k : Nat) : Int) - 1) := by
      rw [Int.negSucc_eq, hc1]
      have hexp : ((2 ^ k : Nat) : Int) * (-((m / 2 ^ k : Nat) : Int) - 1) =
          -(((2 ^ k : Nat) : Int) * ((m / 2 ^ k : Nat) : Int)) -
            ((2 ^ k : Nat) : Int) := by
        ring
      rw [hexp]
      omega
    rw [hrepr, Int.add_mul_emod_self_left]
    refine (Int.emod_eq_of_lt ?_ ?_).symm
    · omega
    · omega

/-- C8: an align directive inside an absolute section appends no align
bytecode: the action is to fold (absstart - abspos) AND (boundary - 1)
into the absolute position.  For a power-of-two boundary B = 2^k the new
absolute position is the smallest position at least the old one whose
distance from the absolute start is a multiple of B, and the inserted pad
is between 0 and B - 1 bytes; outside an absolute section an align
bytecode is appended instead. -/
theorem c8_dir_align_absolute (absstart abspos : Int) (k : Nat)
    (B : Int) (hB : B = 2 ^ k) :
    ∃ newpos,
      dirAlign true absstart abspos B = .absFold newpos ∧
      abspos ≤ newpos ∧
      newpos - abspos ≤ B - 1 ∧
      (newpos - absstart) % B = 0 ∧
      (∀ m : Int, abspos ≤ m → (m - absstart) % B = 0 → newpos ≤ m) ∧
      dirAlign false absstart abspos B = .appendAlign B := by
  subst hB
  have hq : (0 : Int) < 2 ^ k := by positivity
  have hland := int_land_two_pow_sub_one (absstart - abspos) k
  have h0 : dirAlign true absstart abspos (2 ^ k) =
      .absFold (abspos + (absstart - abspos) % 2 ^ k) := by
    simp [dirAlign, hland]
  have hr0 : 0 ≤ (absstart - abspos) % 2 ^ k :=
    Int.emod_nonneg _ (ne_of_gt hq)
  have hrB : (absstart - abspos) % 2 ^ k < 2 ^ k :=
    Int.emod_lt_of_pos _ hq
  have hmod0 : (abspos + (absstart - abspos) % 2 ^ k - absstart) % 2 ^ k = 0 := by
    have h1 : abspos + (absstart - abspos) % 2 ^ k - absstart =
        (absstart - abspos) % 2 ^ k - (absstart - abspos) := by ring
    rw [h1, Int.sub_emod, Int.emod_emod_of_dvd _ (dvd_refl _)]
    simp
  refine ⟨abspos + (absstart - abspos) % 2 ^ k, h0, by omega, by omega, hmod0,
    ?_, by simp [dirAlign]⟩
  intro m hm hmod
  have hd1 : (2 ^ k : Int) ∣ (m - absstart) := Int.dvd_of_emod_eq_zero hmod
  have hd2 : (2 ^ k : Int) ∣ (abspos + (absstart - abspos) % 2 ^ k - absstart) :=
    Int.dvd_of_emod_eq_zero hmod0
  have hd3 : (2 ^ k : Int) ∣ (m - (abspos + (absstart - abspos) % 2 ^ k)) := by
    have h2 : m - (abspos + (absstart - abspos) % 2 ^ k) =
        (m - absstart) - (abspos + (absstart - abspos) % 2 ^ k - absstart) := by
      ring
    rw [h2]
    exact dvd_sub hd1 hd2
  obtain ⟨c, hc⟩ := hd3
  have hcge : 0 ≤ c := by
    by_contra hneg
    push_neg at hneg
    have hcle : c ≤ -1 := by omega
    have h6 : 2 ^ k * c ≤ 2 ^ k * (-1) :=
      mul_le_mul_of_nonneg_left hcle (le_of_lt hq)
    linarith [hc, h6, hm, hrB]
  have h7 : 0 ≤ 2 ^ k * c := mul_nonneg (le_of_lt hq) hcge
  linarith [hc, h7]

/-- C8 witness: the absolute-align theorem at concrete positions (start
100, position 259, boundary 8 = 2^3). -/
theorem c8_dir_align_absolute_witness :
    ∃ newpos,
      dirAlign true 100 259 8 = .absFold newpos ∧
      (259 : Int) ≤ newpos ∧
      newpos - 259 ≤ 8 - 1 ∧
      (newpos - 100) % 8 = 0 ∧
      (∀ m : Int, 259 ≤ m → (m - 100) % 8 = 0 → newpos ≤ m) ∧
      dirAlign false 100 259 8 = .appendAlign 8 :=
  c8_dir_align_absolute 100 259 3 8 (by norm_num)

theorem substCb_spec (σ : List ExprTerm) (ts : List ExprTerm) :
    (substCb σ ts).1 = hasBadDirect σ.length ts ∧
    (hasBadDirect σ.length ts = false →
      (substCb σ ts).2 = directSubst σ ts) := by
  induction ts with
  | nil => simp [substCb, hasBadDirect, directSubst]
  | cons t rest ih =>
    cases t with
    | SUBST i =>
      by_cases h : i < σ.length
      · have hd : decide (σ.length ≤ i) = false := by simp; omega
        simp only [substCb, ExprTerm.get_subst, hasBadDirect, directSubst,
          dif_pos h, hd, Bool.false_or]
        exact ⟨ih.1, fun hb => by rw [ih.2 hb]⟩
      · have hd : decide (σ.length ≤ i) = true := by simp; omega
        simp only [substCb, ExprTerm.get_subst, hasBadDirect, directSubst,
          dif_neg h, hd, Bool.true_or]
        simp
    | NONE =>
      simp only [substCb, ExprTerm.get_subst, hasBadDirect, directSubst]
      exact ⟨ih.1, fun hb => by rw [ih.2 hb]⟩
    | REG r =>
      simp only [substCb, ExprTerm.get_subst, hasBadDirect, directSubst]
      exact ⟨ih.1, fun hb => by rw [ih.2 hb]⟩
    | INT n =>
      simp only [substCb, ExprTerm.get_subst, hasBadDirect, directSubst]
      exact ⟨ih.1, fun hb => by rw [ih.2 hb]⟩
    | FLOAT f =>
      simp only [substCb, ExprTerm.get_subst, hasBadDirect, directSubst]
      exact ⟨ih.1, fun hb => by rw [ih.2 hb]⟩
    | SYM s =>
      simp only [substCb, ExprTerm.get_subst, hasBadDirect, directSubst]
      exact ⟨ih.1, fun hb => by rw [ih.2 hb]⟩
    | LOC l =>
      simp only [substCb, ExprTerm.get_subst, hasBadDirect, directSubst]
      exact ⟨ih.1, fun hb => by rw [ih.2 hb]⟩
    | EXPR c =>
      simp only [substCb, ExprTerm.get_subst, hasBadDirect, directSubst]
      exact ⟨ih.1, fun hb => by rw [ih.2 hb]⟩

theorem hasBadDirect_substChildren (n : Nat) (σ : List ExprTerm)
    (ts : List ExprTerm) :
    hasBadDirect n (substChildren σ ts) = hasBadDirect n ts := by
  induction ts with
  | nil => rfl
  | cons t rest ih => cases t <;> simp [substChildren, hasBadDirect, ih]

theorem directSubst_substChildren (σ : List ExprTerm) (ts : List ExprTerm) :
    directSubst σ (substChildren σ ts) = specSubstTerms σ ts := by
  induction ts with
  | nil => rfl
  | cons t rest ih => cases t <;> simp [substChildren, directSubst, specSubstTerms, ih]

theorem hasBadSubstTerms_split (n : Nat) (ts : List ExprTerm) :
    hasBadSubstTerms n ts = (hasBadChild n ts || hasBadDirect n ts) := by
  induction ts with
  | nil => rfl
  | cons t rest ih =>
    cases t <;> simp [hasBadSubstTerms, hasBadChild, hasBadDirect, ih] <;>
      (cases hasBadChild n rest <;> cases hasBadDirect n rest <;> simp)

mutual

theorem substitute_spec (σ : List ExprTerm) : (e : Expr) →
    (Expr.substitute σ e).1 = hasBadSubst σ.length e ∧
    (hasBadSubst σ.length e = false →
      (Expr.substitute σ e).2 = specSubst σ e)
  | .mk op ts => by
    have hts := substPostTerms_spec σ ts
    have hsplit := hasBadSubstTerms_split σ.length ts
    by_cases hbc : hasBadChild σ.length ts = true
    · have h1 : (substPostTerms σ ts).1 = true := by rw [hts.1, hbc]
      simp only [Expr.substitute, hasBadSubst, h1, if_true, hsplit, hbc,
        Bool.true_or]
      simp
    · have hb' : hasBadChild σ.length ts = false := by
        simpa using hbc
      have h1 : (substPostTerms σ ts).1 = false := by rw [hts.1, hb']
      have h2 : (substPostTerms σ ts).2 = substChildren σ ts := hts.2 hb'
      have hcb := substCb_spec σ (substPostTerms σ ts).2
      simp only [Expr.substitute, hasBadSubst, h1, if_false, hsplit, hb',
        Bool.false_or, Bool.false_eq_true]
      constructor
      · rw [hcb.1, h2, hasBadDirect_substChildren]
      · intro hbd
        have h3 : hasBadDirect σ.length (substPostTerms σ ts).2 = false := by
          rw [h2, hasBadDirect_substChildren]
          exact hbd
        rw [hcb.2 h3, h2, directSubst_substChildren]
        simp [specSubst]

theorem substPostTerms_spec (σ : List ExprTerm) : (ts : List ExprTerm) →
    (substPostTerms σ ts).1 = hasBadChild σ.length ts ∧
    (hasBadChild σ.length ts = false →
      (substPostTerms σ ts).2 = substChildren σ ts)
  | [] => by simp [substPostTerms, hasBadChild, substChildren]
  | .EXPR c :: rest => by
    have hc := substitute_spec σ c
    have hr := substPostTerms_spec σ rest
    by_cases h : hasBadSubst σ.length c = true
    · have h1 : (Expr.substitute σ c).1 = true := by rw [hc.1, h]
      simp only [substPostTerms, hasBadChild, substChildren, h1, if_true, h,
        Bool.true_or]
      simp
    · have hb' : hasBadSubst σ.length c = false := by simpa using h
      have h1 : (Expr.substitute σ c).1 = false := by rw [hc.1, hb']
      simp only [substPostTerms, hasBadChild, substChildren, h1,
        Bool.false_eq_true, if_false, hb', Bool.false_or]
      refine ⟨hr.1, fun hb => ?_⟩
      rw [hr.2 hb, hc.2 hb']
  | .NONE :: rest => by
    have hr := substPostTerms_spec σ rest
    simpa [substPostTerms, hasBadChild, substChildren] using hr
  | .REG r :: rest => by
    have hr := substPostTerms_spec σ rest
    simpa [substPostTerms, hasBadChild, substChildren] using hr
  | .INT n :: rest => by
    have hr := substPostTerms_spec σ rest
    simpa [substPostTerms, hasBadChild, substChildren] using hr
  | .SUBST i :: rest => by
    have hr := substPostTerms_spec σ rest
    simpa [substPostTerms, hasBadChild, substChildren] using hr
  | .FLOAT f :: rest => by
    have hr := substPostTerms_spec σ rest
    simpa [substPostTerms, hasBadChild, substChildren] using hr
  | .SYM s :: rest => by
    have hr := substPostTerms_spec σ rest
    simpa [substPostTerms, hasBadChild, substChildren] using hr
  | .LOC l :: rest => by
    have hr := substPostTerms_spec σ rest
    simpa [substPostTerms, hasBadChild, substChildren] using hr

end

/-- C6: substitute(terms) walks the tree and replaces every SUBST(i) leaf
with a (deep clone of) terms[i]: its error return is true exactly when
some SUBST leaf carries an index at or past the number of substitution
terms, and in the error-free case the resulting tree is the one with every
SUBST(i) leaf replaced by terms[i]. -/
theorem c6_substitute (σ : List ExprTerm) (e : Expr) :
    (Expr.substitute σ e).1 = hasBadSubst σ.length e ∧
    (hasBadSubst σ.length e = false →
      (Expr.substitute σ e).2 = specSubst σ e) :=
  substitute_spec σ e

/-- C6 witness: a substitution with a valid hole and one with an
out-of-range hole. -/
theorem c6_substitute_witness :
    ((Expr.substitute [.SYM 9] (.mk .ADD [.SUBST 0, .SYM 1])).1 =
      hasBadSubst ([ExprTerm.SYM 9]).length (.mk .ADD [.SUBST 0, .SYM 1]) ∧
    (hasBadSubst ([ExprTerm.SYM 9]).length (.mk .ADD [.SUBST 0, .SYM 1]) = false →
      (Expr.substitute [.SYM 9] (.mk .ADD [.SUBST 0, .SYM 1])).2 =
        specSubst [.SYM 9] (.mk .ADD [.SUBST 0, .SYM 1]))) ∧
    (Expr.substitute [.SYM 9] (.mk .ADD [.SUBST 5, .SYM 1])).1 =
      hasBadSubst ([ExprTerm.SYM 9]).length (.mk .ADD [.SUBST 5, .SYM 1]) :=
  ⟨c6_substitute [.SYM 9] (.mk .ADD [.SUBST 0, .SYM 1]),
   (c6_substitute [.SYM 9] (.mk .ADD [.SUBST 5, .SYM 1])).1⟩

theorem xform_neg_helper_op_ne (x : Expr) :
    (x.xform_neg_helper).op ≠ Op.NEG ∧ (x.xform_neg_helper).op ≠ Op.SUB := by
  obtain ⟨op, ts⟩ := x
  cases op <;> try simp [Expr.xform_neg_helper]
  all_goals
    cases ts with
    | nil => simp [Expr.xform_neg_helper]
    | cons t rest =>
      cases t <;> simp [Expr.xform_neg_helper, xform_neg_term] <;>
        (try split) <;> simp

theorem xform_neg_op_ne (e : Expr) :
    (e.xform_neg).op ≠ Op.NEG ∧ (e.xform_neg).op ≠ Op.SUB := by
  obtain ⟨op, ts⟩ := e
  by_cases hn : op = Op.NEG
  · subst hn
    exact xform_neg_helper_op_ne (.mk .IDENT ts)
  by_cases hs : op = Op.SUB
  · subst hs
    rcases ts with _ | ⟨a, _ | ⟨rhs, rest⟩⟩
    · simp [Expr.xform_neg]
    · cases a <;> simp [Expr.xform_neg]
    · cases rhs <;> simp [Expr.xform_neg, xform_neg_term]
  · rw [xform_neg_ne op ts hn hs]
    exact ⟨hn, hs⟩

theorem countNSTerms_map_zero (ts : List ExprTerm)
    (h : ∀ c : Expr, ExprTerm.EXPR c ∈ ts → (xformNegTree c).countNS = 0) :
    countNSTerms (ts.map (levelChildWith xformNegTree)) = 0 := by
  induction ts with
  | nil => simp [countNSTerms]
  | cons t rest ih =>
    have hrest : countNSTerms (rest.map (levelChildWith xformNegTree)) = 0 :=
      ih (fun c hc => h c (List.mem_cons_of_mem _ hc))
    cases t with
    | EXPR c =>
      have hc := h c (List.mem_cons_self _ _)
      simp [levelChildWith, ExprTerm.isExpr, ExprTerm.the_expr, countNSTerms,
        hc, hrest]
    | NONE => simpa [levelChildWith, ExprTerm.isExpr, countNSTerms] using hrest
    | REG r => simpa [levelChildWith, ExprTerm.isExpr, countNSTerms] using hrest
    | INT n => simpa [levelChildWith, ExprTerm.isExpr, countNSTerms] using hrest
    | SUBST i => simpa [levelChildWith, ExprTerm.isExpr, countNSTerms] using hrest
    | FLOAT f => simpa [levelChildWith, ExprTerm.isExpr, countNSTerms] using hrest
    | SYM s => simpa [levelChildWith, ExprTerm.isExpr, countNSTerms] using hrest
    | LOC l => simpa [levelChildWith, ExprTerm.isExpr, countNSTerms] using hrest

theorem xformNegTree_countNS (e : Expr) : (xformNegTree e).countNS = 0 := by
  rw [xformNegTree_def]
  have hop := xform_neg_op_ne e
  have hflag : ((e.xform_neg).op).nsFlag = 0 := by
    rcases hop with ⟨h1, h2⟩
    cases hmatch : (e.xform_neg).op <;> simp_all [Op.nsFlag]
  have hterms : countNSTerms ((e.xform_neg).terms.map
      (levelChildWith xformNegTree)) = 0 := by
    apply countNSTerms_map_zero
    intro c hc
    exact xformNegTree_countNS c
  simp [Expr.countNS, hflag, hterms]
termination_by (e.countNS, e.esize)
decreasing_by
  rcases level_tree_dec hc with h | ⟨h1, h2⟩
  · exact Prod.Lex.left _ _ h
  · rw [h1]
    exact Prod.Lex.right _ h2

/-- C2 counterexample: the claim says a NEG applied to a NEG collapses to
the identity of the inner expression; but xform_neg on NEG(NEG(sym))
(whose operand contains no float) produces MUL(NEG(sym), -1), keeping the
inner NEG node rather than collapsing it, and in particular the result of
this single pass is neither IDENT(sym) nor an IDENT of the inner
expression. -/
theorem c2_counterexample :
    Expr.xform_neg (.mk .NEG [.EXPR (.mk .NEG [.SYM 0])]) =
      .mk .MUL [.EXPR (.mk .NEG [.SYM 0]), .INT (-1)] ∧
    (Expr.xform_neg (.mk .NEG [.EXPR (.mk .NEG [.SYM 0])])).countNS ≠ 0 ∧
    Expr.xform_neg (.mk .NEG [.EXPR (.mk .NEG [.SYM 0])]) ≠
      .mk .IDENT [.SYM 0] ∧
    Expr.xform_neg (.mk .NEG [.EXPR (.mk .NEG [.SYM 0])]) ≠
      .mk .IDENT [.EXPR (.mk .IDENT [.SYM 0])] := by
  refine ⟨rfl, by decide, ?_, ?_⟩ <;>
    simp [Expr.xform_neg, Expr.xform_neg_helper, Expr.contains, containsTerms,
      ExprTerm.is_type]

/-- C2 (amended): xform_neg computes the negation of a NEG applied
directly to an integer or float leaf; rewrites any other NEG x into the
product of x and -1 (terms in that order); rewrites SUB(a,b) into
ADD(a, MUL(-1, b)) with the negation of an expression operand delegated to
the distribution helper; the helper distributes the negation over the
terms of an ADD (sub-expressions recursively, any other term wrapped into
MUL(-1, term)) and collapses a negated NEG node into an IDENT of its
operand — so the collapse happens exactly when the negation reaches the
inner NEG through distribution, not for a direct NEG of a NEG; and after
the per-node xform_neg pass is applied throughout the tree in level_tree's
order, no NEG or SUB operator remains anywhere (negations have sunk to
leaves or been absorbed into -1 multipliers). -/
theorem c2_xform_neg (n : Int) (f : FloatNum) (t a : ExprTerm) (c : Expr)
    (rest : List ExprTerm) (e : Expr)
    (ht1 : t.is_type .INT = false) (ht2 : t.is_type .FLOAT = false)
    (ht3 : ∀ x : Expr, t = .EXPR x → x.contains .FLOAT = false)
    (ht4 : t.isExpr = false) :
    Expr.xform_neg (.mk .NEG [.INT n]) = .mk .IDENT [.INT (-n)] ∧
    Expr.xform_neg (.mk .NEG [.FLOAT f]) = .mk .IDENT [.FLOAT ⟨-f.val⟩] ∧
    Expr.xform_neg (.mk .NEG [t]) = .mk .MUL [t, .INT (-1)] ∧
    Expr.xform_neg (.mk .SUB [a, t]) =
      .mk .ADD [a, .EXPR (.mk .MUL [.INT (-1), t])] ∧
    Expr.xform_neg (.mk .SUB [a, .EXPR c]) =
      .mk .ADD [a, .EXPR c.xform_neg_helper] ∧
    Expr.xform_neg_helper (.mk .ADD (.EXPR c :: rest)) =
      .mk .ADD (.EXPR c.xform_neg_helper :: xformNegDistribute rest) ∧
    (t.isExpr = false →
      Expr.xform_neg_helper (.mk .ADD (t :: rest)) =
        .mk .ADD (.EXPR (.mk .MUL [.INT (-1), t]) :: xformNegDistribute rest)) ∧
    Expr.xform_neg_helper (.mk .NEG [t]) = .mk .IDENT [t] ∧
    Expr.xform_neg (.mk .SUB [a, .EXPR (.mk .NEG [t])]) =
      .mk .ADD [a, .EXPR (.mk .IDENT [t])] ∧
    (xformNegTree e).countNS = 0 := by
  refine ⟨rfl, rfl, ?_, ?_, ?_, rfl, ?_, rfl, rfl, xformNegTree_countNS e⟩
  · cases t with
    | EXPR x =>
      have := ht3 x rfl
      simp [Expr.xform_neg, Expr.xform_neg_helper, this]
    | NONE => rfl
    | REG r => rfl
    | INT m => simp [ExprTerm.is_type] at ht1
    | SUBST i => rfl
    | FLOAT g => simp [ExprTerm.is_type] at ht2
    | SYM s => rfl
    | LOC l => rfl
  · cases t <;> first
      | rfl
      | simp [ExprTerm.isExpr] at ht4
  · rfl
  · intro h5
    cases t <;> first
      | rfl
      | simp [ExprTerm.isExpr] at h5

/-- C2 witness: the amended theorem at concrete inputs (t a symbol, the
tree-wide conjunct on SUB(sym0, NEG(NEG(sym1)))). -/
theorem c2_xform_neg_witness :
    Expr.xform_neg (.mk .NEG [.INT 4]) = .mk .IDENT [.INT (-4)] ∧
    Expr.xform_neg (.mk .NEG [.FLOAT ⟨2⟩]) = .mk .IDENT [.FLOAT ⟨-2⟩] ∧
    Expr.xform_neg (.mk .NEG [.SYM 3]) = .mk .MUL [.SYM 3, .INT (-1)] ∧
    Expr.xform_neg (.mk .SUB [.SYM 0, .SYM 3]) =
      .mk .ADD [.SYM 0, .EXPR (.mk .MUL [.INT (-1), .SYM 3])] ∧
    Expr.xform_neg (.mk .SUB [.SYM 0, .EXPR (.mk .ADD [.SYM 1, .SYM 2])]) =
      .mk .ADD [.SYM 0, .EXPR (Expr.mk .ADD [.SYM 1, .SYM 2]).xform_neg_helper] ∧
    Expr.xform_neg_helper (.mk .ADD (.EXPR (.mk .ADD [.SYM 1, .SYM 2]) :: [.SYM 4])) =
      .mk .ADD (.EXPR (Expr.mk .ADD [.SYM 1, .SYM 2]).xform_neg_helper ::
        xformNegDistribute [.SYM 4]) ∧
    ((ExprTerm.SYM 3).isExpr = false →
      Expr.xform_neg_helper (.mk .ADD (.SYM 3 :: [.SYM 4])) =
        .mk .ADD (.EXPR (.mk .MUL [.INT (-1), .SYM 3]) :: xformNegDistribute [.SYM 4])) ∧
    Expr.xform_neg_helper (.mk .NEG [.SYM 3]) = .mk .IDENT [.SYM 3] ∧
    Expr.xform_neg (.mk .SUB [.SYM 0, .EXPR (.mk .NEG [.SYM 3])]) =
      .mk .ADD [.SYM 0, .EXPR (.mk .IDENT [.SYM 3])] ∧
    (xformNegTree (.mk .SUB [.SYM 0, .EXPR (.mk .NEG [.EXPR (.mk .NEG [.SYM 1])])])).countNS = 0 :=
  c2_xform_neg 4 ⟨2⟩ (.SYM 3) (.SYM 0) (.mk .ADD [.SYM 1, .SYM 2]) [.SYM 4]
    (.mk .SUB [.SYM 0, .EXPR (.mk .NEG [.EXPR (.mk .NEG [.SYM 1])])])
    rfl rfl (fun x hx => by cases hx) rfl

theorem countInts_pos_of_get (ts : List ExprTerm) (j : Nat) (v : Int)
    (h : ts.get? j = some (.INT v)) : 1 ≤ countInts ts := by
  induction ts generalizing j with
  | nil => simp at h
  | cons t rest ih =>
    cases j with
    | zero =>
      simp only [List.get?] at h
      cases h
      simp [countInts, List.countP_cons, ExprTerm.isInt]
    | succ j =>
      simp only [List.get?] at h
      have h2 := ih j h
      simp only [countInts] at h2 ⊢
      have h3 := List.countP_cons ExprTerm.isInt t rest
      rcases Bool.eq_false_or_eq_true (ExprTerm.isInt t) with hpt | hpt <;>
        simp only [hpt, if_true, if_false, Bool.false_eq_true] at h3 <;> omega

theorem firstIntTerm_of_uniq (ts : List ExprTerm) (idx : Nat) (v : Int)
    (hv : ts.get? idx = some (.INT v)) (huniq : countInts ts = 1) :
    firstIntTerm ts = some (.INT v) := by
  induction ts generalizing idx with
  | nil => simp at hv
  | cons t rest ih =>
    cases t with
    | INT w =>
      cases idx with
      | zero =>
        simp only [List.get?] at hv
        cases hv
        rfl
      | succ j =>
        simp only [List.get?] at hv
        have h1 := countInts_pos_of_get rest j v hv
        have h4 := List.countP_cons ExprTerm.isInt (ExprTerm.INT w) rest
        simp only [ExprTerm.isInt, eq_self_iff_true, if_true] at h4
        simp only [countInts] at huniq h1
        omega
    | NONE =>
      cases idx with
      | zero => simp [List.get?] at hv
      | succ j =>
        simp only [List.get?] at hv
        simp only [countInts, List.countP_cons, ExprTerm.isInt] at huniq
        exact ih j hv (by simpa [countInts] using huniq)
    | REG r =>
      cases idx with
      | zero => simp [List.get?] at hv
      | succ j =>
        simp only [List.get?] at hv
        simp only [countInts, List.countP_cons, ExprTerm.isInt] at huniq
        exact ih j hv (by simpa [countInts] using huniq)
    | SUBST i =>
      cases idx with
      | zero => simp [List.get?] at hv
      | succ j =>
        simp only [List.get?] at hv
        simp only [countInts, List.countP_cons, ExprTerm.isInt] at huniq
        exact ih j hv (by simpa [countInts] using huniq)
    | FLOAT f =>
      cases idx with
      | zero => simp [List.get?] at hv
      | succ j =>
        simp only [List.get?] at hv
        simp only [countInts, List.countP_cons, ExprTerm.isInt] at huniq
        exact ih j hv (by simpa [countInts] using huniq)
    | SYM s =>
      cases idx with
      | zero => simp [List.get?] at hv
      | succ j =>
        simp only [List.get?] at hv
        simp only [countInts, List.countP_cons, ExprTerm.isInt] at huniq
        exact ih j hv (by simpa [countInts] using huniq)
    | LOC l =>
      cases idx with
      | zero => simp [List.get?] at hv
      | succ j =>
        simp only [List.get?] at hv
        simp only [countInts, List.countP_cons, ExprTerm.isInt] at huniq
        exact ih j hv (by simpa [countInts] using huniq)
    | EXPR c =>
      cases idx with
      | zero => simp [List.get?] at hv
      | succ j =>
        simp only [List.get?] at hv
        simp only [countInts, List.countP_cons, ExprTerm.isInt] at huniq
        exact ih j hv (by simpa [countInts] using huniq)

/-- C3 counterexample: simplify_identity rewrites SUB(x, 0) into IDENT(x),
an algebraic identity (x - 0 -> x) that is not among the thirteen
identities the claim says are applied exactly; the node is changed although
no claimed identity matches and the node is not a lone-integer NOT, NEG or
LNOT application. -/
theorem c3_counterexample :
    Expr.simplify_identity true Op.SUB [.SYM 0, .INT 0] 1 =
      (Op.IDENT, [.SYM 0]) ∧
    Expr.simplify_identity true Op.SUB [.SYM 0, .INT 0] 1 ≠
      (Op.SUB, [.SYM 0, .INT 0]) ∧
    (∀ first : Bool, c3ClaimedApplies Op.SUB 0 first = false) ∧
    ¬(Op.SUB = Op.NOT ∨ Op.SUB = Op.NEG ∨ Op.SUB = Op.LNOT) := by
  refine ⟨rfl, ?_, by decide, by decide⟩
  intro hcon
  have h2 := congrArg Prod.fst hcon
  exact absurd h2 (by decide)

theorem destroy_matches_claim (op : Op) (v : Int) (first : Bool) :
    ((first && can_destroy_int_left op v) ||
     (!first && can_destroy_int_right op v) || is_constant op v)
      = (c3ClaimedApplies op v first ||
         (!first && decide (v = 0) && decide (op = Op.SUB))) := by
  cases op <;> cases first <;>
    simp [can_destroy_int_left, can_destroy_int_right, is_constant,
      c3ClaimedApplies, IntNum.is_zero, IntNum.is_pos1, IntNum.is_neg1] <;>
    (try (rcases Bool.eq_false_or_eq_true (decide (v = 0)) with h0 | h0 <;>
      rcases Bool.eq_false_or_eq_true (decide (v = 1)) with h1 | h1 <;>
      rcases Bool.eq_false_or_eq_true (decide (v = -1)) with h2 | h2 <;>
      simp_all))

/-- C3 (amended): for a leveled node (op, ts) whose unique integer term
sits at index idx with value v, simplify_identity behaves exactly as
follows.  With more than one term: when the deletion guard and the
deletion condition hold (left identities 1*x, 0+x, -1&x, nonzero&&x, 0|x,
0||x when the integer is the first term; right identities x*1, x/1, x+0,
x-0, x&-1, x&&nonzero, x|0, x||0, x<<0, x>>0 otherwise) the integer term
is deleted, the operator becoming IDENT when one term remains; otherwise
when a constant identity holds (0*x, -1|x, 0&x, 0&&x) everything but the
integer is deleted and the node becomes IDENT of the integer; otherwise
the node is unchanged — in particular a MUL node with integer 1 containing
a register is left unchanged when simplify_reg_mul is false.  With exactly
one term, NOT, NEG and LNOT are computed on the lone integer and the node
becomes an IDENT.  The identities applied are exactly the claim's thirteen
plus x-0→x (which negative normalization makes unreachable from
level_tree): the first conjunct equates the code's identity conditions
with the claimed list extended by that one rule. -/
theorem c3_simplify_identity (srm : Bool) (op : Op) (ts : List ExprTerm)
    (idx : Nat) (v : Int)
    (hv : ts.get? idx = some (.INT v)) (huniq : countInts ts = 1) :
    (∀ first : Bool,
      ((first && can_destroy_int_left op v) ||
       (!first && can_destroy_int_right op v) || is_constant op v)
        = (c3ClaimedApplies op v first ||
           (!first && decide (v = 0) && decide (op = Op.SUB)))) ∧
    (1 < ts.length →
      ((destroyGuard srm op v ts && destroyCond op v idx) = true →
        Expr.simplify_identity srm op ts idx =
          (if (eraseFirstInt ts).length = 1 then Op.IDENT else op,
           eraseFirstInt ts)) ∧
      ((destroyGuard srm op v ts && destroyCond op v idx) = false →
        is_constant op v = true →
        Expr.simplify_identity srm op ts idx = (Op.IDENT, [.INT v])) ∧
      ((destroyGuard srm op v ts && destroyCond op v idx) = false →
        is_constant op v = false →
        Expr.simplify_identity srm op ts idx = (op, ts)) ∧
      (srm = false → op = Op.MUL → v = 1 →
        (Expr.mk op ts).contains .REG = true →
        Expr.simplify_identity srm op ts idx = (op, ts))) ∧
    (ts.length = 1 →
      ((op = Op.NOT ∨ op = Op.NEG ∨ op = Op.LNOT) →
        Expr.simplify_identity srm op ts idx =
          (Op.IDENT, [.INT (IntNum.calcUnary op v)])) ∧
      (¬(op = Op.NOT ∨ op = Op.NEG ∨ op = Op.LNOT) →
        Expr.simplify_identity srm op ts idx = (Op.IDENT, ts))) := by
  have hget : (ts.get? idx).bind ExprTerm.get_int = some v := by
    rw [hv]
    rfl
  refine ⟨destroy_matches_claim op v, ?_, ?_⟩
  · intro hlen
    refine ⟨?_, ?_, ?_, ?_⟩
    · intro hcond
      have hc' : ((srm || !(op = Op.MUL) || !(IntNum.is_pos1 v) ||
          !((Expr.mk op ts).contains .REG)) &&
          ((decide (idx = 0) && can_destroy_int_left op v) ||
           (!decide (idx = 0) && can_destroy_int_right op v))) = true := by
        simpa [destroyGuard, destroyCond] using hcond
      simp only [Expr.simplify_identity, hget, Option.bind_some]
      rw [if_pos hlen, if_pos hc']
      simp only [List.length_nil]
      have hsplit : ∀ (L : Prop) (inst : Decidable L) (e0 : List ExprTerm),
          (if L then (Op.IDENT, e0) else (op, e0)) =
            ((if L then Op.IDENT else op), e0) := by
        intro L inst e0
        split <;> rfl
      exact hsplit _ _ _
    · intro hcond hK
      have hc' : ¬(((srm || !(op = Op.MUL) || !(IntNum.is_pos1 v) ||
          !((Expr.mk op ts).contains .REG)) &&
          ((decide (idx = 0) && can_destroy_int_left op v) ||
           (!decide (idx = 0) && can_destroy_int_right op v))) = true) := by
        simp only [destroyGuard, destroyCond] at hcond
        simp [hcond]
      have hfirst := firstIntTerm_of_uniq ts idx v hv huniq
      have hop : ¬(op = Op.NOT ∨ op = Op.NEG ∨ op = Op.LNOT) := by
        cases op <;> simp_all [is_constant]
      simp only [Expr.simplify_identity, hget, Option.bind_some]
      rw [if_pos hlen, if_neg hc', if_pos hK, hfirst]
      simp only [ExprTerm.get_int, List.length_singleton]
      rw [if_neg (show ¬(True ∧ idx = 0 ∧
        (op = Op.NOT ∨ op = Op.NEG ∨ op = Op.LNOT)) from fun hcc => hop hcc.2.2)]
      simp
    · intro hcond hK
      have hc' : ¬(((srm || !(op = Op.MUL) || !(IntNum.is_pos1 v) ||
          !((Expr.mk op ts).contains .REG)) &&
          ((decide (idx = 0) && can_destroy_int_left op v) ||
           (!decide (idx = 0) && can_destroy_int_right op v))) = true) := by
        simp only [destroyGuard, destroyCond] at hcond
        simp [hcond]
      simp only [Expr.simplify_identity, hget, Option.bind_some]
      rw [if_pos hlen, if_neg hc',
        if_neg (show ¬(is_constant op v = true) from by simp [hK])]
      have h1 : ¬(ts.length = 1) := by omega
      simp [h1]
    · intro hsrm hmul hv1 hreg
      subst hsrm
      subst hmul
      subst hv1
      have h1 : ¬(ts.length = 1) := by omega
      simp only [Expr.simplify_identity, hget, Option.bind_some]
      simp [hreg, hlen, h1, IntNum.is_pos1, is_constant, IntNum.is_zero,
        IntNum.is_neg1]
  · intro hlen1
    have hidx : idx = 0 := by
      have h1 : idx < ts.length := List.get?_eq_some.mp hv |>.1
      omega
    subst hidx
    obtain ⟨a, rfl⟩ := List.length_eq_one.mp hlen1
    have hva : a = ExprTerm.INT v := by
      simpa [List.get?] using hv
    subst hva
    constructor
    · intro hop
      rcases hop with h | h | h <;> subst h <;>
        simp [Expr.simplify_identity, ExprTerm.get_int]
    · intro hop
      have h2 : ¬(op = Op.NOT ∨ op = Op.NEG ∨ op = Op.LNOT) := hop
      simp [Expr.simplify_identity, ExprTerm.get_int, h2]

/-- C3 witness: the amended theorem applied at 0 + sym (deleting the zero),
1 * reg with simplify_reg_mul off (unchanged), 0 && sym (constant), and
NOT 5 (computed). -/
theorem c3_simplify_identity_witness :
    Expr.simplify_identity true Op.ADD [.INT 0, .SYM 1] 0 = (Op.IDENT, [.SYM 1]) ∧
    Expr.simplify_identity false Op.MUL [.INT 1, .REG 2] 0 =
      (Op.MUL, [.INT 1, .REG 2]) ∧
    Expr.simplify_identity true Op.LAND [.INT 0, .SYM 1] 0 =
      (Op.IDENT, [.INT 0]) ∧
    Expr.simplify_identity true Op.NOT [.INT 5] 0 =
      (Op.IDENT, [.INT (IntNum.calcUnary Op.NOT 5)]) := by
  refine ⟨?_, ?_, ?_, ?_⟩
  · have h := ((c3_simplify_identity true Op.ADD [.INT 0, .SYM 1] 0 0 rfl
      (by decide)).2.1 (by decide)).1 (by decide)
    simpa using h
  · exact ((c3_simplify_identity false Op.MUL [.INT 1, .REG 2] 0 1 rfl
      (by decide)).2.1 (by decide)).2.2.2 rfl rfl rfl (by decide)
  · exact ((c3_simplify_identity true Op.LAND [.INT 0, .SYM 1] 0 0 rfl
      (by decide)).2.1 (by decide)).2.1 (by decide) (by decide)
  · exact ((c3_simplify_identity true Op.NOT [.INT 5] 0 5 rfl
      (by decide)).2.2 (by decide)).1 (by decide)

/-- C4 (code bug): expression normalization is not idempotent.  On the
expression 5*(7*r) (a register r), level_tree with fold_const,
simplify_ident and simplify_reg_mul all enabled produces MUL[5, 7, r],
a node with two unfolded integer terms: the leveling phase folds a
child's integer only into the first integer met by its reversed scan
and pushes the node's own earlier integer 5 unfolded past the 7 hoisted
from the child.  A second level_tree folds 5*7 = 35 and yields
MUL[35, r], so the second application changes the tree. -/
theorem c4_idempotence_failure :
    Expr.level_tree true true true
        (Expr.level_tree true true true
          (.mk .MUL [.INT 5, .EXPR (.mk .MUL [.INT 7, .REG 0])])) ≠
      Expr.level_tree true true true
        (.mk .MUL [.INT 5, .EXPR (.mk .MUL [.INT 7, .REG 0])]) := by
  have h1 : Expr.level_tree true true true
      (.mk .MUL [.INT 5, .EXPR (.mk .MUL [.INT 7, .REG 0])]) =
      .mk .MUL [.INT 5, .INT 7, .REG 0] := by
    simp [Expr.level_tree_def, levelChildWith, Expr.xform_neg, Expr.level_op,
      segPrepass, hoistIdent, foldPass, foldFrom, IntNum.calcOp,
      eraseEmptiesAfter, Expr.simplify_identity, Op.isNonNum, bringUpIdent,
      ExprTerm.get_int, IntNum.is_pos1, IntNum.is_zero, IntNum.is_neg1,
      can_destroy_int_left, can_destroy_int_right, is_constant,
      ExprTerm.the_expr, eraseFirstInt, firstIntTerm, ExprTerm.is_empty,
      Op.isAssociative, ExprTerm.isExpr, levelPhase, moveUpTerms, getIntAt,
      sameOpExpr, ExprTerm.isInt, Expr.contains, containsTerms]
  have h2 : Expr.level_tree true true true (.mk .MUL [.INT 5, .INT 7, .REG 0]) =
      .mk .MUL [.INT 35, .REG 0] := by
    simp [Expr.level_tree_def, levelChildWith, Expr.xform_neg, Expr.level_op,
      segPrepass, hoistIdent, foldPass, foldFrom, IntNum.calcOp,
      eraseEmptiesAfter, Expr.simplify_identity, Op.isNonNum, bringUpIdent,
      ExprTerm.get_int, IntNum.is_pos1, IntNum.is_zero, IntNum.is_neg1,
      can_destroy_int_left, can_destroy_int_right, is_constant,
      ExprTerm.the_expr, eraseFirstInt, firstIntTerm, ExprTerm.is_empty,
      Op.isAssociative, ExprTerm.isExpr, levelPhase, moveUpTerms, getIntAt,
      sameOpExpr, ExprTerm.isInt, Expr.contains, containsTerms]
  intro h
  rw [h1, h2] at h
  have hl := congrArg (fun e => e.terms.length) h
  simp [Expr.terms] at hl

/-- ExprTerm::is_empty is false exactly away from NONE. -/
theorem is_empty_eq_false (t : ExprTerm) :
    t.is_empty = false ↔ t ≠ ExprTerm.NONE := by
  cases t <;> simp [ExprTerm.is_empty]

/-- The term-list side of the amended invariant, as a membership
statement. -/
theorem c1AmendedTerms_iff (ts : List ExprTerm) :
    c1AmendedTerms ts = true ↔
      ∀ c, ExprTerm.EXPR c ∈ ts → c1Amended c = true := by
  induction ts with
  | nil => simp [c1AmendedTerms]
  | cons t rest ih =>
    cases t with
    | EXPR c =>
      simp only [c1AmendedTerms, Bool.and_eq_true, ih, List.mem_cons,
        ExprTerm.EXPR.injEq]
      constructor
      · rintro ⟨hc, hr⟩ c' hc'
        rcases hc' with h | h
        · rw [h]; exact hc
        · exact hr c' h
      · intro h
        exact ⟨h c (Or.inl rfl), fun c' hc' => h c' (Or.inr hc')⟩
    | NONE => simp [c1AmendedTerms, ih, List.mem_cons]
    | REG r => simp [c1AmendedTerms, ih, List.mem_cons]
    | INT n => simp [c1AmendedTerms, ih, List.mem_cons]
    | SUBST i => simp [c1AmendedTerms, ih, List.mem_cons]
    | FLOAT f => simp [c1AmendedTerms, ih, List.mem_cons]
    | SYM s => simp [c1AmendedTerms, ih, List.mem_cons]
    | LOC l => simp [c1AmendedTerms, ih, List.mem_cons]

/-- Introduction form of the amended invariant at one node, from
propositional facts about the node and its terms. -/
theorem c1Amended_intro (op : Op) (ts : List ExprTerm)
    (h1 : ∀ c, ExprTerm.EXPR c ∈ ts →
      c1Amended c = true ∧ ¬(op.isAssociative = true ∧ c.op = op) ∧
      c.op ≠ Op.IDENT)
    (h2 : op = Op.IDENT → ts.length = 1 ∧
      ts.head?.elim false ExprTerm.isExpr = false)
    (h3 : op.isNonNum = false → countInts ts ≤ 2 ∧
      (op.isAssociative = false → countInts ts ≤ 1))
    (h4 : ts.length = 1 →
      op = Op.IDENT ∨ op = Op.NOT ∨ op = Op.LNOT ∨ op = Op.SEG)
    (h5 : op ≠ Op.NEG) (h6 : op ≠ Op.SUB)
    (h7 : 1 ≤ ts.length)
    (h8 : 2 < ts.length → op.isAssociative = true)
    (h9 : ∀ t ∈ ts, t ≠ ExprTerm.NONE) :
    c1Amended (.mk op ts) = true := by
  rw [c1Amended, Bool.and_eq_true]
  constructor
  · rw [c1AmendedNode]
    simp only [Bool.and_eq_true, List.all_eq_true, Bool.not_eq_true',
      decide_eq_true_eq, decide_eq_false_iff_not]
    refine ⟨⟨⟨⟨⟨⟨⟨⟨?_, ?_⟩, ?_⟩, ?_⟩, ?_⟩, ?_⟩, ?_⟩, ?_⟩, ?_⟩
    · intro t ht
      cases t with
      | EXPR c =>
        obtain ⟨_, hflat, hid⟩ := h1 c ht
        have hf : (op.isAssociative && decide (c.op = op)) = false := by
          by_cases h : op.isAssociative = true
          · simp only [h, Bool.true_and, decide_eq_false_iff_not]
            intro hco
            exact hflat ⟨h, hco⟩
          · rw [Bool.not_eq_true] at h
            simp [h]
        simp [hf, hid]
      | NONE => rfl
      | REG r => rfl
      | INT n => rfl
      | SUBST i => rfl
      | FLOAT f => rfl
      | SYM s => rfl
      | LOC l => rfl
    · exact h2
    · exact h3
    · intro hl
      rcases h4 hl with h | h | h | h <;> simp [h]
    · exact h5
    · exact h6
    · exact h7
    · exact h8
    · simp only [List.any_eq_false]
      intro t ht
      rw [Bool.not_eq_true, is_empty_eq_false]
      exact h9 t ht
  · rw [c1AmendedTerms_iff]
    intro c hc
    exact (h1 c hc).1

/-- Elimination form of the amended invariant at one node, exposing the
propositional facts it encodes. -/
theorem c1Amended_destruct (op : Op) (ts : List ExprTerm)
    (h : c1Amended (.mk op ts) = true) :
    (∀ c, ExprTerm.EXPR c ∈ ts →
      c1Amended c = true ∧ ¬(op.isAssociative = true ∧ c.op = op) ∧
      c.op ≠ Op.IDENT) ∧
    (op = Op.IDENT → ts.length = 1 ∧
      ts.head?.elim false ExprTerm.isExpr = false) ∧
    (op.isNonNum = false → countInts ts ≤ 2 ∧
      (op.isAssociative = false → countInts ts ≤ 1)) ∧
    (ts.length = 1 →
      op = Op.IDENT ∨ op = Op.NOT ∨ op = Op.LNOT ∨ op = Op.SEG) ∧
    op ≠ Op.NEG ∧ op ≠ Op.SUB ∧
    1 ≤ ts.length ∧
    (2 < ts.length → op.isAssociative = true) ∧
    (∀ t ∈ ts, t ≠ ExprTerm.NONE) := by
  rw [c1Amended, Bool.and_eq_true] at h
  obtain ⟨hn, hts⟩ := h
  rw [c1AmendedNode] at hn
  simp only [Bool.and_eq_true, List.all_eq_true, Bool.not_eq_true',
    decide_eq_true_eq, decide_eq_false_iff_not] at hn
  obtain ⟨⟨⟨⟨⟨⟨⟨⟨ha, hb⟩, hc⟩, hd⟩, he⟩, hf⟩, hg⟩, hh⟩, hi⟩ := hn
  rw [c1AmendedTerms_iff] at hts
  refine ⟨?_, hb, hc, ?_, he, hf, hg, hh, ?_⟩
  · intro c hcmem
    have := ha _ hcmem
    simp only [Bool.and_eq_true, Bool.not_eq_true',
      decide_eq_false_iff_not] at this
    refine ⟨hts c hcmem, ?_, this.2⟩
    rintro ⟨hassoc, hco⟩
    rw [hassoc, Bool.true_and, decide_eq_false_iff_not] at this
    exact this.1 hco
  · intro hl
    have := hd hl
    simp only [Bool.or_eq_true, decide_eq_true_eq] at this
    tauto
  · intro t ht
    rw [← is_empty_eq_false]
    simp only [List.any_eq_false] at hi
    have := hi t ht
    rwa [Bool.not_eq_true] at this

/-- hoistIdent leaves a non-expression term unchanged. -/
theorem hoistIdent_leaf (t : ExprTerm) (h : t.isExpr = false) :
    hoistIdent t = t := by
  cases t <;> simp_all [hoistIdent, ExprTerm.isExpr]

/-- hoistIdent leaves a sub-expression with a non-IDENT operator
unchanged. -/
theorem hoistIdent_ne (op : Op) (ts : List ExprTerm) (h : ¬op = Op.IDENT) :
    hoistIdent (ExprTerm.EXPR (.mk op ts)) = ExprTerm.EXPR (.mk op ts) := by
  cases op <;> simp_all [hoistIdent]

/-- hoistIdent descends into the last term of an IDENT sub-expression. -/
theorem hoistIdent_ident (ts : List ExprTerm) (l : ExprTerm)
    (h : ts.getLast? = some l) :
    hoistIdent (ExprTerm.EXPR (.mk Op.IDENT ts)) = hoistIdent l := by
  rw [hoistIdent]
  split
  · rename_i l' heq
    rw [h] at heq
    injection heq with heq'
    rw [heq']
  · rename_i heq
    rw [h] at heq
    cases heq

/-- A non-expression term other than NONE is fully leveled. -/
theorem TermOKS_leaf (t : ExprTerm) (h1 : t.isExpr = false)
    (h2 : t ≠ ExprTerm.NONE) : TermOKS t := by
  refine ⟨h2, fun c hc => ?_⟩
  rw [hc] at h1
  simp [ExprTerm.isExpr] at h1

/-- The first loop of level_op: hoisting IDENT values up out of a term
that enters level_op from level_tree yields a fully leveled term. -/
theorem hoistIdent_OKS (t : ExprTerm) (h : TermOKL t) :
    TermOKS (hoistIdent t) := by
  rcases h with ⟨hne, hsub⟩ | ⟨a, rfl, ha⟩
  · by_cases hx : t.isExpr = true
    · cases t with
      | EXPR c =>
        obtain ⟨cop, cts⟩ := c
        have hc := hsub _ rfl
        by_cases hop : cop = Op.IDENT
        · subst hop
          have hdes := c1Amended_destruct _ _ hc
          obtain ⟨hlen, hhead⟩ := hdes.2.1 rfl
          obtain ⟨a, rfl⟩ : ∃ a, cts = [a] := by
            cases cts with
            | nil => simp at hlen
            | cons x l =>
              cases l with
              | nil => exact ⟨x, rfl⟩
              | cons y m => simp at hlen
          rw [hoistIdent_ident [a] a (by simp)]
          have hax : a.isExpr = false := by simpa using hhead
          rw [hoistIdent_leaf a hax]
          exact TermOKS_leaf a hax (hdes.2.2.2.2.2.2.2.2 a (by simp))
        · rw [hoistIdent_ne cop cts hop]
          refine ⟨hne, fun c hc' => ?_⟩
          injection hc' with h'
          rw [← h']
          exact ⟨hc, by simpa [Expr.op] using hop⟩
      | NONE => simp [ExprTerm.isExpr] at hx
      | REG r => simp [ExprTerm.isExpr] at hx
      | INT n => simp [ExprTerm.isExpr] at hx
      | SUBST i => simp [ExprTerm.isExpr] at hx
      | FLOAT f => simp [ExprTerm.isExpr] at hx
      | SYM s => simp [ExprTerm.isExpr] at hx
      | LOC l => simp [ExprTerm.isExpr] at hx
    · rw [Bool.not_eq_true] at hx
      rw [hoistIdent_leaf t hx]
      exact TermOKS_leaf t hx hne
  · rw [hoistIdent_ident [a] a (by simp)]
    by_cases hx : a.isExpr = true
    · cases a with
      | EXPR x =>
        obtain ⟨xop, xts⟩ := x
        have hxx := ha.2 _ rfl
        have hxop : ¬xop = Op.IDENT := by simpa [Expr.op] using hxx.2
        rw [hoistIdent_ne xop xts hxop]
        exact ha
      | NONE => simp [ExprTerm.isExpr] at hx
      | REG r => simp [ExprTerm.isExpr] at hx
      | INT n => simp [ExprTerm.isExpr] at hx
      | SUBST i => simp [ExprTerm.isExpr] at hx
      | FLOAT f => simp [ExprTerm.isExpr] at hx
      | SYM s => simp [ExprTerm.isExpr] at hx
      | LOC l => simp [ExprTerm.isExpr] at hx
    · rw [Bool.not_eq_true] at hx
      rw [hoistIdent_leaf a hx]
      exact ha

/-- countInts over a cons. -/
theorem countInts_cons (t : ExprTerm) (l : List ExprTerm) :
    countInts (t :: l) = countInts l + (if t.isInt then 1 else 0) := by
  simp [countInts, List.countP_cons]

/-- A list filtered to non-integer terms has no integer terms. -/
theorem countInts_filter_nonint (l : List ExprTerm) :
    countInts (l.filter (fun t => !t.isInt)) = 0 := by
  rw [countInts, List.countP_eq_zero]
  intro t ht
  have := (List.mem_filter.mp ht).2
  simpa using this

/-- The folding tail of the constant-folding pass: dropping the NONE
tombstones it leaves recovers exactly the non-integer terms, and it
preserves the length. -/
theorem foldFrom_spec (op : Op) (acc : Int) (ts : List ExprTerm)
    (h : ∀ t ∈ ts, t ≠ ExprTerm.NONE) :
    ((foldFrom op acc ts).2).filter (fun t => !t.is_empty) =
      ts.filter (fun t => !t.isInt) ∧
    (foldFrom op acc ts).2.length = ts.length := by
  induction ts generalizing acc with
  | nil => simp [foldFrom]
  | cons t rest ih =>
    have hr : ∀ t ∈ rest, t ≠ ExprTerm.NONE :=
      fun t ht => h t (List.mem_cons_of_mem _ ht)
    cases t with
    | NONE => exact absurd rfl (h _ (List.mem_cons_self _ _))
    | INT n =>
      obtain ⟨ih1, ih2⟩ := ih (IntNum.calcOp op acc n) hr
      simp [foldFrom, List.filter_cons,
        show ExprTerm.is_empty ExprTerm.NONE = true from rfl,
        show ExprTerm.isInt (ExprTerm.INT n) = true from rfl, ih1, ih2]
    | REG r =>
      obtain ⟨ih1, ih2⟩ := ih acc hr
      simp [foldFrom, List.filter_cons,
        show ExprTerm.is_empty (ExprTerm.REG r) = false from rfl,
        show ExprTerm.isInt (ExprTerm.REG r) = false from rfl, ih1, ih2]
    | SUBST i =>
      obtain ⟨ih1, ih2⟩ := ih acc hr
      simp [foldFrom, List.filter_cons,
        show ExprTerm.is_empty (ExprTerm.SUBST i) = false from rfl,
        show ExprTerm.isInt (ExprTerm.SUBST i) = false from rfl, ih1, ih2]
    | FLOAT f =>
      obtain ⟨ih1, ih2⟩ := ih acc hr
      simp [foldFrom, List.filter_cons,
        show ExprTerm.is_empty (ExprTerm.FLOAT f) = false from rfl,
        show ExprTerm.isInt (ExprTerm.FLOAT f) = false from rfl, ih1, ih2]
    | SYM s =>
      obtain ⟨ih1, ih2⟩ := ih acc hr
      simp [foldFrom, List.filter_cons,
        show ExprTerm.is_empty (ExprTerm.SYM s) = false from rfl,
        show ExprTerm.isInt (ExprTerm.SYM s) = false from rfl, ih1, ih2]
    | LOC l =>
      obtain ⟨ih1, ih2⟩ := ih acc hr
      simp [foldFrom, List.filter_cons,
        show ExprTerm.is_empty (ExprTerm.LOC l) = false from rfl,
        show ExprTerm.isInt (ExprTerm.LOC l) = false from rfl, ih1, ih2]
    | EXPR c =>
      obtain ⟨ih1, ih2⟩ := ih acc hr
      simp [foldFrom, List.filter_cons,
        show ExprTerm.is_empty (ExprTerm.EXPR c) = false from rfl,
        show ExprTerm.isInt (ExprTerm.EXPR c) = false from rfl, ih1, ih2]

/-- The constant-folding pass reports no integer position exactly on a
list without integer terms, which it leaves unchanged. -/
theorem foldPass_none_spec (op : Op) (ts : List ExprTerm)
    (hp : (foldPass op ts).2 = none) :
    (foldPass op ts).1 = ts ∧ countInts ts = 0 := by
  induction ts with
  | nil => simp [foldPass, countInts]
  | cons t rest ih =>
    cases t with
    | INT n => simp [foldPass] at hp
    | NONE =>
      simp only [foldPass, Option.map_eq_none'] at hp
      obtain ⟨ihe, ihc⟩ := ih hp
      refine ⟨?_, ?_⟩
      · show ExprTerm.NONE :: (foldPass op rest).1 = _
        rw [ihe]
      · rw [countInts_cons, ihc]
        rfl
    | REG r =>
      simp only [foldPass, Option.map_eq_none'] at hp
      obtain ⟨ihe, ihc⟩ := ih hp
      refine ⟨?_, ?_⟩
      · show ExprTerm.REG r :: (foldPass op rest).1 = _
        rw [ihe]
      · rw [countInts_cons, ihc]
        rfl
    | SUBST i =>
      simp only [foldPass, Option.map_eq_none'] at hp
      obtain ⟨ihe, ihc⟩ := ih hp
      refine ⟨?_, ?_⟩
      · show ExprTerm.SUBST i :: (foldPass op rest).1 = _
        rw [ihe]
      · rw [countInts_cons, ihc]
        rfl
    | FLOAT f =>
      simp only [foldPass, Option.map_eq_none'] at hp
      obtain ⟨ihe, ihc⟩ := ih hp
      refine ⟨?_, ?_⟩
      · show ExprTerm.FLOAT f :: (foldPass op rest).1 = _
        rw [ihe]
      · rw [countInts_cons, ihc]
        rfl
    | SYM s =>
      simp only [foldPass, Option.map_eq_none'] at hp
      obtain ⟨ihe, ihc⟩ := ih hp
      refine ⟨?_, ?_⟩
      · show ExprTerm.SYM s :: (foldPass op rest).1 = _
        rw [ihe]
      · rw [countInts_cons, ihc]
        rfl
    | LOC l =>
      simp only [foldPass, Option.map_eq_none'] at hp
      obtain ⟨ihe, ihc⟩ := ih hp
      refine ⟨?_, ?_⟩
      · show ExprTerm.LOC l :: (foldPass op rest).1 = _
        rw [ihe]
      · rw [countInts_cons, ihc]
        rfl
    | EXPR c =>
      simp only [foldPass, Option.map_eq_none'] at hp
      obtain ⟨ihe, ihc⟩ := ih hp
      refine ⟨?_, ?_⟩
      · show ExprTerm.EXPR c :: (foldPass op rest).1 = _
        rw [ihe]
      · rw [countInts_cons, ihc]
        rfl

/-- The constant-folding pass followed by the tombstone erasure: the
reported position p carries the folded integer, the terms before p are
the original non-integer prefix, and the terms after it are the original
non-integer terms beyond position p. -/
theorem foldPass_some_spec (op : Op) (ts : List ExprTerm) (p : Nat)
    (h : ∀ t ∈ ts, t ≠ ExprTerm.NONE)
    (hp : (foldPass op ts).2 = some p) :
    ∃ w, p < ts.length ∧ countInts (ts.take p) = 0 ∧
      eraseEmptiesAfter p (foldPass op ts).1 =
        ts.take p ++
          ExprTerm.INT w :: (ts.drop (p + 1)).filter (fun t => !t.isInt) := by
  induction ts generalizing p with
  | nil => simp [foldPass] at hp
  | cons t rest ih =>
    have hr : ∀ t ∈ rest, t ≠ ExprTerm.NONE :=
      fun t ht => h t (List.mem_cons_of_mem _ ht)
    cases t with
    | NONE => exact absurd rfl (h _ (List.mem_cons_self _ _))
    | INT n =>
      have hp0 : p = 0 := by
        simpa [foldPass] using hp.symm
      subst hp0
      refine ⟨(foldFrom op n rest).1, by simp, by simp [countInts], ?_⟩
      show eraseEmptiesAfter 0
          (ExprTerm.INT (foldFrom op n rest).1 :: (foldFrom op n rest).2) = _
      rw [eraseEmptiesAfter]
      simp only [List.take_succ_cons, List.take_zero, List.drop_succ_cons,
        List.drop_zero, List.take_nil]
      rw [(foldFrom_spec op n rest hr).1]
      simp
    | REG r =>
      simp only [foldPass, Option.map_eq_some'] at hp
      obtain ⟨p', hp', rfl⟩ := hp
      obtain ⟨w, hlt, hcnt, heq⟩ := ih p' hr hp'
      refine ⟨w, by simpa using hlt, ?_, ?_⟩
      · rw [List.take_succ_cons, countInts_cons, hcnt]
        rfl
      · show eraseEmptiesAfter (p' + 1) (ExprTerm.REG r :: (foldPass op rest).1) = _
        rw [eraseEmptiesAfter] at heq ⊢
        simp only [List.take_succ_cons, List.drop_succ_cons, List.cons_append]
        rw [heq]
    | SUBST i =>
      simp only [foldPass, Option.map_eq_some'] at hp
      obtain ⟨p', hp', rfl⟩ := hp
      obtain ⟨w, hlt, hcnt, heq⟩ := ih p' hr hp'
      refine ⟨w, by simpa using hlt, ?_, ?_⟩
      · rw [List.take_succ_cons, countInts_cons, hcnt]
        rfl
      · show eraseEmptiesAfter (p' + 1) (ExprTerm.SUBST i :: (foldPass op rest).1) = _
        rw [eraseEmptiesAfter] at heq ⊢
        simp only [List.take_succ_cons, List.drop_succ_cons, List.cons_append]
        rw [heq]
    | FLOAT f =>
      simp only [foldPass, Option.map_eq_some'] at hp
      obtain ⟨p', hp', rfl⟩ := hp
      obtain ⟨w, hlt, hcnt, heq⟩ := ih p' hr hp'
      refine ⟨w, by simpa using hlt, ?_, ?_⟩
      · rw [List.take_succ_cons, countInts_cons, hcnt]
        rfl
      · show eraseEmptiesAfter (p' + 1) (ExprTerm.FLOAT f :: (foldPass op rest).1) = _
        rw [eraseEmptiesAfter] at heq ⊢
        simp only [List.take_succ_cons, List.drop_succ_cons, List.cons_append]
        rw [heq]
    | SYM s =>
      simp only [foldPass, Option.map_eq_some'] at hp
      obtain ⟨p', hp', rfl⟩ := hp
      obtain ⟨w, hlt, hcnt, heq⟩ := ih p' hr hp'
      refine ⟨w, by simpa using hlt, ?_, ?_⟩
      · rw [List.take_succ_cons, countInts_cons, hcnt]
        rfl
      · show eraseEmptiesAfter (p' + 1) (ExprTerm.SYM s :: (foldPass op rest).1) = _
        rw [eraseEmptiesAfter] at heq ⊢
        simp only [List.take_succ_cons, List.drop_succ_cons, List.cons_append]
        rw [heq]
    | LOC l =>
      simp only [foldPass, Option.map_eq_some'] at hp
      obtain ⟨p', hp', rfl⟩ := hp
      obtain ⟨w, hlt, hcnt, heq⟩ := ih p' hr hp'
      refine ⟨w, by simpa using hlt, ?_, ?_⟩
      · rw [List.take_succ_cons, countInts_cons, hcnt]
        rfl
      · show eraseEmptiesAfter (p' + 1) (ExprTerm.LOC l :: (foldPass op rest).1) = _
        rw [eraseEmptiesAfter] at heq ⊢
        simp only [List.take_succ_cons, List.drop_succ_cons, List.cons_append]
        rw [heq]
    | EXPR c =>
      simp only [foldPass, Option.map_eq_some'] at hp
      obtain ⟨p', hp', rfl⟩ := hp
      obtain ⟨w, hlt, hcnt, heq⟩ := ih p' hr hp'
      refine ⟨w, by simpa using hlt, ?_, ?_⟩
      · rw [List.take_succ_cons, countInts_cons, hcnt]
        rfl
      · show eraseEmptiesAfter (p' + 1) (ExprTerm.EXPR c :: (foldPass op rest).1) = _
        rw [eraseEmptiesAfter] at heq ⊢
        simp only [List.take_succ_cons, List.drop_succ_cons, List.cons_append]
        rw [heq]

/-- eraseFirstInt walks past a non-integer head. -/
theorem eraseFirstInt_cons_nonint (t : ExprTerm) (rest : List ExprTerm)
    (h : t.isInt = false) :
    eraseFirstInt (t :: rest) = t :: eraseFirstInt rest := by
  cases t <;> simp_all [eraseFirstInt, ExprTerm.isInt]

/-- Erasing the first integer of a list that has one: the length and the
integer count drop by one, and every kept term was already there. -/
theorem eraseFirstInt_spec (ts : List ExprTerm) (hc : 1 ≤ countInts ts) :
    (eraseFirstInt ts).length + 1 = ts.length ∧
    countInts (eraseFirstInt ts) + 1 = countInts ts ∧
    ∀ t ∈ eraseFirstInt ts, t ∈ ts := by
  induction ts with
  | nil => simp [countInts] at hc
  | cons t rest ih =>
    by_cases hI : t.isInt = true
    · obtain ⟨n, rfl⟩ : ∃ n, t = ExprTerm.INT n := by
        cases t <;> first
          | exact ⟨_, rfl⟩
          | simp_all [ExprTerm.isInt]
      refine ⟨?_, ?_, ?_⟩
      · simp [eraseFirstInt]
      · rw [show eraseFirstInt (ExprTerm.INT n :: rest) = rest from rfl,
          countInts_cons]
        simp [ExprTerm.isInt]
      · rw [show eraseFirstInt (ExprTerm.INT n :: rest) = rest from rfl]
        exact fun x hx => List.mem_cons_of_mem _ hx
    · rw [Bool.not_eq_true] at hI
      have hc' : 1 ≤ countInts rest := by
        rw [countInts_cons, hI] at hc
        simpa using hc
      obtain ⟨ihl, ihc, ihm⟩ := ih hc'
      rw [eraseFirstInt_cons_nonint t rest hI]
      refine ⟨by simpa using ihl, ?_, ?_⟩
      · rw [countInts_cons, countInts_cons, hI]
        omega
      · intro x hx
        rcases List.mem_cons.mp hx with h | h
        · rw [h]; exact List.mem_cons_self _ _
        · exact List.mem_cons_of_mem _ (ihm x h)

/-- A list with an integer term has a first integer term. -/
theorem firstIntTerm_isSome (ts : List ExprTerm) (hc : 1 ≤ countInts ts) :
    ∃ u, firstIntTerm ts = some (ExprTerm.INT u) := by
  induction ts with
  | nil => simp [countInts] at hc
  | cons t rest ih =>
    by_cases hI : t.isInt = true
    · obtain ⟨n, rfl⟩ : ∃ n, t = ExprTerm.INT n := by
        cases t <;> first
          | exact ⟨_, rfl⟩
          | simp_all [ExprTerm.isInt]
      exact ⟨n, rfl⟩
    · rw [Bool.not_eq_true] at hI
      have hc' : 1 ≤ countInts rest := by
        rw [countInts_cons, hI] at hc
        simpa using hc
      obtain ⟨u, hu⟩ := ih hc'
      refine ⟨u, ?_⟩
      cases t <;> simp_all [firstIntTerm, ExprTerm.isInt]

/-- The constant identities apply only to binary-style operators, never
to NOT, NEG or LNOT. -/
theorem is_constant_not_unary (op : Op) (v : Int)
    (h : is_constant op v = true) :
    ¬(op = Op.NOT ∨ op = Op.NEG ∨ op = Op.LNOT) := by
  rintro (rfl | rfl | rfl) <;> simp [is_constant] at h

/-- What one run of simplify_identity guarantees about its output, for a
node whose position idx holds an integer (as level_op arranges): terms
come from the input or are integers, the integer count does not grow, the
term list stays nonempty and no longer, the operator is kept or becomes
IDENT, and it becomes IDENT exactly when one term remains. -/
theorem simplify_identity_spec (srm : Bool) (op : Op) (ts : List ExprTerm)
    (idx : Nat) (v : Int)
    (hv : ts.get? idx = some (.INT v))
    (hone : op = Op.IDENT → ts.length = 1) :
    (∀ t ∈ (Expr.simplify_identity srm op ts idx).2,
        t ∈ ts ∨ ∃ u, t = ExprTerm.INT u) ∧
    countInts (Expr.simplify_identity srm op ts idx).2 ≤ countInts ts ∧
    1 ≤ (Expr.simplify_identity srm op ts idx).2.length ∧
    (Expr.simplify_identity srm op ts idx).2.length ≤ ts.length ∧
    ((Expr.simplify_identity srm op ts idx).1 = op ∨
      (Expr.simplify_identity srm op ts idx).1 = Op.IDENT) ∧
    ((Expr.simplify_identity srm op ts idx).2.length = 1 ↔
      (Expr.simplify_identity srm op ts idx).1 = Op.IDENT) := by
  have hget : (ts.get? idx).bind ExprTerm.get_int = some v := by
    rw [hv]
    rfl
  have hcount : 1 ≤ countInts ts := countInts_pos_of_get ts idx v hv
  have hlen : 1 ≤ ts.length := by
    have := (List.get?_eq_some.mp hv).1
    omega
  by_cases hlen1 : 1 < ts.length
  · have hop : ¬op = Op.IDENT := fun h => by
      have := hone h
      omega
    by_cases hcond : ((srm || !(op = Op.MUL) || !(IntNum.is_pos1 v) ||
        !((Expr.mk op ts).contains .REG)) &&
        ((decide (idx = 0) && can_destroy_int_left op v) ||
         (!decide (idx = 0) && can_destroy_int_right op v))) = true
    · obtain ⟨hel, hec, hem⟩ := eraseFirstInt_spec ts hcount
      have hr : Expr.simplify_identity srm op ts idx =
          (if (eraseFirstInt ts).length = 1 then Op.IDENT else op,
           eraseFirstInt ts) := by
        simp only [Expr.simplify_identity, hget, Option.bind_some]
        rw [if_pos hlen1, if_pos hcond]
        have hsplit : ∀ (L : Prop) (inst : Decidable L) (e0 : List ExprTerm),
            (if L then (Op.IDENT, e0) else (op, e0)) =
              ((if L then Op.IDENT else op), e0) := by
          intro L inst e0
          split <;> rfl
        exact hsplit _ _ _
      rw [hr]
      dsimp only
      refine ⟨fun t ht => Or.inl (hem t ht), by omega, by omega, by omega,
        ?_, ?_⟩
      · split
        · exact Or.inr rfl
        · exact Or.inl rfl
      · constructor
        · intro h
          rw [if_pos h]
        · intro h
          by_contra hne
          rw [if_neg hne] at h
          exact hop h
    · by_cases hK : is_constant op v = true
      · obtain ⟨u, hu⟩ := firstIntTerm_isSome ts hcount
        have hnu := is_constant_not_unary op v hK
        have hr : Expr.simplify_identity srm op ts idx =
            (Op.IDENT, [ExprTerm.INT u]) := by
          simp only [Expr.simplify_identity, hget, Option.bind_some]
          rw [if_pos hlen1, if_neg hcond, if_pos hK, hu]
          dsimp only [ExprTerm.get_int]
          rw [if_neg (show ¬([ExprTerm.INT u].length = 1 ∧ idx = 0 ∧
            (op = Op.NOT ∨ op = Op.NEG ∨ op = Op.LNOT)) from
            fun hcc => hnu hcc.2.2)]
          rw [if_pos (show ([ExprTerm.INT u] : List ExprTerm).length = 1
            from rfl)]
        rw [hr]
        dsimp only
        refine ⟨fun t ht => ?_, ?_, by simp, by simp [hlen], Or.inr rfl,
          by simp⟩
        · rcases List.mem_singleton.mp ht with rfl
          exact Or.inr ⟨u, rfl⟩
        · simpa [countInts, List.countP_cons, ExprTerm.isInt] using hcount
      · have hr : Expr.simplify_identity srm op ts idx = (op, ts) := by
          simp only [Expr.simplify_identity, hget, Option.bind_some]
          rw [if_pos hlen1, if_neg hcond, if_neg hK]
          dsimp only
          rw [if_neg (show ¬(ts.length = 1 ∧ idx = 0 ∧
            (op = Op.NOT ∨ op = Op.NEG ∨ op = Op.LNOT)) from
            fun hcc => absurd hcc.1 (by omega))]
          rw [if_neg (show ¬ts.length = 1 from by omega)]
        rw [hr]
        dsimp only
        refine ⟨fun t ht => Or.inl ht, le_refl _, hlen, le_refl _,
          Or.inl rfl, ?_⟩
        constructor
        · intro h
          omega
        · intro h
          exact absurd h hop
  · have hlen2 : ts.length = 1 := by omega
    have hidx : idx = 0 := by
      have := (List.get?_eq_some.mp hv).1
      omega
    subst hidx
    by_cases hopc : op = Op.NOT ∨ op = Op.NEG ∨ op = Op.LNOT
    · have hr : Expr.simplify_identity srm op ts 0 =
          (Op.IDENT, [ExprTerm.INT (IntNum.calcUnary op v)]) := by
        simp only [Expr.simplify_identity, hget, Option.bind_some]
        rw [if_neg hlen1]
        dsimp only
        rw [if_pos (show ts.length = 1 ∧ True ∧
          (op = Op.NOT ∨ op = Op.NEG ∨ op = Op.LNOT) from
          ⟨hlen2, trivial, hopc⟩)]
        rw [if_pos (show ([ExprTerm.INT (IntNum.calcUnary op v)] :
          List ExprTerm).length = 1 from rfl)]
      rw [hr]
      dsimp only
      refine ⟨fun t ht => ?_, ?_, by simp, by simp [hlen], Or.inr rfl,
        by simp⟩
      · rcases List.mem_singleton.mp ht with rfl
        exact Or.inr ⟨_, rfl⟩
      · simpa [countInts, List.countP_cons, ExprTerm.isInt] using hcount
    · have hr : Expr.simplify_identity srm op ts 0 = (Op.IDENT, ts) := by
        simp only [Expr.simplify_identity, hget, Option.bind_some]
        rw [if_neg hlen1]
        dsimp only
        rw [if_neg (show ¬(ts.length = 1 ∧ True ∧
          (op = Op.NOT ∨ op = Op.NEG ∨ op = Op.LNOT)) from
          fun hcc => hopc hcc.2.2)]
        rw [if_pos hlen2]
      rw [hr]
      dsimp only
      exact ⟨fun t ht => Or.inl ht, le_refl _, hlen, le_refl _, Or.inr rfl,
        by simp [hlen2]⟩

/-- countInts is additive over append. -/
theorem countInts_append (l1 l2 : List ExprTerm) :
    countInts (l1 ++ l2) = countInts l1 + countInts l2 := by
  simp [countInts, List.countP_append]

/-- Replacing an INT slot by another INT keeps the integer count. -/
theorem countInts_set_int (l : List ExprTerm) (j : Nat) (w u : Int)
    (h : l.get? j = some (.INT w)) :
    countInts (l.set j (.INT u)) = countInts l := by
  induction l generalizing j with
  | nil => simp at h
  | cons t rest ih =>
    cases j with
    | zero =>
      simp only [List.get?] at h
      cases h
      simp [List.set, countInts_cons, ExprTerm.isInt]
    | succ j =>
      simp only [List.get?] at h
      simp [List.set, countInts_cons, ih j h]

/-- An integer term is fully leveled. -/
theorem TermOKS_INT (u : Int) : TermOKS (ExprTerm.INT u) :=
  TermOKS_leaf _ rfl (by simp)

/-- Invariant transfer through moveUpTerms: the output-state invariant is
preserved, the integer count plus the unset-index slack does not grow
(child integers are folded into the recorded slot, or claim the single
slack), the output only grows, a recorded index survives, and a nonempty
child list leaves a nonempty output. -/
theorem moveUpTerms_spec (op : Op) (cs : List ExprTerm)
    (out : List ExprTerm) (j? : Option Nat)
    (hcs : ∀ t ∈ cs, (TermOKS t ∧ ∀ c, t = ExprTerm.EXPR c → ¬(c.op = op)))
    (hst : LPInv op (out, j?)) :
    LPInv op (moveUpTerms true op cs (out, j?)) ∧
    countInts (moveUpTerms true op cs (out, j?)).1 +
        (if (moveUpTerms true op cs (out, j?)).2.isSome then 0 else 1) ≤
      countInts out + (if j?.isSome then 0 else 1) ∧
    out.length ≤ (moveUpTerms true op cs (out, j?)).1.length ∧
    (∀ j, j? = some j → (moveUpTerms true op cs (out, j?)).2 = some j) ∧
    (out = [] → cs ≠ [] → 1 ≤ (moveUpTerms true op cs (out, j?)).1.length) := by
  induction cs generalizing out j? with
  | nil =>
    exact ⟨hst, le_refl _, le_refl _, fun j hj => hj, fun _ h => absurd rfl h⟩
  | cons c rest ih =>
    have hr : ∀ t ∈ rest,
        (TermOKS t ∧ ∀ c, t = ExprTerm.EXPR c → ¬(c.op = op)) :=
      fun t ht => hcs t (List.mem_cons_of_mem _ ht)
    have hc := hcs c (List.mem_cons_self _ _)
    by_cases hI : c.isInt = true
    · obtain ⟨k, rfl⟩ : ∃ k, c = ExprTerm.INT k := by
        cases c with
        | INT k => exact ⟨k, rfl⟩
        | NONE => exact absurd hI (by simp [ExprTerm.isInt])
        | REG r => exact absurd hI (by simp [ExprTerm.isInt])
        | SUBST i => exact absurd hI (by simp [ExprTerm.isInt])
        | FLOAT f => exact absurd hI (by simp [ExprTerm.isInt])
        | SYM s => exact absurd hI (by simp [ExprTerm.isInt])
        | LOC l => exact absurd hI (by simp [ExprTerm.isInt])
        | EXPR c => exact absurd hI (by simp [ExprTerm.isInt])
      cases j? with
      | some j =>
        obtain ⟨w, hw⟩ := hst.2 j rfl
        have hstep : moveUpTerms true op (ExprTerm.INT k :: rest)
            (out, some j) =
            moveUpTerms true op rest
              (out.set j (.INT (IntNum.calcOp op (getIntAt out j) k)),
               some j) := rfl
        rw [hstep]
        have hst' : LPInv op
            (out.set j (.INT (IntNum.calcOp op (getIntAt out j) k)),
             some j) := by
          constructor
          · intro t ht
            rcases List.mem_or_eq_of_mem_set ht with h | h
            · exact hst.1 t h
            · rw [h]
              exact ⟨TermOKS_INT _, fun c hc' => by cases hc'⟩
          · intro j' hj'
            cases hj'
            refine ⟨IntNum.calcOp op (getIntAt out j) k, ?_⟩
            rw [List.get?_set_eq, hw]
            rfl
        obtain ⟨a, b, cc, d, e⟩ := ih _ _ hr hst'
        refine ⟨a, ?_, ?_, ?_, ?_⟩
        · rw [countInts_set_int out j w _ hw] at b
          simpa using b
        · rw [List.length_set] at cc
          exact cc
        · intro j' hj'
          cases hj'
          exact d j rfl
        · intro hout
          rw [hout] at hw
          simp at hw
      | none =>
        have hstep : moveUpTerms true op (ExprTerm.INT k :: rest)
            (out, none) =
            moveUpTerms true op rest (out ++ [.INT k], some out.length) := rfl
        rw [hstep]
        have hst' : LPInv op (out ++ [.INT k], some out.length) := by
          constructor
          · intro t ht
            rcases List.mem_append.mp ht with h | h
            · exact hst.1 t h
            · rcases List.mem_singleton.mp h with rfl
              exact ⟨TermOKS_INT _, fun c hc' => by cases hc'⟩
          · intro j' hj'
            cases hj'
            refine ⟨k, ?_⟩
            rw [List.get?_append_right (le_refl _)]
            simp
        obtain ⟨a, b, cc, d, e⟩ := ih _ _ hr hst'
        have hcnt1 : countInts (out ++ [ExprTerm.INT k]) =
            countInts out + 1 := by
          rw [countInts_append]
          simp [countInts, List.countP_cons, ExprTerm.isInt]
        have hlen1 : (out ++ [ExprTerm.INT k]).length = out.length + 1 := by
          rw [List.length_append, List.length_singleton]
        have hnone : (if (none : Option Nat).isSome then (0:Nat) else 1) = 1 := rfl
        have hsome : (if (some out.length : Option Nat).isSome then (0:Nat) else 1) = 0 := rfl
        refine ⟨a, ?_, ?_, ?_, ?_⟩
        · rw [hcnt1, hsome] at b
          rw [hnone]
          omega
        · rw [hlen1] at cc
          omega
        · intro j' hj'
          cases hj'
        · intro hout hne
          rw [hlen1] at cc
          omega
    · rw [Bool.not_eq_true] at hI
      have hstep : moveUpTerms true op (c :: rest) (out, j?) =
          moveUpTerms true op rest (out ++ [c], j?) := by
        cases c with
        | INT k => simp [ExprTerm.isInt] at hI
        | NONE => rfl
        | REG r => rfl
        | SUBST i => rfl
        | FLOAT f => rfl
        | SYM s => rfl
        | LOC l => rfl
        | EXPR c => rfl
      rw [hstep]
      have hst' : LPInv op (out ++ [c], j?) := by
        constructor
        · intro t ht
          rcases List.mem_append.mp ht with h | h
          · exact hst.1 t h
          · rcases List.mem_singleton.mp h with rfl
            exact hc
        · intro j' hj'
          obtain ⟨w, hw⟩ := hst.2 j' hj'
          refine ⟨w, ?_⟩
          rw [List.get?_append ((List.get?_eq_some.mp hw).1)]
          exact hw
      obtain ⟨a, b, cc, d, e⟩ := ih _ _ hr hst'
      have hcnt1 : countInts (out ++ [c]) = countInts out := by
        rw [countInts_append]
        simp [countInts, List.countP_cons, hI]
      have hlen1 : (out ++ [c]).length = out.length + 1 := by
        rw [List.length_append, List.length_singleton]
      refine ⟨a, ?_, ?_, d, ?_⟩
      · rw [hcnt1] at b
        omega
      · rw [hlen1] at cc
        omega
      · intro hout hne
        rw [hlen1] at cc
        omega

/-- A singleton of a non-integer term has no integer terms. -/
theorem countInts_single_nonint (t : ExprTerm) (h : t.isInt = false) :
    countInts [t] = 0 := by
  simp [countInts, List.countP_cons, h]

/-- A singleton integer term counts one. -/
theorem countInts_single_int (n : Int) : countInts [ExprTerm.INT n] = 1 := by
  simp [countInts, List.countP_cons, ExprTerm.isInt]

/-- Pushing a fully leveled non-same-operator term preserves the leveling
invariant. -/
theorem LPInv_push (op : Op) (out : List ExprTerm) (j? : Option Nat)
    (t : ExprTerm) (hst : LPInv op (out, j?)) (ht : TermOKS t)
    (hop : ∀ c, t = ExprTerm.EXPR c → ¬(c.op = op)) :
    LPInv op (out ++ [t], j?) := by
  constructor
  · intro x hx
    rcases List.mem_append.mp hx with h | h
    · exact hst.1 x h
    · rcases List.mem_singleton.mp h with rfl
      exact ⟨ht, hop⟩
  · intro j' hj'
    obtain ⟨w, hw⟩ := hst.2 j' hj'
    refine ⟨w, ?_⟩
    rw [List.get?_append ((List.get?_eq_some.mp hw).1)]
    exact hw

/-- Pushing an integer with no recorded index records its position. -/
theorem LPInv_push_int (op : Op) (out : List ExprTerm) (n : Int)
    (hst : LPInv op (out, none)) :
    LPInv op (out ++ [ExprTerm.INT n], some out.length) := by
  constructor
  · intro x hx
    rcases List.mem_append.mp hx with h | h
    · exact hst.1 x h
    · rcases List.mem_singleton.mp h with rfl
      exact ⟨TermOKS_INT _, fun c hc' => by cases hc'⟩
  · intro j' hj'
    cases hj'
    refine ⟨n, ?_⟩
    rw [List.get?_append_right (le_refl _)]
    simp

/-- Invariant transfer through the leveling phase: the output invariant is
preserved, the integer count plus the unset-index slack grows at most by
the top-level integer count of the processed terms, the output only grows,
a recorded index survives, and nonempty input leaves nonempty output. -/
theorem levelPhase_spec (op : Op) (rev : List ExprTerm)
    (out : List ExprTerm) (j? : Option Nat)
    (hassoc : op.isAssociative = true)
    (hrev : ∀ t ∈ rev, TermOKS t)
    (hst : LPInv op (out, j?)) :
    LPInv op (levelPhase true op rev (out, j?)) ∧
    countInts (levelPhase true op rev (out, j?)).1 +
        (if (levelPhase true op rev (out, j?)).2.isSome then 0 else 1) ≤
      countInts out + (if j?.isSome then 0 else 1) + countInts rev ∧
    out.length ≤ (levelPhase true op rev (out, j?)).1.length ∧
    (∀ j, j? = some j → (levelPhase true op rev (out, j?)).2 = some j) ∧
    (out = [] → rev ≠ [] →
      1 ≤ (levelPhase true op rev (out, j?)).1.length) := by
  induction rev generalizing out j? with
  | nil =>
    exact ⟨hst, le_refl _, le_refl _, fun j hj => hj, fun _ h => absurd rfl h⟩
  | cons t rest ih =>
    have hrest : ∀ t ∈ rest, TermOKS t :=
      fun t ht => hrev t (List.mem_cons_of_mem _ ht)
    have hT := hrev t (List.mem_cons_self _ _)
    cases t with
    | NONE => exact absurd rfl hT.1
    | EXPR c =>
      have hcnt : countInts (ExprTerm.EXPR c :: rest) = countInts rest := by
        rw [countInts_cons]
        rfl
      by_cases hcop : c.op = op
      · -- same-operator child: its terms are moved up
        obtain ⟨hcA, hcI⟩ := hT.2 c rfl
        obtain ⟨cop, cts⟩ := c
        simp only [Expr.op_mk] at hcop
        subst hcop
        have hdes := c1Amended_destruct _ _ hcA
        have hcs : ∀ x ∈ cts.reverse,
            (TermOKS x ∧ ∀ y, x = ExprTerm.EXPR y → ¬(y.op = cop)) := by
          intro x hx
          have hx' := List.mem_reverse.mp hx
          refine ⟨⟨hdes.2.2.2.2.2.2.2.2 x hx', ?_⟩, ?_⟩
          · intro y hy
            exact ⟨(hdes.1 y (hy ▸ hx')).1, (hdes.1 y (hy ▸ hx')).2.2⟩
          · intro y hy hyo
            exact (hdes.1 y (hy ▸ hx')).2.1 ⟨hassoc, hyo⟩
        have hstep : levelPhase true cop
            (ExprTerm.EXPR (.mk cop cts) :: rest) (out, j?) =
            levelPhase true cop rest
              (moveUpTerms true cop cts.reverse (out, j?)) := by
          rw [levelPhase]
          rw [if_pos (show (Expr.mk cop cts).op = cop from rfl)]
          rfl
        rw [hstep]
        obtain ⟨m1, m2, hm⟩ :
            ∃ m1 m2, moveUpTerms true cop cts.reverse (out, j?) = (m1, m2) :=
          ⟨_, _, rfl⟩
        obtain ⟨mA, mB, mC, mD, mE⟩ :=
          moveUpTerms_spec cop cts.reverse out j? hcs hst
        rw [hm] at mA mB mC mD mE ⊢
        dsimp only at mA mB mC mD mE
        obtain ⟨rA, rB, rC, rD, rE⟩ := ih m1 m2 hrest mA
        have hctslen : 1 ≤ cts.length := hdes.2.2.2.2.2.2.1
        refine ⟨rA, ?_, ?_, ?_, ?_⟩
        · rw [hcnt]
          omega
        · omega
        · intro j hj
          exact rD j (mD j hj)
        · intro hout hne
          have hc1 : cts.reverse ≠ [] := by
            intro hc
            rw [List.reverse_eq_nil_iff] at hc
            rw [hc] at hctslen
            simp at hctslen
          have := mE hout hc1
          omega
      · -- a sub-expression with a different operator is pushed unchanged
        have hstep : levelPhase true op (ExprTerm.EXPR c :: rest)
            (out, j?) =
            levelPhase true op rest (out ++ [ExprTerm.EXPR c], j?) := by
          rw [levelPhase]
          rw [if_neg hcop]
          rw [if_neg (fun hcc => by simpa [ExprTerm.isInt] using hcc.2)]
        rw [hstep]
        have hst' := LPInv_push op out j? (ExprTerm.EXPR c) hst hT
          (fun x hx => by injection hx with h; rw [← h]; exact hcop)
        obtain ⟨rA, rB, rC, rD, rE⟩ := ih _ _ hrest hst'
        have hca : countInts (out ++ [ExprTerm.EXPR c]) = countInts out := by
          rw [countInts_append, countInts_single_nonint (ExprTerm.EXPR c) rfl]
          omega
        have hla : (out ++ [ExprTerm.EXPR c]).length = out.length + 1 := by
          rw [List.length_append, List.length_singleton]
        rw [hca] at rB
        rw [hla] at rC
        refine ⟨rA, ?_, by omega, rD, ?_⟩
        · rw [hcnt]
          omega
        · intro hout hne
          omega
    | REG r =>
      have hcnt : countInts (ExprTerm.REG r :: rest) = countInts rest := by
        rw [countInts_cons]
        rfl
      have hstep : levelPhase true op (ExprTerm.REG r :: rest) (out, j?) =
          levelPhase true op rest (out ++ [ExprTerm.REG r], j?) := by
        rw [levelPhase]
        · rw [if_neg (fun hcc => by simpa [ExprTerm.isInt] using hcc.2)]
        · simp
      rw [hstep]
      have hst' := LPInv_push op out j? (ExprTerm.REG r) hst hT
        (fun x hx => by cases hx)
      obtain ⟨rA, rB, rC, rD, rE⟩ := ih _ _ hrest hst'
      have hca : countInts (out ++ [ExprTerm.REG r]) = countInts out := by
        rw [countInts_append, countInts_single_nonint (ExprTerm.REG r) rfl]
        omega
      have hla : (out ++ [ExprTerm.REG r]).length = out.length + 1 := by
        rw [List.length_append, List.length_singleton]
      rw [hca] at rB
      rw [hla] at rC
      refine ⟨rA, ?_, by omega, rD, ?_⟩
      · rw [hcnt]
        omega
      · intro hout hne
        omega
    | SUBST i =>
      have hcnt : countInts (ExprTerm.SUBST i :: rest) = countInts rest := by
        rw [countInts_cons]
        rfl
      have hstep : levelPhase true op (ExprTerm.SUBST i :: rest) (out, j?) =
          levelPhase true op rest (out ++ [ExprTerm.SUBST i], j?) := by
        rw [levelPhase]
        · rw [if_neg (fun hcc => by simpa [ExprTerm.isInt] using hcc.2)]
        · simp
      rw [hstep]
      have hst' := LPInv_push op out j? (ExprTerm.SUBST i) hst hT
        (fun x hx => by cases hx)
      obtain ⟨rA, rB, rC, rD, rE⟩ := ih _ _ hrest hst'
      have hca : countInts (out ++ [ExprTerm.SUBST i]) = countInts out := by
        rw [countInts_append, countInts_single_nonint (ExprTerm.SUBST i) rfl]
        omega
      have hla : (out ++ [ExprTerm.SUBST i]).length = out.length + 1 := by
        rw [List.length_append, List.length_singleton]
      rw [hca] at rB
      rw [hla] at rC
      refine ⟨rA, ?_, by omega, rD, ?_⟩
      · rw [hcnt]
        omega
      · intro hout hne
        omega
    | FLOAT f =>
      have hcnt : countInts (ExprTerm.FLOAT f :: rest) = countInts rest := by
        rw [countInts_cons]
        rfl
      have hstep : levelPhase true op (ExprTerm.FLOAT f :: rest) (out, j?) =
          levelPhase true op rest (out ++ [ExprTerm.FLOAT f], j?) := by
        rw [levelPhase]
        · rw [if_neg (fun hcc => by simpa [ExprTerm.isInt] using hcc.2)]
        · simp
      rw [hstep]
      have hst' := LPInv_push op out j? (ExprTerm.FLOAT f) hst hT
        (fun x hx => by cases hx)
      obtain ⟨rA, rB, rC, rD, rE⟩ := ih _ _ hrest hst'
      have hca : countInts (out ++ [ExprTerm.FLOAT f]) = countInts out := by
        rw [countInts_append, countInts_single_nonint (ExprTerm.FLOAT f) rfl]
        omega
      have hla : (out ++ [ExprTerm.FLOAT f]).length = out.length + 1 := by
        rw [List.length_append, List.length_singleton]
      rw [hca] at rB
      rw [hla] at rC
      refine ⟨rA, ?_, by omega, rD, ?_⟩
      · rw [hcnt]
        omega
      · intro hout hne
        omega
    | SYM sy =>
      have hcnt : countInts (ExprTerm.SYM sy :: rest) = countInts rest := by
        rw [countInts_cons]
        rfl
      have hstep : levelPhase true op (ExprTerm.SYM sy :: rest) (out, j?) =
          levelPhase true op rest (out ++ [ExprTerm.SYM sy], j?) := by
        rw [levelPhase]
        · rw [if_neg (fun hcc => by simpa [ExprTerm.isInt] using hcc.2)]
        · simp
      rw [hstep]
      have hst' := LPInv_push op out j? (ExprTerm.SYM sy) hst hT
        (fun x hx => by cases hx)
      obtain ⟨rA, rB, rC, rD, rE⟩ := ih _ _ hrest hst'
      have hca : countInts (out ++ [ExprTerm.SYM sy]) = countInts out := by
        rw [countInts_append, countInts_single_nonint (ExprTerm.SYM sy) rfl]
        omega
      have hla : (out ++ [ExprTerm.SYM sy]).length = out.length + 1 := by
        rw [List.length_append, List.length_singleton]
      rw [hca] at rB
      rw [hla] at rC
      refine ⟨rA, ?_, by omega, rD, ?_⟩
      · rw [hcnt]
        omega
      · intro hout hne
        omega
    | LOC lo =>
      have hcnt : countInts (ExprTerm.LOC lo :: rest) = countInts rest := by
        rw [countInts_cons]
        rfl
      have hstep : levelPhase true op (ExprTerm.LOC lo :: rest) (out, j?) =
          levelPhase true op rest (out ++ [ExprTerm.LOC lo], j?) := by
        rw [levelPhase]
        · rw [if_neg (fun hcc => by simpa [ExprTerm.isInt] using hcc.2)]
        · simp
      rw [hstep]
      have hst' := LPInv_push op out j? (ExprTerm.LOC lo) hst hT
        (fun x hx => by cases hx)
      obtain ⟨rA, rB, rC, rD, rE⟩ := ih _ _ hrest hst'
      have hca : countInts (out ++ [ExprTerm.LOC lo]) = countInts out := by
        rw [countInts_append, countInts_single_nonint (ExprTerm.LOC lo) rfl]
        omega
      have hla : (out ++ [ExprTerm.LOC lo]).length = out.length + 1 := by
        rw [List.length_append, List.length_singleton]
      rw [hca] at rB
      rw [hla] at rC
      refine ⟨rA, ?_, by omega, rD, ?_⟩
      · rw [hcnt]
        omega
      · intro hout hne
        omega
    | INT n =>
      have hcnt : countInts (ExprTerm.INT n :: rest) = countInts rest + 1 := by
        rw [countInts_cons]
        rfl
      have hca : countInts (out ++ [ExprTerm.INT n]) = countInts out + 1 := by
        rw [countInts_append, countInts_single_int]
      have hla : (out ++ [ExprTerm.INT n]).length = out.length + 1 := by
        rw [List.length_append, List.length_singleton]
      cases j? with
      | none =>
        have hstep : levelPhase true op (ExprTerm.INT n :: rest) (out, none) =
            levelPhase true op rest
              (out ++ [ExprTerm.INT n], some out.length) := by
          rw [levelPhase]
          · rw [if_pos ⟨rfl, rfl⟩]
          · simp
        rw [hstep]
        have hst' := LPInv_push_int op out n hst
        obtain ⟨rA, rB, rC, rD, rE⟩ := ih _ _ hrest hst'
        rw [hca] at rB
        rw [hla] at rC
        have hsl : (if (some out.length : Option Nat).isSome then (0:Nat)
            else 1) = 0 := rfl
        have hsl2 : (if (none : Option Nat).isSome then (0:Nat)
            else 1) = 1 := rfl
        rw [hsl] at rB
        refine ⟨rA, ?_, by omega, ?_, ?_⟩
        · rw [hcnt, hsl2]
          omega
        · intro j hj
          cases hj
        · intro hout hne
          omega
      | some j =>
        have hstep : levelPhase true op (ExprTerm.INT n :: rest)
            (out, some j) =
            levelPhase true op rest (out ++ [ExprTerm.INT n], some j) := by
          rw [levelPhase]
          · rw [if_neg (fun hcc => by simpa using hcc.1)]
          · simp
        rw [hstep]
        have hst' := LPInv_push op out (some j) (ExprTerm.INT n) hst
          (TermOKS_INT n) (fun x hx => by cases hx)
        obtain ⟨rA, rB, rC, rD, rE⟩ := ih _ _ hrest hst'
        rw [hca] at rB
        rw [hla] at rC
        refine ⟨rA, ?_, by omega, rD, ?_⟩
        · rw [hcnt]
          omega
        · intro hout hne
          omega

/-- When no term carries the operator being leveled, the leveling phase
is a plain push-through: the output is the input appended. -/
theorem levelPhase_pure (op : Op) (rev : List ExprTerm)
    (out : List ExprTerm) (j? : Option Nat)
    (h : ∀ c, ExprTerm.EXPR c ∈ rev → ¬(c.op = op)) :
    (levelPhase true op rev (out, j?)).1 = out ++ rev := by
  induction rev generalizing out j? with
  | nil => simp [levelPhase]
  | cons t rest ih =>
    have hrest : ∀ c, ExprTerm.EXPR c ∈ rest → ¬(c.op = op) :=
      fun c hc => h c (List.mem_cons_of_mem _ hc)
    have happ : ∀ (j?' : Option Nat),
        (levelPhase true op rest (out ++ [t], j?')).1 = out ++ t :: rest := by
      intro j?'
      rw [ih (out ++ [t]) j?' hrest]
      simp
    cases t with
    | EXPR c =>
      have hco := h c (List.mem_cons_self _ _)
      show (levelPhase true op (ExprTerm.EXPR c :: rest) (out, j?)).1 = _
      rw [levelPhase]
      rw [if_neg hco]
      exact happ _
    | NONE =>
      rw [levelPhase]
      · exact happ _
      · simp
    | REG r =>
      rw [levelPhase]
      · exact happ _
      · simp
    | INT n =>
      rw [levelPhase]
      · exact happ _
      · simp
    | SUBST i =>
      rw [levelPhase]
      · exact happ _
      · simp
    | FLOAT f =>
      rw [levelPhase]
      · exact happ _
      · simp
    | SYM s =>
      rw [levelPhase]
      · exact happ _
      · simp
    | LOC l =>
      rw [levelPhase]
      · exact happ _
      · simp

/-- countInts is invariant under reversal. -/
theorem countInts_reverse (l : List ExprTerm) :
    countInts l.reverse = countInts l := by
  induction l with
  | nil => rfl
  | cons t r ih =>
    rw [List.reverse_cons, countInts_append, countInts_cons, ih,
      countInts_cons]
    have : countInts [] = 0 := rfl
    omega

/-- The IDENT splice does nothing for a non-IDENT operator. -/
theorem bringUpIdent_ne (op : Op) (l : List ExprTerm)
    (h : ¬op = Op.IDENT) : bringUpIdent (op, l) = (op, l) := by
  unfold bringUpIdent
  split
  · rename_i heq
    injection heq with h1 h2
    exact absurd h1 h
  · rfl

/-- The IDENT splice brings up a front sub-expression. -/
theorem bringUpIdent_expr (c : Expr) (rest : List ExprTerm) :
    bringUpIdent (Op.IDENT, ExprTerm.EXPR c :: rest) = (c.op, c.terms) := rfl

/-- The IDENT splice does nothing when the front term is a leaf. -/
theorem bringUpIdent_nonexpr (t : ExprTerm) (rest : List ExprTerm)
    (h : t.isExpr = false) :
    bringUpIdent (Op.IDENT, t :: rest) = (Op.IDENT, t :: rest) := by
  cases t <;> first
    | rfl
    | simp [ExprTerm.isExpr] at h

/-- Non-numeric operators are not associative. -/
theorem nonNum_not_assoc (op : Op) (h : op.isNonNum = true) :
    op.isAssociative = false := by
  cases op <;> simp_all [Op.isNonNum, Op.isAssociative]

/-- IDENT is numeric. -/
theorem nonNum_ne_ident (op : Op) (h : op.isNonNum = true) :
    ¬op = Op.IDENT := by
  cases op <;> simp_all [Op.isNonNum]

/-- Associative operators are numeric. -/
theorem assoc_not_nonNum (op : Op) (h : op.isAssociative = true) :
    op.isNonNum = false := by
  cases op <;> simp_all [Op.isNonNum, Op.isAssociative]

/-- The unary operators other than NEG are IDENT, NOT, LNOT and SEG. -/
theorem unary_classify (op : Op) (h : op.isUnary = true)
    (h2 : ¬op = Op.NEG) :
    op = Op.IDENT ∨ op = Op.NOT ∨ op = Op.LNOT ∨ op = Op.SEG := by
  cases op <;> simp_all [Op.isUnary]

/-- No associative operator is among the one-term operators. -/
theorem assoc_not_in_one_term_ops (op : Op) (h : op.isAssociative = true) :
    ¬(op = Op.IDENT ∨ op = Op.NOT ∨ op = Op.LNOT ∨ op = Op.SEG) := by
  cases op <;> simp_all [Op.isAssociative]

/-- There are at most as many integer terms as terms. -/
theorem countInts_le_length (l : List ExprTerm) : countInts l ≤ l.length :=
  List.countP_le_length _

/-- The final IDENT splice of level_op yields a node satisfying the
amended invariant, given the facts simplify_identity and the leveling
phase guarantee about the pre-splice state. -/
theorem bringUp_final_c1 (op4 : Op) (st6 : Op × List ExprTerm)
    (hassoc : op4.isAssociative = true)
    (hop1 : ¬op4 = Op.IDENT) (hop2 : ¬op4 = Op.NEG) (hop3 : ¬op4 = Op.SUB)
    (hops : st6.1 = op4 ∨ st6.1 = Op.IDENT)
    (hiff : st6.2.length = 1 ↔ st6.1 = Op.IDENT)
    (hmem : ∀ t ∈ st6.2, TermOKS t ∧ ∀ c, t = ExprTerm.EXPR c → ¬(c.op = op4))
    (hcnt : countInts st6.2 ≤ 2)
    (hlen : 1 ≤ st6.2.length) :
    c1Amended (.mk (bringUpIdent st6).1 (bringUpIdent st6).2) = true := by
  obtain ⟨o6, l6⟩ := st6
  dsimp only at hops hiff hmem hcnt hlen
  rcases hops with rfl | hid6
  · -- operator kept: no bring-up
    rw [bringUpIdent_ne o6 l6 hop1]
    dsimp only
    refine c1Amended_intro o6 l6 ?_ ?_ ?_ ?_ hop2 hop3 hlen ?_ ?_
    · intro c hc
      obtain ⟨hS, hno⟩ := hmem _ hc
      obtain ⟨_, hsub⟩ := hS
      refine ⟨(hsub c rfl).1, ?_, (hsub c rfl).2⟩
      rintro ⟨_, hco⟩
      exact hno c rfl hco
    · intro h
      exact absurd h hop1
    · intro _
      refine ⟨hcnt, ?_⟩
      intro hna
      rw [hassoc] at hna
      cases hna
    · intro h1
      exact absurd (hiff.mp h1) hop1
    · intro _
      exact hassoc
    · intro t ht
      exact (hmem t ht).1.1
  · -- operator became IDENT: exactly one term, bring it up
    rw [hid6] at hiff
    have hl1 : l6.length = 1 := hiff.mpr rfl
    obtain ⟨t0, rfl⟩ : ∃ t0, l6 = [t0] := by
      cases l6 with
      | nil => simp at hl1
      | cons x r =>
        cases r with
        | nil => exact ⟨x, rfl⟩
        | cons y m => simp at hl1
    obtain ⟨hS, hno⟩ := hmem t0 (List.mem_cons_self _ _)
    subst hid6
    by_cases hx : t0.isExpr = true
    · obtain ⟨c, rfl⟩ : ∃ c, t0 = ExprTerm.EXPR c := by
        cases t0 with
        | EXPR c => exact ⟨c, rfl⟩
        | NONE => simp [ExprTerm.isExpr] at hx
        | REG r => simp [ExprTerm.isExpr] at hx
        | INT n => simp [ExprTerm.isExpr] at hx
        | SUBST i => simp [ExprTerm.isExpr] at hx
        | FLOAT f => simp [ExprTerm.isExpr] at hx
        | SYM s => simp [ExprTerm.isExpr] at hx
        | LOC l => simp [ExprTerm.isExpr] at hx
      rw [bringUpIdent_expr]
      rw [show Expr.mk c.op c.terms = c from Expr.eta c]
      exact (hS.2 c rfl).1
    · rw [Bool.not_eq_true] at hx
      rw [bringUpIdent_nonexpr t0 [] hx]
      dsimp only
      refine c1Amended_intro Op.IDENT [t0] ?_ ?_ ?_ ?_ (by simp) (by simp)
        (by simp) ?_ ?_
      · intro c hc
        rcases List.mem_singleton.mp hc with rfl
        simp [ExprTerm.isExpr] at hx
      · intro _
        refine ⟨rfl, ?_⟩
        simp [hx]
      · intro _
        constructor
        · have := countInts_le_length [t0]
          simp at this
          omega
        · intro _
          have := countInts_le_length [t0]
          simp at this
          omega
      · intro _
        exact Or.inl rfl
      · intro h
        simp at h
      · intro t ht
        rcases List.mem_singleton.mp ht with rfl
        exact hS.1

/-- The whole else-branch of level_op (leveling phase, second identity
simplification, final IDENT splice) yields a node satisfying the amended
invariant, for an associative operator over fully leveled terms with at
most one integer term (or none of the terms same-operator and at most
two). -/
theorem levelPhase_assembly_c1 (srm : Bool) (op4 : Op) (ts4 : List ExprTerm)
    (hassoc : op4.isAssociative = true)
    (hop1 : ¬op4 = Op.IDENT) (hop2 : ¬op4 = Op.NEG) (hop3 : ¬op4 = Op.SUB)
    (hterm : ∀ t ∈ ts4, TermOKS t)
    (hlen : 1 ≤ ts4.length)
    (hcnt : countInts ts4 ≤ 1 ∨
      ((∀ c, ExprTerm.EXPR c ∈ ts4 → ¬c.op = op4) ∧ countInts ts4 ≤ 2))
    (st6 : Op × List ExprTerm)
    (hst6 : st6 =
      match (levelPhase true op4 ts4.reverse ([], none)).2 with
      | some j =>
        Expr.simplify_identity srm op4
          ((levelPhase true op4 ts4.reverse ([], none)).1).reverse
          ((((levelPhase true op4 ts4.reverse ([], none)).1).reverse).length
            - 1 - j)
      | none =>
        if (((levelPhase true op4 ts4.reverse ([], none)).1).reverse).length
            = 1 then
          (Op.IDENT, ((levelPhase true op4 ts4.reverse ([], none)).1).reverse)
        else
          (op4, ((levelPhase true op4 ts4.reverse ([], none)).1).reverse)) :
    c1Amended (.mk (bringUpIdent st6).1 (bringUpIdent st6).2) = true := by
  have hrev : ∀ t ∈ ts4.reverse, TermOKS t :=
    fun t ht => hterm t (List.mem_reverse.mp ht)
  have hstart : LPInv op4 (([] : List ExprTerm), (none : Option Nat)) := by
    constructor
    · intro t ht
      exact absurd ht (List.not_mem_nil t)
    · intro j hj
      cases hj
  obtain ⟨lA, lB, lC, lD, lE⟩ :=
    levelPhase_spec op4 ts4.reverse [] none hassoc hrev hstart
  rw [show (if (none : Option Nat).isSome = true then (0:Nat) else 1) = 1
    from rfl] at lB
  rw [show countInts ([] : List ExprTerm) = 0 from rfl] at lB
  have hts5len : 1 ≤ ((levelPhase true op4 ts4.reverse ([], none)).1).length := by
    refine lE rfl ?_
    intro hc
    rw [List.reverse_eq_nil_iff] at hc
    rw [hc] at hlen
    simp at hlen
  have hts5mem : ∀ t ∈ ((levelPhase true op4 ts4.reverse ([], none)).1).reverse,
      TermOKS t ∧ ∀ c, t = ExprTerm.EXPR c → ¬(c.op = op4) := by
    intro t ht
    exact lA.1 t (List.mem_reverse.mp ht)
  have hts5cnt :
      countInts ((levelPhase true op4 ts4.reverse ([], none)).1).reverse ≤ 2 := by
    rw [countInts_reverse]
    rcases hcnt with h | ⟨hpure, h⟩
    · have h1 : countInts ts4.reverse ≤ 1 := by
        rw [countInts_reverse]
        exact h
      omega
    · have hp := levelPhase_pure op4 ts4.reverse [] none
        (fun c hc => hpure c (List.mem_reverse.mp hc))
      rw [hp]
      rw [List.nil_append, countInts_reverse]
      exact h
  rcases hlp : (levelPhase true op4 ts4.reverse ([], none)).2 with _ | j
  · -- no integer recorded
    rw [hlp] at hst6
    by_cases hl1 :
        (((levelPhase true op4 ts4.reverse ([], none)).1).reverse).length = 1
    · rw [if_pos hl1] at hst6
      subst hst6
      refine bringUp_final_c1 op4 _ hassoc hop1 hop2 hop3 (Or.inr rfl)
        ?_ hts5mem hts5cnt (by simpa using hts5len)
      dsimp only
      exact ⟨fun _ => rfl, fun _ => hl1⟩
    · rw [if_neg hl1] at hst6
      subst hst6
      refine bringUp_final_c1 op4 _ hassoc hop1 hop2 hop3 (Or.inl rfl)
        ?_ hts5mem hts5cnt (by simpa using hts5len)
      dsimp only
      constructor
      · intro h
        exact absurd h hl1
      · intro h
        exact absurd h hop1
  · -- integer recorded at reversed position j
    obtain ⟨w, hw⟩ := lA.2 j hlp
    have hjlt : j < ((levelPhase true op4 ts4.reverse ([], none)).1).length :=
      (List.get?_eq_some.mp hw).1
    have hv : (((levelPhase true op4 ts4.reverse ([], none)).1).reverse).get?
        ((((levelPhase true op4 ts4.reverse ([], none)).1).reverse).length
          - 1 - j) = some (ExprTerm.INT w) := by
      rw [List.length_reverse]
      rw [List.get?_reverse]
      · rw [show (levelPhase true op4 ts4.reverse ([], none)).1.length - 1 -
          ((levelPhase true op4 ts4.reverse ([], none)).1.length - 1 - j) = j
          from by omega]
        exact hw
      · omega
    obtain ⟨sM, sC, sL1, sL2, sO, sIff⟩ :=
      simplify_identity_spec srm op4
        ((levelPhase true op4 ts4.reverse ([], none)).1).reverse
        ((((levelPhase true op4 ts4.reverse ([], none)).1).reverse).length
          - 1 - j) w hv (fun h => absurd h hop1)
    rw [hlp] at hst6
    dsimp only at hst6
    subst hst6
    refine bringUp_final_c1 op4 _ hassoc hop1 hop2 hop3 sO sIff ?_ ?_ sL1
    · intro t ht
      rcases sM t ht with h | ⟨u, rfl⟩
      · exact hts5mem t h
      · exact ⟨TermOKS_INT u, fun c hc => by cases hc⟩
    · omega

/-- The do_level test fails on every term exactly when no sub-expression
term carries the node operator. -/
theorem sameOpExpr_false_iff (op : Op) (l : List ExprTerm) :
    l.any (sameOpExpr op) = false ↔
      ∀ c, ExprTerm.EXPR c ∈ l → ¬(c.op = op) := by
  rw [List.any_eq_false]
  constructor
  · intro h c hc
    have := h _ hc
    simpa [sameOpExpr] using this
  · intro h t ht
    cases t with
    | EXPR c => simpa [sameOpExpr] using h c ht
    | NONE => simp [sameOpExpr]
    | REG r => simp [sameOpExpr]
    | INT n => simp [sameOpExpr]
    | SUBST i => simp [sameOpExpr]
    | FLOAT f => simp [sameOpExpr]
    | SYM s => simp [sameOpExpr]
    | LOC lo => simp [sameOpExpr]

/-- An IDENT node wrapping one non-expression, non-tombstone leaf
satisfies the amended invariant. -/
theorem ident_leaf_node_c1 (t0 : ExprTerm) (hx : t0.isExpr = false)
    (hn : t0 ≠ ExprTerm.NONE) :
    c1Amended (.mk Op.IDENT [t0]) = true := by
  refine c1Amended_intro Op.IDENT [t0] ?_ ?_ ?_ ?_ (by simp) (by simp)
    (by simp) ?_ ?_
  · intro c hc
    rcases List.mem_singleton.mp hc with rfl
    simp [ExprTerm.isExpr] at hx
  · intro _
    refine ⟨rfl, ?_⟩
    simp [hx]
  · intro _
    constructor
    · have := countInts_le_length [t0]
      simp at this
      omega
    · intro _
      have := countInts_le_length [t0]
      simp at this
      omega
  · intro _
    exact Or.inl rfl
  · intro h
    simp at h
  · intro t ht
    rcases List.mem_singleton.mp ht with rfl
    exact hn

/-- A term passing is_type(EXPR) is an EXPR term. -/
theorem isExpr_exists (t : ExprTerm) (hx : t.isExpr = true) :
    ∃ c, t = ExprTerm.EXPR c := by
  cases t with
  | EXPR c => exact ⟨c, rfl⟩
  | NONE => simp [ExprTerm.isExpr] at hx
  | REG r => simp [ExprTerm.isExpr] at hx
  | INT n => simp [ExprTerm.isExpr] at hx
  | SUBST i => simp [ExprTerm.isExpr] at hx
  | FLOAT f => simp [ExprTerm.isExpr] at hx
  | SYM s => simp [ExprTerm.isExpr] at hx
  | LOC l => simp [ExprTerm.isExpr] at hx

/-- A one-element list is a singleton. -/
theorem length_one_exists (l : List ExprTerm) (h : l.length = 1) :
    ∃ t, l = [t] := by
  cases l with
  | nil => simp at h
  | cons x r =>
    cases r with
    | nil => exact ⟨x, rfl⟩
    | cons y m => simp at h

/-- The central invariant step of C1: one run of Expr::level_op with
fold_const and simplify_ident enabled, on a node whose operator survived
negation normalization and whose terms are recursively leveled (or the
SEG pre-pass IDENT wrapper), establishes the amended invariant. -/
theorem level_op_c1 (srm : Bool) (op : Op) (ts : List ExprTerm)
    (h1 : ¬op = Op.NEG) (h2 : ¬op = Op.SUB)
    (hts : ∀ t ∈ ts, TermOKL t)
    (hlen : 1 ≤ ts.length)
    (hu : ts.length = 1 → op.isUnary = true)
    (ha : 2 < ts.length → op.isAssociative = true)
    (hid : op = Op.IDENT → ts.length = 1) :
    c1Amended (Expr.level_op true true srm (.mk op ts)) = true := by
  have hts1 : ∀ t ∈ ts.map hoistIdent, TermOKS t := by
    intro t ht
    obtain ⟨x, hx, rfl⟩ := List.mem_map.mp ht
    exact hoistIdent_OKS x (hts x hx)
  have hlen1 : (ts.map hoistIdent).length = ts.length := List.length_map ts _
  simp only [Expr.level_op]
  by_cases hnn : op.isNonNum = true
  · -- non-numeric operator: no folding, no leveling phase
    rw [if_pos hnn]
    rw [if_neg (show ¬(false = true) from by simp)]
    dsimp only
    rw [bringUpIdent_ne op _ (nonNum_ne_ident op hnn)]
    dsimp only
    rw [nonNum_not_assoc op hnn]
    simp only [Bool.not_false, Bool.or_true]
    rw [if_pos trivial]
    refine c1Amended_intro op _ ?_
      (fun h => absurd h (nonNum_ne_ident op hnn))
      (fun h => absurd (h ▸ hnn) (by simp)) ?_ h1 h2 ?_ ?_ ?_
    · intro c hc
      obtain ⟨hS, hsub⟩ := hts1 _ hc
      refine ⟨(hsub c rfl).1, ?_, (hsub c rfl).2⟩
      rintro ⟨hfa, _⟩
      rw [nonNum_not_assoc op hnn] at hfa
      cases hfa
    · intro hl
      rw [hlen1] at hl
      rcases unary_classify op (hu hl) h1 with h | h | h | h
      · exact Or.inl h
      · exact Or.inr (Or.inl h)
      · exact Or.inr (Or.inr (Or.inl h))
      · exact Or.inr (Or.inr (Or.inr h))
    · rw [hlen1]
      exact hlen
    · intro hl
      rw [hlen1] at hl
      exact ha hl
    · intro t ht
      exact (hts1 t ht).1
  · -- numeric operator: fold_const active
    rw [if_neg hnn]
    rw [if_pos rfl]
    rw [Bool.not_eq_true] at hnn
    rcases hfp : (foldPass op (List.map hoistIdent ts)).2 with _ | p
    · -- no integer term at all
      dsimp only
      obtain ⟨hfp1, hfp0⟩ := foldPass_none_spec op _ hfp
      rw [hfp1]
      by_cases hoi : op = Op.IDENT
      · subst hoi
        have hts_len : ts.length = 1 := hid rfl
        obtain ⟨t1, ht1⟩ := length_one_exists (ts.map hoistIdent)
          (by rw [hlen1]; exact hts_len)
        rw [ht1]
        have hT1 : TermOKS t1 := by
          apply hts1
          rw [ht1]
          exact List.mem_cons_self _ _
        by_cases hx : t1.isExpr = true
        · obtain ⟨c, rfl⟩ := isExpr_exists t1 hx
          obtain ⟨cop, cts⟩ := c
          rw [bringUpIdent_expr]
          simp only [Expr.op_mk, Expr.terms_mk]
          obtain ⟨hcA, hcI⟩ := hT1.2 _ rfl
          have hdl : ([ExprTerm.EXPR (.mk cop cts)].any
              (sameOpExpr Op.IDENT)) = false := by
            rw [sameOpExpr_false_iff]
            intro c' hc'
            rcases List.mem_singleton.mp hc' with h
            injection h with h'
            rw [h']
            exact hcI
          rw [hdl]
          simp only [Bool.not_false, Bool.true_or]
          rw [if_pos trivial]
          exact hcA
        · rw [Bool.not_eq_true] at hx
          rw [bringUpIdent_nonexpr t1 [] hx]
          dsimp only
          rw [show Op.IDENT.isAssociative = false from rfl]
          simp only [Bool.not_false, Bool.or_true]
          rw [if_pos trivial]
          exact ident_leaf_node_c1 t1 hx hT1.1
      · rw [bringUpIdent_ne op _ hoi]
        dsimp only
        by_cases hC : ((!(List.map hoistIdent ts).any (sameOpExpr op) ||
            !op.isAssociative) = true)
        · rw [if_pos hC]
          refine c1Amended_intro op _ ?_ (fun h => absurd h hoi)
            (fun _ => ⟨by omega, fun _ => by omega⟩) ?_ h1 h2 ?_ ?_ ?_
          · intro c hc
            obtain ⟨hS, hsub⟩ := hts1 _ hc
            refine ⟨(hsub c rfl).1, ?_, (hsub c rfl).2⟩
            rintro ⟨hfa, hco⟩
            rcases Bool.eq_false_or_eq_true
              ((List.map hoistIdent ts).any (sameOpExpr op)) with hAny | hAny
            · rw [hAny, hfa] at hC
              simpa using hC
            · exact (sameOpExpr_false_iff op _).mp hAny c hc hco
          · intro hl
            rw [hlen1] at hl
            rcases unary_classify op (hu hl) h1 with h | h | h | h
            · exact Or.inl h
            · exact Or.inr (Or.inl h)
            · exact Or.inr (Or.inr (Or.inl h))
            · exact Or.inr (Or.inr (Or.inr h))
          · rw [hlen1]
            exact hlen
          · intro hl
            rw [hlen1] at hl
            exact ha hl
          · intro t ht
            exact (hts1 t ht).1
        · rw [if_neg hC]
          have hC' : op.isAssociative = true := by
            rcases Bool.eq_false_or_eq_true op.isAssociative with h | h
            · exact h
            · exfalso
              apply hC
              rw [h]
              simp
          exact levelPhase_assembly_c1 srm op (List.map hoistIdent ts) hC'
            hoi h1 h2 hts1 (by rw [hlen1]; exact hlen)
            (Or.inl (by omega)) _ rfl
    · -- an integer was folded at position p
      dsimp only
      rw [if_pos trivial]
      have hnone1 : ∀ t ∈ List.map hoistIdent ts, t ≠ ExprTerm.NONE :=
        fun t ht => (hts1 t ht).1
      obtain ⟨w, hplt, htake0, htsE⟩ := foldPass_some_spec op _ p hnone1 hfp
      rw [htsE]
      have hlentake : ((List.map hoistIdent ts).take p).length = p := by
        rw [List.length_take]
        omega
      have hmemE : ∀ t ∈ (List.map hoistIdent ts).take p ++
          ExprTerm.INT w ::
            ((List.map hoistIdent ts).drop (p + 1)).filter
              (fun t => !t.isInt),
          (t ∈ List.map hoistIdent ts ∨ ∃ u, t = ExprTerm.INT u) := by
        intro t ht
        rcases List.mem_append.mp ht with h | h
        · exact Or.inl (List.take_subset _ _ h)
        · rcases List.mem_cons.mp h with rfl | h
          · exact Or.inr ⟨w, rfl⟩
          · exact Or.inl (List.drop_subset _ _ (List.mem_of_mem_filter h))
      have hOKE : ∀ t ∈ (List.map hoistIdent ts).take p ++
          ExprTerm.INT w ::
            ((List.map hoistIdent ts).drop (p + 1)).filter
              (fun t => !t.isInt), TermOKS t := by
        intro t ht
        rcases hmemE t ht with h | ⟨u, rfl⟩
        · exact hts1 t h
        · exact TermOKS_INT u
      have hcntE : countInts ((List.map hoistIdent ts).take p ++
          ExprTerm.INT w ::
            ((List.map hoistIdent ts).drop (p + 1)).filter
              (fun t => !t.isInt)) = 1 := by
        rw [countInts_append, countInts_cons, countInts_filter_nonint,
          htake0]
        rfl
      have hlenE1 : 1 ≤ ((List.map hoistIdent ts).take p ++
          ExprTerm.INT w ::
            ((List.map hoistIdent ts).drop (p + 1)).filter
              (fun t => !t.isInt)).length := by
        rw [List.length_append, List.length_cons]
        omega
      have hlenE2 : ((List.map hoistIdent ts).take p ++
          ExprTerm.INT w ::
            ((List.map hoistIdent ts).drop (p + 1)).filter
              (fun t => !t.isInt)).length ≤ ts.length := by
        rw [List.length_append, List.length_cons]
        have hf : (((List.map hoistIdent ts).drop (p + 1)).filter
            (fun t => !t.isInt)).length ≤
            ((List.map hoistIdent ts).drop (p + 1)).length :=
          List.length_filter_le _ _
        rw [List.length_drop] at hf
        omega
      have hgetE : ((List.map hoistIdent ts).take p ++
          ExprTerm.INT w ::
            ((List.map hoistIdent ts).drop (p + 1)).filter
              (fun t => !t.isInt)).get? p = some (ExprTerm.INT w) := by
        rw [List.get?_append_right (by omega)]
        rw [hlentake]
        simp
      obtain ⟨sM, sC, sL1, sL2, sO, sIff⟩ :=
        simplify_identity_spec srm op _ p w hgetE
          (fun h => by
            have := hid h
            rw [← hlen1] at this
            omega)
      obtain ⟨o3, l3, ho3⟩ :
          ∃ o l, Expr.simplify_identity srm op
            ((List.map hoistIdent ts).take p ++
              ExprTerm.INT w ::
                ((List.map hoistIdent ts).drop (p + 1)).filter
                  (fun t => !t.isInt)) p = (o, l) := ⟨_, _, rfl⟩
      rw [ho3] at sM sC sL1 sL2 sO sIff ⊢
      dsimp only at sM sC sL1 sL2 sO sIff ⊢
      by_cases hoID : o3 = Op.IDENT
      · subst hoID
        obtain ⟨t0, rfl⟩ := length_one_exists l3 (sIff.mpr rfl)
        have hT0 : TermOKS t0 := by
          rcases sM t0 (List.mem_cons_self _ _) with h | ⟨u, rfl⟩
          · exact hOKE t0 h
          · exact TermOKS_INT u
        by_cases hx : t0.isExpr = true
        · obtain ⟨c, rfl⟩ := isExpr_exists t0 hx
          obtain ⟨cop, cts⟩ := c
          rw [bringUpIdent_expr]
          simp only [Expr.op_mk, Expr.terms_mk]
          obtain ⟨hcA, hcI⟩ := hT0.2 _ rfl
          have hcI' : ¬cop = Op.IDENT := by simpa using hcI
          have hcdes := c1Amended_destruct cop cts hcA
          by_cases hC : ((!(List.map hoistIdent ts).any (sameOpExpr op) ||
              !cop.isAssociative) = true)
          · rw [if_pos hC]
            exact hcA
          · rw [if_neg hC]
            have hCa : cop.isAssociative = true := by
              rcases Bool.eq_false_or_eq_true cop.isAssociative with h | h
              · exact h
              · exfalso
                apply hC
                rw [h]
                simp
            refine levelPhase_assembly_c1 srm cop cts hCa hcI'
              hcdes.2.2.2.2.1 hcdes.2.2.2.2.2.1 ?_
              hcdes.2.2.2.2.2.2.1 (Or.inr ⟨?_, ?_⟩) _ rfl
            · intro t ht
              refine ⟨hcdes.2.2.2.2.2.2.2.2 t ht, ?_⟩
              intro c' hc'
              exact ⟨(hcdes.1 c' (hc' ▸ ht)).1, (hcdes.1 c' (hc' ▸ ht)).2.2⟩
            · intro c' hc' hco
              exact (hcdes.1 c' hc').2.1 ⟨hCa, hco⟩
            · exact (hcdes.2.2.1 (assoc_not_nonNum _ hCa)).1
        · rw [Bool.not_eq_true] at hx
          rw [bringUpIdent_nonexpr t0 [] hx]
          dsimp only
          rw [show Op.IDENT.isAssociative = false from rfl]
          simp only [Bool.not_false, Bool.or_true]
          rw [if_pos trivial]
          exact ident_leaf_node_c1 t0 hx hT0.1
      · have ho3op : o3 = op := by
          rcases sO with h | h
          · exact h
          · exact absurd h hoID
        rw [ho3op] at sIff ⊢
        have hoi : ¬op = Op.IDENT := by
          intro h
          exact hoID (by rw [ho3op, h])
        rw [bringUpIdent_ne op l3 hoi]
        dsimp only
        by_cases hC : ((!(List.map hoistIdent ts).any (sameOpExpr op) ||
            !op.isAssociative) = true)
        · rw [if_pos hC]
          refine c1Amended_intro op l3 ?_ (fun h => absurd h hoi)
            (fun _ => ⟨by omega, fun _ => by omega⟩) ?_ h1 h2 (by omega)
            ?_ ?_
          · intro c hc
            have hTc : TermOKS (ExprTerm.EXPR c) := by
              rcases sM _ hc with h | ⟨u, hu⟩
              · exact hOKE _ h
              · cases hu
            refine ⟨(hTc.2 c rfl).1, ?_, (hTc.2 c rfl).2⟩
            rintro ⟨hfa, hco⟩
            rcases Bool.eq_false_or_eq_true
              ((List.map hoistIdent ts).any (sameOpExpr op)) with hAny | hAny
            · rw [hAny, hfa] at hC
              simpa using hC
            · rcases sM _ hc with hmem | ⟨u, hu⟩
              · rcases hmemE _ hmem with h1m | ⟨u, hu⟩
                · exact (sameOpExpr_false_iff op _).mp hAny c h1m hco
                · cases hu
              · cases hu
          · intro hl
            exact absurd (sIff.mp hl) hoi
          · intro hl
            have := hlen1
            exact ha (by omega)
          · intro t ht
            rcases sM t ht with h | ⟨u, rfl⟩
            · exact (hOKE t h).1
            · simp
        · rw [if_neg hC]
          have hC' : op.isAssociative = true := by
            rcases Bool.eq_false_or_eq_true op.isAssociative with h | h
            · exact h
            · exfalso
              apply hC
              rw [h]
              simp
          refine levelPhase_assembly_c1 srm op l3 hC' hoi h1 h2 ?_ sL1
            (Or.inl (by omega)) _ rfl
          intro t ht
          rcases sM t ht with h | ⟨u, rfl⟩
          · exact hOKE t h
          · exact TermOKS_INT u

/-- The term-list side of well-formedness, as a membership statement. -/
theorem WFbTerms_iff (ts : List ExprTerm) :
    WFbTerms ts = true ↔
      ∀ t ∈ ts, t ≠ ExprTerm.NONE ∧
        ∀ c, t = ExprTerm.EXPR c → c.WFb = true := by
  induction ts with
  | nil => simp [WFbTerms]
  | cons t rest ih =>
    cases t with
    | EXPR c =>
      simp only [WFbTerms, Bool.and_eq_true, ih, List.mem_cons]
      constructor
      · rintro ⟨hc, hr⟩ t' ht'
        rcases ht' with rfl | h
        · exact ⟨by simp, fun c' hc' => by injection hc' with h'; rw [← h']; exact hc⟩
        · exact hr t' h
      · intro h
        refine ⟨(h _ (Or.inl rfl)).2 c rfl, fun t' ht' => h t' (Or.inr ht')⟩
    | NONE =>
      simp only [WFbTerms, List.mem_cons]
      constructor
      · intro h
        cases h
      · intro h
        exact absurd rfl (h _ (Or.inl rfl)).1
    | REG r =>
      simp only [WFbTerms, ih, List.mem_cons]
      constructor
      · rintro hr t' (rfl | h)
        · exact ⟨by simp, fun c' hc' => by cases hc'⟩
        · exact hr t' h
      · intro h t' ht'
        exact h t' (Or.inr ht')
    | INT n =>
      simp only [WFbTerms, ih, List.mem_cons]
      constructor
      · rintro hr t' (rfl | h)
        · exact ⟨by simp, fun c' hc' => by cases hc'⟩
        · exact hr t' h
      · intro h t' ht'
        exact h t' (Or.inr ht')
    | SUBST i =>
      simp only [WFbTerms, ih, List.mem_cons]
      constructor
      · rintro hr t' (rfl | h)
        · exact ⟨by simp, fun c' hc' => by cases hc'⟩
        · exact hr t' h
      · intro h t' ht'
        exact h t' (Or.inr ht')
    | FLOAT f =>
      simp only [WFbTerms, ih, List.mem_cons]
      constructor
      · rintro hr t' (rfl | h)
        · exact ⟨by simp, fun c' hc' => by cases hc'⟩
        · exact hr t' h
      · intro h t' ht'
        exact h t' (Or.inr ht')
    | SYM s =>
      simp only [WFbTerms, ih, List.mem_cons]
      constructor
      · rintro hr t' (rfl | h)
        · exact ⟨by simp, fun c' hc' => by cases hc'⟩
        · exact hr t' h
      · intro h t' ht'
        exact h t' (Or.inr ht')
    | LOC l =>
      simp only [WFbTerms, ih, List.mem_cons]
      constructor
      · rintro hr t' (rfl | h)
        · exact ⟨by simp, fun c' hc' => by cases hc'⟩
        · exact hr t' h
      · intro h t' ht'
        exact h t' (Or.inr ht')

/-- Well-formedness at one node, as propositional facts. -/
theorem WFb_iff (op : Op) (ts : List ExprTerm) :
    (Expr.mk op ts).WFb = true ↔
      1 ≤ ts.length ∧ (ts.length = 1 → op.isUnary = true) ∧
      (op.isUnary = true → ts.length = 1) ∧
      (2 < ts.length → op.isAssociative = true) ∧
      WFbTerms ts = true := by
  rw [Expr.WFb]
  simp only [Bool.and_eq_true, decide_eq_true_eq]
  tauto

/-- The -1*t wrapper built for negation is well-formed around a
well-formed non-tombstone term. -/
theorem WFb_negterm_wrap (t : ExprTerm) (hne : t ≠ ExprTerm.NONE)
    (hwf : ∀ c, t = ExprTerm.EXPR c → c.WFb = true) :
    (Expr.mk Op.MUL [ExprTerm.INT (-1), t]).WFb = true := by
  rw [WFb_iff]
  refine ⟨by simp, fun hh => by simp at hh,
    fun hh => by simp [Op.isUnary] at hh, fun hh => by simp at hh, ?_⟩
  rw [WFbTerms_iff]
  intro x hx
  rcases List.mem_cons.mp hx with rfl | hx
  · exact ⟨by simp, fun c hc => by cases hc⟩
  · rcases List.mem_singleton.mp hx with rfl
    exact ⟨hne, hwf⟩

mutual

/-- xform_neg_helper preserves well-formedness. -/
theorem WFb_xform_neg_helper : (e : Expr) → e.WFb = true →
    (Expr.xform_neg_helper e).WFb = true
  | .mk .ADD ts, h => by
    obtain ⟨hl, hu1, hu2, hass, hts⟩ := (WFb_iff _ _).mp h
    obtain ⟨hd, hdl⟩ := WFb_xformNegDistribute ts hts
    rw [show Expr.xform_neg_helper (.mk .ADD ts) =
      .mk .ADD (xformNegDistribute ts) from rfl]
    rw [WFb_iff, hdl]
    exact ⟨hl, hu1, fun hh => by simp [Op.isUnary] at hh, hass, hd⟩
  | .mk .SUB [], h => by
    obtain ⟨hl, _⟩ := (WFb_iff _ _).mp h
    simp at hl
  | .mk .SUB (.EXPR sube :: rest), h => by
    obtain ⟨hl, hu1, hu2, hass, hts⟩ := (WFb_iff _ _).mp h
    have htm := (WFbTerms_iff _).mp hts
    have hsub := (htm _ (List.mem_cons_self _ _)).2 sube rfl
    rw [show Expr.xform_neg_helper (.mk .SUB (.EXPR sube :: rest)) =
      .mk .ADD (.EXPR sube.xform_neg_helper :: rest) from rfl]
    rw [WFb_iff]
    refine ⟨by simpa using hl, ?_, fun hh => by simp [Op.isUnary] at hh,
      ?_, ?_⟩
    · intro hh
      exact absurd (hu1 (by simpa using hh)) (by simp [Op.isUnary])
    · intro hh
      exact absurd (hass (by simpa using hh)) (by simp [Op.isAssociative])
    · rw [WFbTerms_iff]
      intro t ht
      rcases List.mem_cons.mp ht with rfl | ht
      · refine ⟨by simp, fun c hc => ?_⟩
        injection hc with hcc
        rw [← hcc]
        exact WFb_xform_neg_helper sube hsub
      · exact htm t (List.mem_cons_of_mem _ ht)
  | .mk .SUB (.NONE :: rest), h => by
    obtain ⟨_, _, _, _, hts⟩ := (WFb_iff _ _).mp h
    have := ((WFbTerms_iff _).mp hts _ (List.mem_cons_self _ _)).1
    exact absurd rfl this
  | .mk .SUB (.REG r :: rest), h => by
    obtain ⟨hl, hu1, hu2, hass, hts⟩ := (WFb_iff _ _).mp h
    have htm := (WFbTerms_iff _).mp hts
    rw [show Expr.xform_neg_helper (.mk .SUB (.REG r :: rest)) =
      .mk .ADD (xform_neg_term (.REG r) :: rest) from rfl]
    rw [WFb_iff]
    refine ⟨by simpa using hl, ?_, fun hh => by simp [Op.isUnary] at hh,
      ?_, ?_⟩
    · intro hh
      exact absurd (hu1 (by simpa using hh)) (by simp [Op.isUnary])
    · intro hh
      exact absurd (hass (by simpa using hh)) (by simp [Op.isAssociative])
    · rw [WFbTerms_iff]
      intro t ht
      rcases List.mem_cons.mp ht with rfl | ht
      · refine ⟨by simp [xform_neg_term], fun c hc => ?_⟩
        rw [xform_neg_term] at hc
        injection hc with hcc
        rw [← hcc]
        exact WFb_negterm_wrap _ (by simp) (fun c' hc' => by cases hc')
      · exact htm t (List.mem_cons_of_mem _ ht)
  | .mk .SUB (.INT n :: rest), h => by
    obtain ⟨hl, hu1, hu2, hass, hts⟩ := (WFb_iff _ _).mp h
    have htm := (WFbTerms_iff _).mp hts
    rw [show Expr.xform_neg_helper (.mk .SUB (.INT n :: rest)) =
      .mk .ADD (xform_neg_term (.INT n) :: rest) from rfl]
    rw [WFb_iff]
    refine ⟨by simpa using hl, ?_, fun hh => by simp [Op.isUnary] at hh,
      ?_, ?_⟩
    · intro hh
      exact absurd (hu1 (by simpa using hh)) (by simp [Op.isUnary])
    · intro hh
      exact absurd (hass (by simpa using hh)) (by simp [Op.isAssociative])
    · rw [WFbTerms_iff]
      intro t ht
      rcases List.mem_cons.mp ht with rfl | ht
      · refine ⟨by simp [xform_neg_term], fun c hc => ?_⟩
        rw [xform_neg_term] at hc
        injection hc with hcc
        rw [← hcc]
        exact WFb_negterm_wrap _ (by simp) (fun c' hc' => by cases hc')
      · exact htm t (List.mem_cons_of_mem _ ht)
  | .mk .SUB (.SUBST i :: rest), h => by
    obtain ⟨hl, hu1, hu2, hass, hts⟩ := (WFb_iff _ _).mp h
    have htm := (WFbTerms_iff _).mp hts
    rw [show Expr.xform_neg_helper (.mk .SUB (.SUBST i :: rest)) =
      .mk .ADD (xform_neg_term (.SUBST i) :: rest) from rfl]
    rw [WFb_iff]
    refine ⟨by simpa using hl, ?_, fun hh => by simp [Op.isUnary] at hh,
      ?_, ?_⟩
    · intro hh
      exact absurd (hu1 (by simpa using hh)) (by simp [Op.isUnary])
    · intro hh
      exact absurd (hass (by simpa using hh)) (by simp [Op.isAssociative])
    · rw [WFbTerms_iff]
      intro t ht
      rcases List.mem_cons.mp ht with rfl | ht
      · refine ⟨by simp [xform_neg_term], fun c hc => ?_⟩
        rw [xform_neg_term] at hc
        injection hc with hcc
        rw [← hcc]
        exact WFb_negterm_wrap _ (by simp) (fun c' hc' => by cases hc')
      · exact htm t (List.mem_cons_of_mem _ ht)
  | .mk .SUB (.FLOAT f :: rest), h => by
    obtain ⟨hl, hu1, hu2, hass, hts⟩ := (WFb_iff _ _).mp h
    have htm := (WFbTerms_iff _).mp hts
    rw [show Expr.xform_neg_helper (.mk .SUB (.FLOAT f :: rest)) =
      .mk .ADD (xform_neg_term (.FLOAT f) :: rest) from rfl]
    rw [WFb_iff]
    refine ⟨by simpa using hl, ?_, fun hh => by simp [Op.isUnary] at hh,
      ?_, ?_⟩
    · intro hh
      exact absurd (hu1 (by simpa using hh)) (by simp [Op.isUnary])
    · intro hh
      exact absurd (hass (by simpa using hh)) (by simp [Op.isAssociative])
    · rw [WFbTerms_iff]
      intro t ht
      rcases List.mem_cons.mp ht with rfl | ht
      · refine ⟨by simp [xform_neg_term], fun c hc => ?_⟩
        rw [xform_neg_term] at hc
        injection hc with hcc
        rw [← hcc]
        exact WFb_negterm_wrap _ (by simp) (fun c' hc' => by cases hc')
      · exact htm t (List.mem_cons_of_mem _ ht)
  | .mk .SUB (.SYM s :: rest), h => by
    obtain ⟨hl, hu1, hu2, hass, hts⟩ := (WFb_iff _ _).mp h
    have htm := (WFbTerms_iff _).mp hts
    rw [show Expr.xform_neg_helper (.mk .SUB (.SYM s :: rest)) =
      .mk .ADD (xform_neg_term (.SYM s) :: rest) from rfl]
    rw [WFb_iff]
    refine ⟨by simpa using hl, ?_, fun hh => by simp [Op.isUnary] at hh,
      ?_, ?_⟩
    · intro hh
      exact absurd (hu1 (by simpa using hh)) (by simp [Op.isUnary])
    · intro hh
      exact absurd (hass (by simpa using hh)) (by simp [Op.isAssociative])
    · rw [WFbTerms_iff]
      intro t ht
      rcases List.mem_cons.mp ht with rfl | ht
      · refine ⟨by simp [xform_neg_term], fun c hc => ?_⟩
        rw [xform_neg_term] at hc
        injection hc with hcc
        rw [← hcc]
        exact WFb_negterm_wrap _ (by simp) (fun c' hc' => by cases hc')
      · exact htm t (List.mem_cons_of_mem _ ht)
  | .mk .SUB (.LOC l :: rest), h => by
    obtain ⟨hl, hu1, hu2, hass, hts⟩ := (WFb_iff _ _).mp h
    have htm := (WFbTerms_iff _).mp hts
    rw [show Expr.xform_neg_helper (.mk .SUB (.LOC l :: rest)) =
      .mk .ADD (xform_neg_term (.LOC l) :: rest) from rfl]
    rw [WFb_iff]
    refine ⟨by simpa using hl, ?_, fun hh => by simp [Op.isUnary] at hh,
      ?_, ?_⟩
    · intro hh
      exact absurd (hu1 (by simpa using hh)) (by simp [Op.isUnary])
    · intro hh
      exact absurd (hass (by simpa using hh)) (by simp [Op.isAssociative])
    · rw [WFbTerms_iff]
      intro t ht
      rcases List.mem_cons.mp ht with rfl | ht
      · refine ⟨by simp [xform_neg_term], fun c hc => ?_⟩
        rw [xform_neg_term] at hc
        injection hc with hcc
        rw [← hcc]
        exact WFb_negterm_wrap _ (by simp) (fun c' hc' => by cases hc')
      · exact htm t (List.mem_cons_of_mem _ ht)
  | .mk .NEG ts, h => by
    obtain ⟨hl, hu1, hu2, hass, hts⟩ := (WFb_iff _ _).mp h
    have hl1 : ts.length = 1 := hu2 rfl
    rw [show Expr.xform_neg_helper (.mk .NEG ts) = .mk .IDENT ts from rfl]
    rw [WFb_iff]
    exact ⟨hl, fun _ => rfl, fun _ => hl1, fun hh => by omega, hts⟩
  | .mk .IDENT [], h => by
    obtain ⟨hl, _⟩ := (WFb_iff _ _).mp h
    simp at hl
  | .mk .IDENT (.FLOAT f :: rest), h => by
    obtain ⟨hl, hu1, hu2, hass, hts⟩ := (WFb_iff _ _).mp h
    have htm := (WFbTerms_iff _).mp hts
    rw [show Expr.xform_neg_helper (.mk .IDENT (.FLOAT f :: rest)) =
      .mk .IDENT (.FLOAT f.calcNeg :: rest) from rfl]
    rw [WFb_iff]
    refine ⟨by simpa using hl, fun _ => rfl, ?_, ?_, ?_⟩
    · intro _
      simpa using hu2 rfl
    · intro hh
      exact absurd (hass (by simpa using hh)) (by simp [Op.isAssociative])
    · rw [WFbTerms_iff]
      intro t ht
      rcases List.mem_cons.mp ht with rfl | ht
      · exact ⟨by simp, fun c hc => by cases hc⟩
      · exact htm t (List.mem_cons_of_mem _ ht)
  | .mk .IDENT (.INT n :: rest), h => by
    obtain ⟨hl, hu1, hu2, hass, hts⟩ := (WFb_iff _ _).mp h
    have htm := (WFbTerms_iff _).mp hts
    rw [show Expr.xform_neg_helper (.mk .IDENT (.INT n :: rest)) =
      .mk .IDENT (.INT (IntNum.calcUnary .NEG n) :: rest) from rfl]
    rw [WFb_iff]
    refine ⟨by simpa using hl, fun _ => rfl, ?_, ?_, ?_⟩
    · intro _
      simpa using hu2 rfl
    · intro hh
      exact absurd (hass (by simpa using hh)) (by simp [Op.isAssociative])
    · rw [WFbTerms_iff]
      intro t ht
      rcases List.mem_cons.mp ht with rfl | ht
      · exact ⟨by simp, fun c hc => by cases hc⟩
      · exact htm t (List.mem_cons_of_mem _ ht)
  | .mk .IDENT (.EXPR e1 :: rest), h => by
    obtain ⟨hl, hu1, hu2, hass, hts⟩ := (WFb_iff _ _).mp h
    have htm := (WFbTerms_iff _).mp hts
    have hsub := (htm _ (List.mem_cons_self _ _)).2 e1 rfl
    have hr0 : rest = [] := by
      have h5 := hu2 rfl
      rw [List.length_cons] at h5
      have : rest.length = 0 := by omega
      exact List.length_eq_zero.mp this
    subst hr0
    by_cases hf : e1.contains .FLOAT = true
    · rw [show Expr.xform_neg_helper (.mk .IDENT [.EXPR e1]) =
        if e1.contains .FLOAT then .mk .IDENT [.EXPR e1.xform_neg_helper]
        else .mk .MUL ([ExprTerm.EXPR e1] ++ [.INT (-1)]) from rfl]
      rw [if_pos hf]
      rw [WFb_iff]
      refine ⟨by simp, fun _ => rfl, fun _ => by simp, fun hh => by simp at hh, ?_⟩
      rw [WFbTerms_iff]
      intro t ht
      rcases List.mem_singleton.mp ht with rfl
      refine ⟨by simp, fun c hc => ?_⟩
      injection hc with hcc
      rw [← hcc]
      exact WFb_xform_neg_helper e1 hsub
    · rw [show Expr.xform_neg_helper (.mk .IDENT [.EXPR e1]) =
        if e1.contains .FLOAT then .mk .IDENT [.EXPR e1.xform_neg_helper]
        else .mk .MUL ([ExprTerm.EXPR e1] ++ [.INT (-1)]) from rfl]
      rw [if_neg hf]
      rw [WFb_iff]
      refine ⟨by simp, fun hh => by simp at hh,
        fun hh => by simp [Op.isUnary] at hh,
        fun hh => by simp at hh, ?_⟩
      rw [WFbTerms_iff]
      intro t ht
      rcases List.mem_cons.mp ht with rfl | ht
      · exact ⟨by simp, fun c hc => by injection hc with hcc; rw [← hcc]; exact hsub⟩
      · rcases List.mem_singleton.mp ht with rfl
        exact ⟨by simp, fun c hc => by cases hc⟩
  | .mk .IDENT (.NONE :: rest), h => by
    obtain ⟨_, _, _, _, hts⟩ := (WFb_iff _ _).mp h
    have := ((WFbTerms_iff _).mp hts _ (List.mem_cons_self _ _)).1
    exact absurd rfl this
  | .mk .IDENT (.REG r :: rest), h => by
    obtain ⟨hl, hu1, hu2, hass, hts⟩ := (WFb_iff _ _).mp h
    have htm := (WFbTerms_iff _).mp hts
    have hr0 : rest = [] := by
      have h5 := hu2 rfl
      rw [List.length_cons] at h5
      have : rest.length = 0 := by omega
      exact List.length_eq_zero.mp this
    subst hr0
    rw [show Expr.xform_neg_helper (.mk .IDENT [.REG r]) =
      .mk .MUL ([.REG r] ++ [ExprTerm.INT (-1)]) from rfl]
    rw [WFb_iff]
    refine ⟨by simp, fun hh => by simp at hh,
      fun hh => by simp [Op.isUnary] at hh,
      fun hh => by simp at hh, ?_⟩
    rw [WFbTerms_iff]
    intro t ht
    rcases List.mem_cons.mp ht with rfl | ht
    · exact ⟨by simp, fun c hc => by cases hc⟩
    · rcases List.mem_singleton.mp ht with rfl
      exact ⟨by simp, fun c hc => by cases hc⟩
  | .mk .IDENT (.SUBST i :: rest), h => by
    obtain ⟨hl, hu1, hu2, hass, hts⟩ := (WFb_iff _ _).mp h
    have htm := (WFbTerms_iff _).mp hts
    have hr0 : rest = [] := by
      have h5 := hu2 rfl
      rw [List.length_cons] at h5
      have : rest.length = 0 := by omega
      exact List.length_eq_zero.mp this
    subst hr0
    rw [show Expr.xform_neg_helper (.mk .IDENT [.SUBST i]) =
      .mk .MUL ([.SUBST i] ++ [ExprTerm.INT (-1)]) from rfl]
    rw [WFb_iff]
    refine ⟨by simp, fun hh => by simp at hh,
      fun hh => by simp [Op.isUnary] at hh,
      fun hh => by simp at hh, ?_⟩
    rw [WFbTerms_iff]
    intro t ht
    rcases List.mem_cons.mp ht with rfl | ht
    · exact ⟨by simp, fun c hc => by cases hc⟩
    · rcases List.mem_singleton.mp ht with rfl
      exact ⟨by simp, fun c hc => by cases hc⟩
  | .mk .IDENT (.SYM s :: rest), h => by
    obtain ⟨hl, hu1, hu2, hass, hts⟩ := (WFb_iff _ _).mp h
    have htm := (WFbTerms_iff _).mp hts
    have hr0 : rest = [] := by
      have h5 := hu2 rfl
      rw [List.length_cons] at h5
      have : rest.length = 0 := by omega
      exact List.length_eq_zero.mp this
    subst hr0
    rw [show Expr.xform_neg_helper (.mk .IDENT [.SYM s]) =
      .mk .MUL ([.SYM s] ++ [ExprTerm.INT (-1)]) from rfl]
    rw [WFb_iff]
    refine ⟨by simp, fun hh => by simp at hh,
      fun hh => by simp [Op.isUnary] at hh,
      fun hh => by simp at hh, ?_⟩
    rw [WFbTerms_iff]
    intro t ht
    rcases List.mem_cons.mp ht with rfl | ht
    · exact ⟨by simp, fun c hc => by cases hc⟩
    · rcases List.mem_singleton.mp ht with rfl
      exact ⟨by simp, fun c hc => by cases hc⟩
  | .mk .IDENT (.LOC l :: rest), h => by
    obtain ⟨hl, hu1, hu2, hass, hts⟩ := (WFb_iff _ _).mp h
    have htm := (WFbTerms_iff _).mp hts
    have hr0 : rest = [] := by
      have h5 := hu2 rfl
      rw [List.length_cons] at h5
      have : rest.length = 0 := by omega
      exact List.length_eq_zero.mp this
    subst hr0
    rw [show Expr.xform_neg_helper (.mk .IDENT [.LOC l]) =
      .mk .MUL ([.LOC l] ++ [ExprTerm.INT (-1)]) from rfl]
    rw [WFb_iff]
    refine ⟨by simp, fun hh => by simp at hh,
      fun hh => by simp [Op.isUnary] at hh,
      fun hh => by simp at hh, ?_⟩
    rw [WFbTerms_iff]
    intro t ht
    rcases List.mem_cons.mp ht with rfl | ht
    · exact ⟨by simp, fun c hc => by cases hc⟩
    · rcases List.mem_singleton.mp ht with rfl
      exact ⟨by simp, fun c hc => by cases hc⟩
  | .mk .MUL ts, h => by
    rw [show Expr.xform_neg_helper (.mk .MUL ts) =
      .mk .MUL [.INT (-1), .EXPR (.mk .MUL ts)] from rfl]
    exact WFb_negterm_wrap _ (by simp)
      (fun c hc => by injection hc with hcc; rw [← hcc]; exact h)
  | .mk .DIV ts, h => by
    rw [show Expr.xform_neg_helper (.mk .DIV ts) =
      .mk .MUL [.INT (-1), .EXPR (.mk .DIV ts)] from rfl]
    exact WFb_negterm_wrap _ (by simp)
      (fun c hc => by injection hc with hcc; rw [← hcc]; exact h)
  | .mk .SIGNDIV ts, h => by
    rw [show Expr.xform_neg_helper (.mk .SIGNDIV ts) =
      .mk .MUL [.INT (-1), .EXPR (.mk .SIGNDIV ts)] from rfl]
    exact WFb_negterm_wrap _ (by simp)
      (fun c hc => by injection hc with hcc; rw [← hcc]; exact h)
  | .mk .MOD ts, h => by
    rw [show Expr.xform_neg_helper (.mk .MOD ts) =
      .mk .MUL [.INT (-1), .EXPR (.mk .MOD ts)] from rfl]
    exact WFb_negterm_wrap _ (by simp)
      (fun c hc => by injection hc with hcc; rw [← hcc]; exact h)
  | .mk .SIGNMOD ts, h => by
    rw [show Expr.xform_neg_helper (.mk .SIGNMOD ts) =
      .mk .MUL [.INT (-1), .EXPR (.mk .SIGNMOD ts)] from rfl]
    exact WFb_negterm_wrap _ (by simp)
      (fun c hc => by injection hc with hcc; rw [← hcc]; exact h)
  | .mk .NOT ts, h => by
    rw [show Expr.xform_neg_helper (.mk .NOT ts) =
      .mk .MUL [.INT (-1), .EXPR (.mk .NOT ts)] from rfl]
    exact WFb_negterm_wrap _ (by simp)
      (fun c hc => by injection hc with hcc; rw [← hcc]; exact h)
  | .mk .OR ts, h => by
    rw [show Expr.xform_neg_helper (.mk .OR ts) =
      .mk .MUL [.INT (-1), .EXPR (.mk .OR ts)] from rfl]
    exact WFb_negterm_wrap _ (by simp)
      (fun c hc => by injection hc with hcc; rw [← hcc]; exact h)
  | .mk .AND ts, h => by
    rw [show Expr.xform_neg_helper (.mk .AND ts) =
      .mk .MUL [.INT (-1), .EXPR (.mk .AND ts)] from rfl]
    exact WFb_negterm_wrap _ (by simp)
      (fun c hc => by injection hc with hcc; rw [← hcc]; exact h)
  | .mk .XOR ts, h => by
    rw [show Expr.xform_neg_helper (.mk .XOR ts) =
      .mk .MUL [.INT (-1), .EXPR (.mk .XOR ts)] from rfl]
    exact WFb_negterm_wrap _ (by simp)
      (fun c hc => by injection hc with hcc; rw [← hcc]; exact h)
  | .mk .XNOR ts, h => by
    rw [show Expr.xform_neg_helper (.mk .XNOR ts) =
      .mk .MUL [.INT (-1), .EXPR (.mk .XNOR ts)] from rfl]
    exact WFb_negterm_wrap _ (by simp)
      (fun c hc => by injection hc with hcc; rw [← hcc]; exact h)
  | .mk .NOR ts, h => by
    rw [show Expr.xform_neg_helper (.mk .NOR ts) =
      .mk .MUL [.INT (-1), .EXPR (.mk .NOR ts)] from rfl]
    exact WFb_negterm_wrap _ (by simp)
      (fun c hc => by injection hc with hcc; rw [← hcc]; exact h)
  | .mk .SHL ts, h => by
    rw [show Expr.xform_neg_helper (.mk .SHL ts) =
      .mk .MUL [.INT (-1), .EXPR (.mk .SHL ts)] from rfl]
    exact WFb_negterm_wrap _ (by simp)
      (fun c hc => by injection hc with hcc; rw [← hcc]; exact h)
  | .mk .SHR ts, h => by
    rw [show Expr.xform_neg_helper (.mk .SHR ts) =
      .mk .MUL [.INT (-1), .EXPR (.mk .SHR ts)] from rfl]
    exact WFb_negterm_wrap _ (by simp)
      (fun c hc => by injection hc with hcc; rw [← hcc]; exact h)
  | .mk .LOR ts, h => by
    rw [show Expr.xform_neg_helper (.mk .LOR ts) =
      .mk .MUL [.INT (-1), .EXPR (.mk .LOR ts)] from rfl]
    exact WFb_negterm_wrap _ (by simp)
      (fun c hc => by injection hc with hcc; rw [← hcc]; exact h)
  | .mk .LAND ts, h => by
    rw [show Expr.xform_neg_helper (.mk .LAND ts) =
      .mk .MUL [.INT (-1), .EXPR (.mk .LAND ts)] from rfl]
    exact WFb_negterm_wrap _ (by simp)
      (fun c hc => by injection hc with hcc; rw [← hcc]; exact h)
  | .mk .LNOT ts, h => by
    rw [show Expr.xform_neg_helper (.mk .LNOT ts) =
      .mk .MUL [.INT (-1), .EXPR (.mk .LNOT ts)] from rfl]
    exact WFb_negterm_wrap _ (by simp)
      (fun c hc => by injection hc with hcc; rw [← hcc]; exact h)
  | .mk .LXOR ts, h => by
    rw [show Expr.xform_neg_helper (.mk .LXOR ts) =
      .mk .MUL [.INT (-1), .EXPR (.mk .LXOR ts)] from rfl]
    exact WFb_negterm_wrap _ (by simp)
      (fun c hc => by injection hc with hcc; rw [← hcc]; exact h)
  | .mk .LXNOR ts, h => by
    rw [show Expr.xform_neg_helper (.mk .LXNOR ts) =
      .mk .MUL [.INT (-1), .EXPR (.mk .LXNOR ts)] from rfl]
    exact WFb_negterm_wrap _ (by simp)
      (fun c hc => by injection hc with hcc; rw [← hcc]; exact h)
  | .mk .LNOR ts, h => by
    rw [show Expr.xform_neg_helper (.mk .LNOR ts) =
      .mk .MUL [.INT (-1), .EXPR (.mk .LNOR ts)] from rfl]
    exact WFb_negterm_wrap _ (by simp)
      (fun c hc => by injection hc with hcc; rw [← hcc]; exact h)
  | .mk .LT ts, h => by
    rw [show Expr.xform_neg_helper (.mk .LT ts) =
      .mk .MUL [.INT (-1), .EXPR (.mk .LT ts)] from rfl]
    exact WFb_negterm_wrap _ (by simp)
      (fun c hc => by injection hc with hcc; rw [← hcc]; exact h)
  | .mk .GT ts, h => by
    rw [show Expr.xform_neg_helper (.mk .GT ts) =
      .mk .MUL [.INT (-1), .EXPR (.mk .GT ts)] from rfl]
    exact WFb_negterm_wrap _ (by simp)
      (fun c hc => by injection hc with hcc; rw [← hcc]; exact h)
  | .mk .LE ts, h => by
    rw [show Expr.xform_neg_helper (.mk .LE ts) =
      .mk .MUL [.INT (-1), .EXPR (.mk .LE ts)] from rfl]
    exact WFb_negterm_wrap _ (by simp)
      (fun c hc => by injection hc with hcc; rw [← hcc]; exact h)
  | .mk .GE ts, h => by
    rw [show Expr.xform_neg_helper (.mk .GE ts) =
      .mk .MUL [.INT (-1), .EXPR (.mk .GE ts)] from rfl]
    exact WFb_negterm_wrap _ (by simp)
      (fun c hc => by injection hc with hcc; rw [← hcc]; exact h)
  | .mk .NE ts, h => by
    rw [show Expr.xform_neg_helper (.mk .NE ts) =
      .mk .MUL [.INT (-1), .EXPR (.mk .NE ts)] from rfl]
    exact WFb_negterm_wrap _ (by simp)
      (fun c hc => by injection hc with hcc; rw [← hcc]; exact h)
  | .mk .EQ ts, h => by
    rw [show Expr.xform_neg_helper (.mk .EQ ts) =
      .mk .MUL [.INT (-1), .EXPR (.mk .EQ ts)] from rfl]
    exact WFb_negterm_wrap _ (by simp)
      (fun c hc => by injection hc with hcc; rw [← hcc]; exact h)
  | .mk .SEG ts, h => by
    rw [show Expr.xform_neg_helper (.mk .SEG ts) =
      .mk .MUL [.INT (-1), .EXPR (.mk .SEG ts)] from rfl]
    exact WFb_negterm_wrap _ (by simp)
      (fun c hc => by injection hc with hcc; rw [← hcc]; exact h)
  | .mk .WRT ts, h => by
    rw [show Expr.xform_neg_helper (.mk .WRT ts) =
      .mk .MUL [.INT (-1), .EXPR (.mk .WRT ts)] from rfl]
    exact WFb_negterm_wrap _ (by simp)
      (fun c hc => by injection hc with hcc; rw [← hcc]; exact h)
  | .mk .SEGOFF ts, h => by
    rw [show Expr.xform_neg_helper (.mk .SEGOFF ts) =
      .mk .MUL [.INT (-1), .EXPR (.mk .SEGOFF ts)] from rfl]
    exact WFb_negterm_wrap _ (by simp)
      (fun c hc => by injection hc with hcc; rw [← hcc]; exact h)

/-- The negation distribution worker preserves well-formedness and the
number of terms. -/
theorem WFb_xformNegDistribute : (ts : List ExprTerm) →
    WFbTerms ts = true →
    WFbTerms (xformNegDistribute ts) = true ∧
    (xformNegDistribute ts).length = ts.length
  | [], _ => ⟨rfl, rfl⟩
  | .EXPR sube :: rest, h => by
    have htm := (WFbTerms_iff _).mp h
    have hrest : WFbTerms rest = true := by
      rw [WFbTerms_iff]
      intro t ht
      exact htm t (List.mem_cons_of_mem _ ht)
    obtain ⟨hd, hdl⟩ := WFb_xformNegDistribute rest hrest
    rw [show xformNegDistribute (.EXPR sube :: rest) =
      .EXPR sube.xform_neg_helper :: xformNegDistribute rest from rfl]
    constructor
    · rw [WFbTerms_iff]
      intro t ht
      rcases List.mem_cons.mp ht with rfl | ht
      · refine ⟨by simp, fun c hc => ?_⟩
        injection hc with hcc
        rw [← hcc]
        exact WFb_xform_neg_helper sube
          ((htm _ (List.mem_cons_self _ _)).2 sube rfl)
      · exact (WFbTerms_iff _).mp hd t ht
    · simp [hdl]
  | .NONE :: rest, h => by
    have := ((WFbTerms_iff _).mp h _ (List.mem_cons_self _ _)).1
    exact absurd rfl this
  | .REG r :: rest, h => by
    have htm := (WFbTerms_iff _).mp h
    have hrest : WFbTerms rest = true := by
      rw [WFbTerms_iff]
      intro t ht
      exact htm t (List.mem_cons_of_mem _ ht)
    obtain ⟨hd, hdl⟩ := WFb_xformNegDistribute rest hrest
    rw [show xformNegDistribute (.REG r :: rest) =
      xform_neg_term (.REG r) :: xformNegDistribute rest from rfl]
    constructor
    · rw [WFbTerms_iff]
      intro t ht
      rcases List.mem_cons.mp ht with rfl | ht
      · refine ⟨by simp [xform_neg_term], fun c hc => ?_⟩
        rw [xform_neg_term] at hc
        injection hc with hcc
        rw [← hcc]
        exact WFb_negterm_wrap _ (by simp) (fun c' hc' => by cases hc')
      · exact (WFbTerms_iff _).mp hd t ht
    · simp [hdl]
  | .INT n :: rest, h => by
    have htm := (WFbTerms_iff _).mp h
    have hrest : WFbTerms rest = true := by
      rw [WFbTerms_iff]
      intro t ht
      exact htm t (List.mem_cons_of_mem _ ht)
    obtain ⟨hd, hdl⟩ := WFb_xformNegDistribute rest hrest
    rw [show xformNegDistribute (.INT n :: rest) =
      xform_neg_term (.INT n) :: xformNegDistribute rest from rfl]
    constructor
    · rw [WFbTerms_iff]
      intro t ht
      rcases List.mem_cons.mp ht with rfl | ht
      · refine ⟨by simp [xform_neg_term], fun c hc => ?_⟩
        rw [xform_neg_term] at hc
        injection hc with hcc
        rw [← hcc]
        exact WFb_negterm_wrap _ (by simp) (fun c' hc' => by cases hc')
      · exact (WFbTerms_iff _).mp hd t ht
    · simp [hdl]
  | .SUBST i :: rest, h => by
    have htm := (WFbTerms_iff _).mp h
    have hrest : WFbTerms rest = true := by
      rw [WFbTerms_iff]
      intro t ht
      exact htm t (List.mem_cons_of_mem _ ht)
    obtain ⟨hd, hdl⟩ := WFb_xformNegDistribute rest hrest
    rw [show xformNegDistribute (.SUBST i :: rest) =
      xform_neg_term (.SUBST i) :: xformNegDistribute rest from rfl]
    constructor
    · rw [WFbTerms_iff]
      intro t ht
      rcases List.mem_cons.mp ht with rfl | ht
      · refine ⟨by simp [xform_neg_term], fun c hc => ?_⟩
        rw [xform_neg_term] at hc
        injection hc with hcc
        rw [← hcc]
        exact WFb_negterm_wrap _ (by simp) (fun c' hc' => by cases hc')
      · exact (WFbTerms_iff _).mp hd t ht
    · simp [hdl]
  | .FLOAT f :: rest, h => by
    have htm := (WFbTerms_iff _).mp h
    have hrest : WFbTerms rest = true := by
      rw [WFbTerms_iff]
      intro t ht
      exact htm t (List.mem_cons_of_mem _ ht)
    obtain ⟨hd, hdl⟩ := WFb_xformNegDistribute rest hrest
    rw [show xformNegDistribute (.FLOAT f :: rest) =
      xform_neg_term (.FLOAT f) :: xformNegDistribute rest from rfl]
    constructor
    · rw [WFbTerms_iff]
      intro t ht
      rcases List.mem_cons.mp ht with rfl | ht
      · refine ⟨by simp [xform_neg_term], fun c hc => ?_⟩
        rw [xform_neg_term] at hc
        injection hc with hcc
        rw [← hcc]
        exact WFb_negterm_wrap _ (by simp) (fun c' hc' => by cases hc')
      · exact (WFbTerms_iff _).mp hd t ht
    · simp [hdl]
  | .SYM s :: rest, h => by
    have htm := (WFbTerms_iff _).mp h
    have hrest : WFbTerms rest = true := by
      rw [WFbTerms_iff]
      intro t ht
      exact htm t (List.mem_cons_of_mem _ ht)
    obtain ⟨hd, hdl⟩ := WFb_xformNegDistribute rest hrest
    rw [show xformNegDistribute (.SYM s :: rest) =
      xform_neg_term (.SYM s) :: xformNegDistribute rest from rfl]
    constructor
    · rw [WFbTerms_iff]
      intro t ht
      rcases List.mem_cons.mp ht with rfl | ht
      · refine ⟨by simp [xform_neg_term], fun c hc => ?_⟩
        rw [xform_neg_term] at hc
        injection hc with hcc
        rw [← hcc]
        exact WFb_negterm_wrap _ (by simp) (fun c' hc' => by cases hc')
      · exact (WFbTerms_iff _).mp hd t ht
    · simp [hdl]
  | .LOC l :: rest, h => by
    have htm := (WFbTerms_iff _).mp h
    have hrest : WFbTerms rest = true := by
      rw [WFbTerms_iff]
      intro t ht
      exact htm t (List.mem_cons_of_mem _ ht)
    obtain ⟨hd, hdl⟩ := WFb_xformNegDistribute rest hrest
    rw [show xformNegDistribute (.LOC l :: rest) =
      xform_neg_term (.LOC l) :: xformNegDistribute rest from rfl]
    constructor
    · rw [WFbTerms_iff]
      intro t ht
      rcases List.mem_cons.mp ht with rfl | ht
      · refine ⟨by simp [xform_neg_term], fun c hc => ?_⟩
        rw [xform_neg_term] at hc
        injection hc with hcc
        rw [← hcc]
        exact WFb_negterm_wrap _ (by simp) (fun c' hc' => by cases hc')
      · exact (WFbTerms_iff _).mp hd t ht
    · simp [hdl]

end

/-- xform_neg preserves well-formedness. -/
theorem WFb_xform_neg (e : Expr) (h : e.WFb = true) :
    (e.xform_neg).WFb = true := by
  obtain ⟨op, ts⟩ := e
  by_cases hns : op = Op.NEG ∨ op = Op.SUB
  · rcases hns with rfl | rfl
    · rw [show Expr.xform_neg (.mk .NEG ts) =
        Expr.xform_neg_helper (.mk .IDENT ts) from rfl]
      apply WFb_xform_neg_helper
      obtain ⟨hl, hu1, hu2, hass, hts⟩ := (WFb_iff _ _).mp h
      rw [WFb_iff]
      refine ⟨hl, fun _ => rfl, fun _ => hu2 rfl, ?_, hts⟩
      intro hh
      have h5 := hu2 rfl
      omega
    · cases ts with
      | nil =>
        obtain ⟨hl, _⟩ := (WFb_iff _ _).mp h
        simp at hl
      | cons a rr =>
        cases rr with
        | nil =>
          obtain ⟨hl, hu1, _⟩ := (WFb_iff _ _).mp h
          exact absurd (hu1 (by simp)) (by simp [Op.isUnary])
        | cons rhs rest =>
          obtain ⟨hl, hu1, hu2, hass, hts⟩ := (WFb_iff _ _).mp h
          have htm := (WFbTerms_iff _).mp hts
          cases rhs with
          | EXPR sube =>
            rw [show Expr.xform_neg (.mk .SUB (a :: .EXPR sube :: rest)) =
              .mk .ADD (a :: .EXPR sube.xform_neg_helper :: rest) from rfl]
            rw [WFb_iff]
            refine ⟨by simp, fun hh => by simp at hh,
              fun hh => by simp [Op.isUnary] at hh, fun _ => rfl, ?_⟩
            rw [WFbTerms_iff]
            intro t ht
            rcases List.mem_cons.mp ht with rfl | ht
            · exact htm t (List.mem_cons_self _ _)
            rcases List.mem_cons.mp ht with rfl | ht
            · refine ⟨by simp, fun c hc => ?_⟩
              injection hc with hcc
              rw [← hcc]
              exact WFb_xform_neg_helper sube
                ((htm _ (List.mem_cons_of_mem _
                  (List.mem_cons_self _ _))).2 sube rfl)
            · exact htm t (List.mem_cons_of_mem _ (List.mem_cons_of_mem _ ht))
          | NONE =>
            have := (htm _ (List.mem_cons_of_mem _
              (List.mem_cons_self _ _))).1
            exact absurd rfl this
          | REG r =>
            rw [show Expr.xform_neg (.mk .SUB (a :: .REG r :: rest)) =
              .mk .ADD (a :: xform_neg_term (.REG r) :: rest) from rfl]
            rw [WFb_iff]
            refine ⟨by simp, fun hh => by simp at hh,
              fun hh => by simp [Op.isUnary] at hh, fun _ => rfl, ?_⟩
            rw [WFbTerms_iff]
            intro t ht
            rcases List.mem_cons.mp ht with rfl | ht
            · exact htm t (List.mem_cons_self _ _)
            rcases List.mem_cons.mp ht with rfl | ht
            · refine ⟨by simp [xform_neg_term], fun c hc => ?_⟩
              rw [xform_neg_term] at hc
              injection hc with hcc
              rw [← hcc]
              exact WFb_negterm_wrap _ (by simp) (fun c' hc' => by cases hc')
            · exact htm t (List.mem_cons_of_mem _ (List.mem_cons_of_mem _ ht))
          | INT n =>
            rw [show Expr.xform_neg (.mk .SUB (a :: .INT n :: rest)) =
              .mk .ADD (a :: xform_neg_term (.INT n) :: rest) from rfl]
            rw [WFb_iff]
            refine ⟨by simp, fun hh => by simp at hh,
              fun hh => by simp [Op.isUnary] at hh, fun _ => rfl, ?_⟩
            rw [WFbTerms_iff]
            intro t ht
            rcases List.mem_cons.mp ht with rfl | ht
            · exact htm t (List.mem_cons_self _ _)
            rcases List.mem_cons.mp ht with rfl | ht
            · refine ⟨by simp [xform_neg_term], fun c hc => ?_⟩
              rw [xform_neg_term] at hc
              injection hc with hcc
              rw [← hcc]
              exact WFb_negterm_wrap _ (by simp) (fun c' hc' => by cases hc')
            · exact htm t (List.mem_cons_of_mem _ (List.mem_cons_of_mem _ ht))
          | SUBST i =>
            rw [show Expr.xform_neg (.mk .SUB (a :: .SUBST i :: rest)) =
              .mk .ADD (a :: xform_neg_term (.SUBST i) :: rest) from rfl]
            rw [WFb_iff]
            refine ⟨by simp, fun hh => by simp at hh,
              fun hh => by simp [Op.isUnary] at hh, fun _ => rfl, ?_⟩
            rw [WFbTerms_iff]
            intro t ht
            rcases List.mem_cons.mp ht with rfl | ht
            · exact htm t (List.mem_cons_self _ _)
            rcases List.mem_cons.mp ht with rfl | ht
            · refine ⟨by simp [xform_neg_term], fun c hc => ?_⟩
              rw [xform_neg_term] at hc
              injection hc with hcc
              rw [← hcc]
              exact WFb_negterm_wrap _ (by simp) (fun c' hc' => by cases hc')
            · exact htm t (List.mem_cons_of_mem _ (List.mem_cons_of_mem _ ht))
          | FLOAT f =>
            rw [show Expr.xform_neg (.mk .SUB (a :: .FLOAT f :: rest)) =
              .mk .ADD (a :: xform_neg_term (.FLOAT f) :: rest) from rfl]
            rw [WFb_iff]
            refine ⟨by simp, fun hh => by simp at hh,
              fun hh => by simp [Op.isUnary] at hh, fun _ => rfl, ?_⟩
            rw [WFbTerms_iff]
            intro t ht
            rcases List.mem_cons.mp ht with rfl | ht
            · exact htm t (List.mem_cons_self _ _)
            rcases List.mem_cons.mp ht with rfl | ht
            · refine ⟨by simp [xform_neg_term], fun c hc => ?_⟩
              rw [xform_neg_term] at hc
              injection hc with hcc
              rw [← hcc]
              exact WFb_negterm_wrap _ (by simp) (fun c' hc' => by cases hc')
            · exact htm t (List.mem_cons_of_mem _ (List.mem_cons_of_mem _ ht))
          | SYM s =>
            rw [show Expr.xform_neg (.mk .SUB (a :: .SYM s :: rest)) =
              .mk .ADD (a :: xform_neg_term (.SYM s) :: rest) from rfl]
            rw [WFb_iff]
            refine ⟨by simp, fun hh => by simp at hh,
              fun hh => by simp [Op.isUnary] at hh, fun _ => rfl, ?_⟩
            rw [WFbTerms_iff]
            intro t ht
            rcases List.mem_cons.mp ht with rfl | ht
            · exact htm t (List.mem_cons_self _ _)
            rcases List.mem_cons.mp ht with rfl | ht
            · refine ⟨by simp [xform_neg_term], fun c hc => ?_⟩
              rw [xform_neg_term] at hc
              injection hc with hcc
              rw [← hcc]
              exact WFb_negterm_wrap _ (by simp) (fun c' hc' => by cases hc')
            · exact htm t (List.mem_cons_of_mem _ (List.mem_cons_of_mem _ ht))
          | LOC l =>
            rw [show Expr.xform_neg (.mk .SUB (a :: .LOC l :: rest)) =
              .mk .ADD (a :: xform_neg_term (.LOC l) :: rest) from rfl]
            rw [WFb_iff]
            refine ⟨by simp, fun hh => by simp at hh,
              fun hh => by simp [Op.isUnary] at hh, fun _ => rfl, ?_⟩
            rw [WFbTerms_iff]
            intro t ht
            rcases List.mem_cons.mp ht with rfl | ht
            · exact htm t (List.mem_cons_self _ _)
            rcases List.mem_cons.mp ht with rfl | ht
            · refine ⟨by simp [xform_neg_term], fun c hc => ?_⟩
              rw [xform_neg_term] at hc
              injection hc with hcc
              rw [← hcc]
              exact WFb_negterm_wrap _ (by simp) (fun c' hc' => by cases hc')
            · exact htm t (List.mem_cons_of_mem _ (List.mem_cons_of_mem _ ht))
  · push_neg at hns
    rw [xform_neg_ne op ts hns.1 hns.2]
    exact h

/-- Main C1 invariant theorem: level_tree with fold_const and
simplify_ident enabled establishes the amended invariant on every
well-formed input, by well-founded induction on (countNS, esize)
mirroring level_tree's own recursion. -/
theorem c1_level_tree_aux (srm : Bool) (e : Expr) (hWF : e.WFb = true) :
    c1Amended (Expr.level_tree true true srm e) = true := by
  rw [Expr.level_tree_def]
  rcases hxe : e.xform_neg with ⟨xop, xts⟩
  have hxWF : (Expr.mk xop xts).WFb = true := by
    rw [← hxe]
    exact WFb_xform_neg e hWF
  have hxop := xform_neg_op_ne e
  rw [hxe] at hxop
  simp only [Expr.op_mk] at hxop
  obtain ⟨hl, hu1, hu2, hass, hts⟩ := (WFb_iff _ _).mp hxWF
  have htm := (WFbTerms_iff _).mp hts
  have hchild : ∀ c, ExprTerm.EXPR c ∈ xts →
      c1Amended (Expr.level_tree true true srm c) = true := by
    intro c hc
    exact c1_level_tree_aux srm c ((htm _ hc).2 c rfl)
  have hmap : ∀ t ∈ xts.map (levelChildWith (Expr.level_tree true true srm)),
      TermOKL t := by
    intro t ht
    obtain ⟨x, hx, rfl⟩ := List.mem_map.mp ht
    by_cases hxx : x.isExpr = true
    · obtain ⟨c, rfl⟩ := isExpr_exists x hxx
      rw [show levelChildWith (Expr.level_tree true true srm)
          (ExprTerm.EXPR c) =
          ExprTerm.EXPR (Expr.level_tree true true srm c) from rfl]
      left
      refine ⟨by simp, fun c' hc' => ?_⟩
      injection hc' with h'
      rw [← h']
      exact hchild c hx
    · rw [Bool.not_eq_true] at hxx
      rw [show levelChildWith (Expr.level_tree true true srm) x = x from by
        rw [levelChildWith, hxx]
        rfl]
      left
      refine ⟨(htm x hx).1, fun c' hc' => ?_⟩
      rw [hc'] at hxx
      simp [ExprTerm.isExpr] at hxx
  simp only [Expr.op_mk, Expr.terms_mk]
  by_cases hseg : xop = Op.SEG ∧ ∃ cts rest2,
      xts.map (levelChildWith (Expr.level_tree true true srm)) =
        ExprTerm.EXPR (.mk .SEGOFF cts) :: rest2
  · obtain ⟨rfl, cts, rest2, hmts⟩ := hseg
    rw [hmts]
    rw [show segPrepass (.mk .SEG
        (ExprTerm.EXPR (.mk .SEGOFF cts) :: rest2)) =
      .mk .IDENT (.EXPR (.mk .IDENT cts.dropLast) :: rest2) from rfl]
    have hxl1 : xts.length = 1 := hu2 rfl
    have hr2 : rest2 = [] := by
      have hLM := congrArg List.length hmts
      rw [List.length_map, hxl1, List.length_cons] at hLM
      have : rest2.length = 0 := by omega
      exact List.length_eq_zero.mp this
    subst hr2
    have hT := hmap _ (by rw [hmts]; exact List.mem_cons_self _ _)
    have hcA : c1Amended (.mk .SEGOFF cts) = true := by
      rcases hT with ⟨_, hsub⟩ | ⟨a, heq, _⟩
      · exact hsub _ rfl
      · injection heq with h'
        injection h' with h1 h2
        simp at h1
    have hdes := c1Amended_destruct _ _ hcA
    have hclen : cts.length = 2 := by
      have hl2 := hdes.2.2.2.2.2.2.1
      have hgrow := hdes.2.2.2.2.2.2.2.1
      have hone := hdes.2.2.2.1
      rcases Nat.lt_or_ge cts.length 2 with hlt | hge
      · exfalso
        rcases hone (by omega) with h | h | h | h <;> simp at h
      · rcases Nat.lt_or_ge 2 cts.length with hgt | hle2
        · exfalso
          have := hgrow hgt
          simp [Op.isAssociative] at this
        · omega
    obtain ⟨a, b, rfl⟩ : ∃ a b, cts = [a, b] := by
      cases cts with
      | nil => simp at hclen
      | cons x r =>
        cases r with
        | nil => simp at hclen
        | cons y m =>
          cases m with
          | nil => exact ⟨x, y, rfl⟩
          | cons z k => simp at hclen
    rw [show ([a, b] : List ExprTerm).dropLast = [a] from rfl]
    refine level_op_c1 srm Op.IDENT [.EXPR (.mk .IDENT [a])] (by simp)
      (by simp) ?_ (by simp) (fun _ => rfl) (fun hh => by simp at hh)
      (fun _ => rfl)
    intro t ht
    rcases List.mem_singleton.mp ht with rfl
    right
    refine ⟨a, rfl, ?_⟩
    refine ⟨hdes.2.2.2.2.2.2.2.2 a (by simp), fun c hc => ?_⟩
    exact ⟨(hdes.1 c (by rw [← hc]; simp)).1, (hdes.1 c (by rw [← hc]; simp)).2.2⟩
  · have hsegid : segPrepass (.mk xop
        (xts.map (levelChildWith (Expr.level_tree true true srm)))) =
        .mk xop (xts.map (levelChildWith (Expr.level_tree true true srm))) := by
      unfold segPrepass
      split
      · rename_i cts rest2 heq
        injection heq with h1 h2
        exact absurd ⟨h1, cts, rest2, h2⟩ hseg
      · rfl
    rw [hsegid]
    refine level_op_c1 srm xop _ hxop.1 hxop.2 hmap ?_ ?_ ?_ ?_
    · rw [List.length_map]
      exact hl
    · intro hh
      rw [List.length_map] at hh
      exact hu1 hh
    · intro hh
      rw [List.length_map] at hh
      exact hass hh
    · intro hh
      rw [List.length_map]
      exact hu2 (by rw [hh]; decide)
termination_by (e.countNS, e.esize)
decreasing_by
  have hmem : ExprTerm.EXPR c ∈ (e.xform_neg).terms := by
    rw [hxe]
    simpa using hc
  rcases level_tree_dec hmem with h | ⟨h1, h2⟩
  · exact Prod.Lex.left _ _ h
  · rw [h1]
    exact Prod.Lex.right _ h2

/-- C1 (corrected): on every well-formed input, level_tree with constant
folding and identity simplification enabled establishes the amended
invariant at every node of the result: no sub-expression term shares the
node's associative operator, no IDENT wrapper chain remains, a numeric
node holds at most two integer terms (at most one unless the operator is
associative), a node with exactly one term has operator IDENT, NOT, LNOT
or SEG, and no NEG or SUB operator survives. -/
theorem c1_level_tree (srm : Bool) (e : Expr) (hWF : e.WFb = true) :
    c1Amended (Expr.level_tree true true srm e) = true :=
  c1_level_tree_aux srm e hWF

/-- C1 counterexample: the claim as stated fails on NOT applied to a
symbol.  level_tree leaves the node as NOT with a single non-expression
term, but the claim requires any node left with exactly one term to have
operator IDENT. -/
theorem c1_counterexample :
    Expr.level_tree true true true (.mk .NOT [.SYM 0]) = .mk .NOT [.SYM 0] ∧
    c1Stated (.mk .NOT [.SYM 0]) = false := by
  constructor
  · simp [Expr.level_tree_def, levelChildWith, Expr.xform_neg, Expr.level_op,
      segPrepass, hoistIdent, foldPass, foldFrom, IntNum.calcOp,
      eraseEmptiesAfter, Expr.simplify_identity, Op.isNonNum, bringUpIdent,
      ExprTerm.get_int, IntNum.is_pos1, IntNum.is_zero, IntNum.is_neg1,
      can_destroy_int_left, can_destroy_int_right, is_constant,
      ExprTerm.the_expr, eraseFirstInt, firstIntTerm, ExprTerm.is_empty,
      Op.isAssociative, ExprTerm.isExpr, levelPhase, moveUpTerms, getIntAt,
      sameOpExpr, ExprTerm.isInt, Expr.contains, containsTerms]
  · decide

/-- C1 witness: the corrected theorem applied to the well-formed
expression sym0 + (1 + sym1). -/
theorem c1_level_tree_witness :
    (Expr.mk .ADD [.SYM 0, .EXPR (.mk .ADD [.INT 1, .SYM 1])]).WFb = true ∧
    c1Amended (Expr.level_tree true true true
      (.mk .ADD [.SYM 0, .EXPR (.mk .ADD [.INT 1, .SYM 1])])) = true :=
  ⟨by decide, c1_level_tree true _ (by decide)⟩

end yasm
